import Mathlib

/-!
# ineffa::flat_hash_map and ineffa::constexpr_hash_map

A shallow embedding of `src/src/flat_hash_map.hpp` and `src/src/constexpr_hash_map.hpp`
together with the properties proved about it.

Conventions of the embedding

* `uint32_t` values (`size_type`) are natural numbers; every operation that can wrap is
  written with an explicit reduction `u32` (modulo `2 ^ 32`).
* The control array and the value array are total functions from slot index to content;
  a value slot is `none` while no object lives in it.
* `while (true)` loops take a `fuel` argument, the number of loop iterations they may run;
  a loop that runs out of fuel yields `none`.  Moving the key/value object out of a slot that
  holds no object yields `none` as well, and the key test on such a slot is false.
* The buffer of `rehash` is not modelled byte by byte: its byte size is computed as the
  code computes it, `sizeof(kv_slot_t)` and `alignof(kv_slot_t)` being given by an instance
  of `kv_slot_layout K V`, and `rehash` yields `none` when that size is too small for the
  slots of the new capacity.
* The theorems about reachable states are stated for a given amount of fuel and show that
  the operation returns (a result `some _`) once the fuel covers the capacity and the
  buffer it allocates, if any, holds its slots.
* The template parameter `Hash` is the function `hash_func_ : K → Nat`; `KeyEqual` is its
  default `std::equal_to<>`, i.e. equality on `K`.
-/

namespace ineffa

/-! ## Machine arithmetic -/

/-- Truncation of a natural number to `uint32_t`. -/
def u32 (n : Nat) : Nat := n % 2 ^ 32

/-- Truncation of a natural number to `std::size_t`, 64 bits wide. -/
def u64 (n : Nat) : Nat := n % 2 ^ 64

/-- The sentinel `ctrl_slot_t::EMPTY_DIB`, the largest `uint32_t`. -/
def EMPTY_DIB : Nat := 2 ^ 32 - 1

/-- The struct `ctrl_slot_t`: truncated hash and distance from the initial bucket. -/
structure ctrl_slot_t where
  hash : Nat := 0
  dib : Nat := 2 ^ 32 - 1
deriving DecidableEq

/-- The member `ctrl_slot_t::is_empty`. -/
def ctrl_slot_t.is_empty (s : ctrl_slot_t) : Bool := s.dib == EMPTY_DIB

/-- The expression `((uint64_t)hash * (uint64_t)capacity_) >> 32`: the ideal bucket. -/
def bucket (hash capacity : Nat) : Nat := (hash * capacity) % 2 ^ 64 / 2 ^ 32

/-- The expression `idx + 1 == capacity_ ? 0 : idx + 1`. -/
def next_idx (capacity idx : Nat) : Nat :=
  if u32 (idx + 1) = capacity then 0 else u32 (idx + 1)

/-! ## The dynamic map -/

/-- The data members of `flat_hash_map`: the control region and the value region of
`data_`, then `size_` and `capacity_`. -/
structure flat_hash_map (K V : Type) where
  ctrl_slots : Nat → ctrl_slot_t := fun _ => {}
  kv_slots : Nat → Option (K × V) := fun _ => none
  size_ : Nat := 0
  capacity_ : Nat := 0

namespace flat_hash_map

variable {K V : Type} [DecidableEq K]

/-- The default constructor `flat_hash_map()`. -/
def empty : flat_hash_map K V := {}

/-- The value `(size_type)hash_func_(key)`. -/
def hash32 (hash_func_ : K → Nat) (key : K) : Nat := u32 (hash_func_ key)

/-- Writes a control entry and a key/value object into slot `idx`. -/
def set_slot (m : flat_hash_map K V) (idx : Nat) (c : ctrl_slot_t) (kv : Option (K × V)) :
    flat_hash_map K V :=
  { m with
    ctrl_slots := Function.update m.ctrl_slots idx c
    kv_slots := Function.update m.kv_slots idx kv }

/-- The member `destroy_kv`: destroys the object of slot `idx` and marks its control
entry empty (the stored hash stays). -/
def destroy_kv (m : flat_hash_map K V) (idx : Nat) : flat_hash_map K V :=
  set_slot m idx { m.ctrl_slots idx with dib := EMPTY_DIB } none

/-- The test `is_key_equal_(kv_slots[idx].key(), key)`. -/
def key_equal_at (m : flat_hash_map K V) (idx : Nat) (key : K) : Bool :=
  match m.kv_slots idx with
  | some kv => decide (kv.1 = key)
  | none => false

/-! ### Iterators -/

/-- The loop of `iterator_impl_t::skip_empty`; it runs at most `capacity - idx_` times. -/
def skip_empty_loop (m : flat_hash_map K V) : Nat → Nat → Nat
  | 0, idx => idx
  | n + 1, idx =>
    if idx < m.capacity_ ∧ (m.ctrl_slots idx).is_empty = true then
      skip_empty_loop m n (u32 (idx + 1))
    else idx

/-- The member `iterator_impl_t::skip_empty`, returning the new `idx_`. -/
def skip_empty (m : flat_hash_map K V) (idx : Nat) : Nat :=
  skip_empty_loop m (m.capacity_ - idx) idx

/-- The constructor `iterator_impl_t(map, idx)`; an iterator is its `idx_`. -/
def iterator (m : flat_hash_map K V) (idx : Nat) : Nat :=
  if idx < m.capacity_ then skip_empty m idx else idx

/-- The member `begin`. -/
def begin_ (m : flat_hash_map K V) : Nat := iterator m 0

/-- The member `end`. -/
def end_ (m : flat_hash_map K V) : Nat := iterator m m.capacity_

/-- The member `iterator_impl_t::operator++`. -/
def iterator_next (m : flat_hash_map K V) (it : Nat) : Nat := skip_empty m (u32 (it + 1))

/-- The member `iterator_impl_t::operator*`: the object of the slot the iterator is at. -/
def deref (m : flat_hash_map K V) (it : Nat) : Option (K × V) := m.kv_slots it

/-- The member `size`. -/
def size (m : flat_hash_map K V) : Nat := m.size_

/-- The member `capacity`. -/
def capacity (m : flat_hash_map K V) : Nat := m.capacity_

/-! ### Rehash -/

/-- The loop of `insert_for_rehash`. -/
def insert_for_rehash_loop :
    Nat → flat_hash_map K V → ctrl_slot_t → K × V → Nat → Option (flat_hash_map K V)
  | 0, _, _, _, _ => none
  | fuel + 1, m, ctrl_slot, kv, idx =>
    if (m.ctrl_slots idx).is_empty = true then
      some (set_slot m idx ctrl_slot (some kv))
    else if (m.ctrl_slots idx).dib < ctrl_slot.dib then
      match m.kv_slots idx with
      | none => none
      | some old_kv =>
        insert_for_rehash_loop fuel (set_slot m idx ctrl_slot (some kv))
          { m.ctrl_slots idx with dib := u32 ((m.ctrl_slots idx).dib + 1) } old_kv
          (next_idx m.capacity_ idx)
    else
      insert_for_rehash_loop fuel m { ctrl_slot with dib := u32 (ctrl_slot.dib + 1) } kv
        (next_idx m.capacity_ idx)

/-- The member `insert_for_rehash`. -/
def insert_for_rehash (fuel : Nat) (m : flat_hash_map K V) (hash : Nat) (kv : K × V) :
    Option (flat_hash_map K V) :=
  insert_for_rehash_loop fuel m { hash := hash, dib := 0 } kv (bucket hash m.capacity_)

/-- The two constants of the key and value types that the buffer arithmetic of `rehash`
reads: `sizeof(kv_slot_t)` and `alignof(kv_slot_t)`, a power of two. -/
class kv_slot_layout (K V : Type) where
  sizeof_kv : Nat
  alignof_kv : Nat

/-- The constant `sizeof(ctrl_slot_t)`: two members of type `uint32_t`. -/
def sizeof_ctrl_slot_t : Nat := 8

/-- The constant `sizeof(kv_slot_t)`. -/
def sizeof_kv_slot_t (K V : Type) [h : kv_slot_layout K V] : Nat := h.sizeof_kv

/-- The constant `alignof(kv_slot_t)`. -/
def alignof_kv_slot_t (K V : Type) [h : kv_slot_layout K V] : Nat := h.alignof_kv

/-- The expression
`(sizeof(ctrl_slot_t) * capacity + alignof(kv_slot_t) - 1) & ~(alignof(kv_slot_t) - 1)`,
evaluated in `std::size_t`: the offset of the value slots in the buffer. -/
def kv_slots_offset (K V : Type) [kv_slot_layout K V] (capacity : Nat) : Nat :=
  u64 (sizeof_ctrl_slot_t * capacity + alignof_kv_slot_t K V - 1) &&&
    (2 ^ 64 - 1 - u64 (alignof_kv_slot_t K V - 1))

/-- The local `new_data_size` of `rehash`: the offset of the value slots plus
`sizeof(kv_slot_t) * new_capacity`, evaluated in `std::size_t` and then stored in a
`size_type`, that is truncated to 32 bits.  It is the number of bytes passed to
`operator new[]`. -/
def new_data_size (K V : Type) [kv_slot_layout K V] (new_capacity : Nat) : Nat :=
  u32 (u64 (kv_slots_offset K V new_capacity + sizeof_kv_slot_t K V * new_capacity))

/-- The buffer of `new_data_size` bytes holds the `new_capacity` control entries at its
start and the `new_capacity` value slots from `kv_slots_offset` on. -/
def buffer_fits (K V : Type) [kv_slot_layout K V] (new_capacity : Nat) : Bool :=
  decide (sizeof_ctrl_slot_t * new_capacity ≤ new_data_size K V new_capacity) &&
    decide (kv_slots_offset K V new_capacity + sizeof_kv_slot_t K V * new_capacity ≤
      new_data_size K V new_capacity)

/-- The new buffer of `rehash`: `capacity` default-constructed control entries and as many
value slots without an object; `size_` is not touched by `rehash`. -/
def fresh_buffer (size capacity : Nat) : flat_hash_map K V :=
  { ctrl_slots := fun _ => {}, kv_slots := fun _ => none, size_ := size, capacity_ := capacity }

/-- The body of the loop of `rehash` for the old slot `idx`. -/
def rehash_step (fuel : Nat) (old : flat_hash_map K V) (acc : flat_hash_map K V) (idx : Nat) :
    Option (flat_hash_map K V) :=
  if (old.ctrl_slots idx).is_empty = true then some acc
  else
    match old.kv_slots idx with
    | none => none
    | some kv => insert_for_rehash fuel acc (old.ctrl_slots idx).hash kv

/-- The loop of `rehash` over the old slots, started on the new buffer: every live entry of
the old buffer is re-inserted in slot order with its stored hash. -/
def rehash_loop (fuel : Nat) (m : flat_hash_map K V) (new_capacity : Nat) :
    Option (flat_hash_map K V) :=
  (List.range m.capacity_).foldlM (rehash_step fuel m) (fresh_buffer m.size_ new_capacity)

/-- The member `rehash`: a buffer of `new_data_size` bytes is allocated (the allocation is
taken to succeed), its `new_capacity` control entries are default-constructed, then the
loop over the old slots runs.  When the 32-bit `new_data_size` is smaller than the slots
need, the buffer is too short for the slots that are written, and there is no result
(`none`). -/
def rehash [kv_slot_layout K V] (fuel : Nat) (m : flat_hash_map K V) (new_capacity : Nat) :
    Option (flat_hash_map K V) :=
  if buffer_fits K V new_capacity = true then rehash_loop fuel m new_capacity else none

/-! ### Lookup -/

/-- The loop of `find`. -/
def find_loop (m : flat_hash_map K V) (key : K) (hash : Nat) : Nat → Nat → Nat → Option Nat
  | 0, _, _ => none
  | fuel + 1, idx, dib =>
    if (m.ctrl_slots idx).is_empty = true then some (end_ m)
    else if (m.ctrl_slots idx).hash = hash ∧ key_equal_at m idx key = true then
      some (iterator m idx)
    else if (m.ctrl_slots idx).dib < dib then some (end_ m)
    else find_loop m key hash fuel (next_idx m.capacity_ idx) (u32 (dib + 1))

/-- The member `find`; the result is the `idx_` of the iterator returned. -/
def find (hash_func_ : K → Nat) (fuel : Nat) (m : flat_hash_map K V) (key : K) : Option Nat :=
  if m.capacity_ = 0 then some (end_ m)
  else
    find_loop m key (hash32 hash_func_ key) fuel
      (bucket (hash32 hash_func_ key) m.capacity_) 0

/-- The member `contains`. -/
def contains (hash_func_ : K → Nat) (fuel : Nat) (m : flat_hash_map K V) (key : K) :
    Option Bool :=
  (find hash_func_ fuel m key).map fun it => decide (it ≠ end_ m)

/-! ### Erase -/

/-- The statement `ctrl_slots[idx].dib--`. -/
def dec_dib (m : flat_hash_map K V) (idx : Nat) : flat_hash_map K V :=
  { m with
    ctrl_slots := Function.update m.ctrl_slots idx
      { m.ctrl_slots idx with dib := u32 ((m.ctrl_slots idx).dib + (2 ^ 32 - 1)) } }

/-- One round of the backward shift: the entry of slot `nxt` moves to slot `idx`, slot `nxt`
is destroyed and the displacement of the moved entry is decremented. -/
def shift_step (m : flat_hash_map K V) (idx nxt : Nat) : flat_hash_map K V :=
  dec_dib (destroy_kv (set_slot m idx (m.ctrl_slots nxt) (m.kv_slots nxt)) nxt) idx

/-- The backward-shift loop of `erase`; slot `idx` has just been emptied. -/
def erase_shift : Nat → flat_hash_map K V → Nat → Option (flat_hash_map K V)
  | 0, _, _ => none
  | fuel + 1, m, idx =>
    if (m.ctrl_slots (next_idx m.capacity_ idx)).is_empty = true ∨
        (m.ctrl_slots (next_idx m.capacity_ idx)).dib = 0 then
      some m
    else
      erase_shift fuel (shift_step m idx (next_idx m.capacity_ idx)) (next_idx m.capacity_ idx)

/-- The search loop of `erase`; `fuel_shift` is the fuel of the backward-shift loop. -/
def erase_loop (fuel_shift : Nat) (m : flat_hash_map K V) (key : K) (hash : Nat) :
    Nat → Nat → Nat → Option (flat_hash_map K V × Nat)
  | 0, _, _ => none
  | fuel + 1, idx, dib =>
    if (m.ctrl_slots idx).is_empty = true then some (m, 0)
    else if (m.ctrl_slots idx).hash = hash ∧ key_equal_at m idx key = true then
      (erase_shift fuel_shift (destroy_kv { m with size_ := u32 (m.size_ + (2 ^ 32 - 1)) } idx)
        idx).map fun m1 => (m1, 1)
    else if (m.ctrl_slots idx).dib < dib then some (m, 0)
    else erase_loop fuel_shift m key hash fuel (next_idx m.capacity_ idx) (u32 (dib + 1))

/-- The member `erase`; the result is the new state and the returned count. -/
def erase (hash_func_ : K → Nat) (fuel : Nat) (m : flat_hash_map K V) (key : K) :
    Option (flat_hash_map K V × Nat) :=
  if m.capacity_ = 0 then some (m, 0)
  else
    erase_loop fuel m key (hash32 hash_func_ key) fuel
      (bucket (hash32 hash_func_ key) m.capacity_) 0

/-! ### Insertion -/

/-- The inner loop of `try_emplace`, which carries the displaced resident onward. -/
def try_emplace_carry :
    Nat → flat_hash_map K V → ctrl_slot_t → K × V → Nat → Nat →
      Option (flat_hash_map K V × Nat × Bool)
  | 0, _, _, _, _, _ => none
  | fuel + 1, m, ctrl_slot, kv, idx, inserted_idx =>
    if (m.ctrl_slots (next_idx m.capacity_ idx)).is_empty = true then
      some
        ({ set_slot m (next_idx m.capacity_ idx)
              { ctrl_slot with dib := u32 (ctrl_slot.dib + 1) } (some kv) with
            size_ := u32 (m.size_ + 1) },
          iterator
            { set_slot m (next_idx m.capacity_ idx)
                { ctrl_slot with dib := u32 (ctrl_slot.dib + 1) } (some kv) with
              size_ := u32 (m.size_ + 1) }
            inserted_idx,
          true)
    else if (m.ctrl_slots (next_idx m.capacity_ idx)).dib < u32 (ctrl_slot.dib + 1) then
      match m.kv_slots (next_idx m.capacity_ idx) with
      | none => none
      | some old_kv =>
        try_emplace_carry fuel
          (set_slot m (next_idx m.capacity_ idx)
            { ctrl_slot with dib := u32 (ctrl_slot.dib + 1) } (some kv))
          (m.ctrl_slots (next_idx m.capacity_ idx)) old_kv (next_idx m.capacity_ idx)
          inserted_idx
    else
      try_emplace_carry fuel m { ctrl_slot with dib := u32 (ctrl_slot.dib + 1) } kv
        (next_idx m.capacity_ idx) inserted_idx

/-- The outer loop of `try_emplace`. -/
def try_emplace_loop (m : flat_hash_map K V) (key : K) (value : V) :
    Nat → ctrl_slot_t → Nat → Option (flat_hash_map K V × Nat × Bool)
  | 0, _, _ => none
  | fuel + 1, ctrl_slot, idx =>
    if (m.ctrl_slots idx).is_empty = true then
      some
        ({ set_slot m idx ctrl_slot (some (key, value)) with size_ := u32 (m.size_ + 1) },
          iterator
            { set_slot m idx ctrl_slot (some (key, value)) with size_ := u32 (m.size_ + 1) }
            idx,
          true)
    else if (m.ctrl_slots idx).hash = ctrl_slot.hash ∧ key_equal_at m idx key = true then
      some (m, iterator m idx, false)
    else if (m.ctrl_slots idx).dib < ctrl_slot.dib then
      match m.kv_slots idx with
      | none => none
      | some old_kv =>
        try_emplace_carry fuel (set_slot m idx ctrl_slot (some (key, value)))
          (m.ctrl_slots idx) old_kv idx idx
    else
      try_emplace_loop m key value fuel { ctrl_slot with dib := u32 (ctrl_slot.dib + 1) }
        (next_idx m.capacity_ idx)

/-- The growth step at the head of `try_emplace`. -/
def grow_if_needed [kv_slot_layout K V] (fuel : Nat) (m : flat_hash_map K V) : Option (flat_hash_map K V) :=
  if u32 (m.capacity_ * 7) / 8 ≤ m.size_ then
    rehash fuel m (if m.capacity_ = 0 then 8 else u32 (m.capacity_ * 3) / 2)
  else some m

/-- The member `try_emplace`; the result is the new state, the `idx_` of the iterator
returned and the flag `inserted`. -/
def try_emplace [kv_slot_layout K V] (hash_func_ : K → Nat) (fuel : Nat) (m : flat_hash_map K V) (key : K)
    (value : V) : Option (flat_hash_map K V × Nat × Bool) :=
  (grow_if_needed fuel m).bind fun m1 =>
    try_emplace_loop m1 key value fuel { hash := hash32 hash_func_ key, dib := 0 }
      (bucket (hash32 hash_func_ key) m1.capacity_)

/-- The member `insert`. -/
def insert [kv_slot_layout K V] (hash_func_ : K → Nat) (fuel : Nat) (m : flat_hash_map K V) (key_and_value : K × V) :
    Option (flat_hash_map K V × Nat × Bool) :=
  try_emplace hash_func_ fuel m key_and_value.1 key_and_value.2

/-- The member `operator[]`: the new state and the slot whose mapped value the returned
reference denotes. -/
def subscript [kv_slot_layout K V] [Inhabited V] (hash_func_ : K → Nat) (fuel : Nat) (m : flat_hash_map K V)
    (key : K) : Option (flat_hash_map K V × Nat) :=
  (try_emplace hash_func_ fuel m key default).map fun r => (r.1, r.2.1)

/-- A write of `value` through a reference to the mapped value of slot `idx`. -/
def write_value (m : flat_hash_map K V) (idx : Nat) (value : V) : flat_hash_map K V :=
  { m with
    kv_slots := Function.update m.kv_slots idx ((m.kv_slots idx).map fun kv => (kv.1, value)) }

/-- The statement `map[key] = value`. -/
def subscript_assign [kv_slot_layout K V] [Inhabited V] (hash_func_ : K → Nat) (fuel : Nat) (m : flat_hash_map K V)
    (key : K) (value : V) : Option (flat_hash_map K V) :=
  (subscript hash_func_ fuel m key).map fun r => write_value r.1 r.2 value

/-! ### Clear, move, construction from a list -/

/-- The member `clear`. -/
def clear (m : flat_hash_map K V) : flat_hash_map K V :=
  if m.capacity_ = 0 then m
  else
    { (List.range m.capacity_).foldl
        (fun acc idx => if (acc.ctrl_slots idx).is_empty = true then acc else destroy_kv acc idx)
        m with
      size_ := 0 }

/-- The move constructor: the new object, then the moved-from object. -/
def move_construct (other : flat_hash_map K V) : flat_hash_map K V × flat_hash_map K V :=
  ({ ctrl_slots := other.ctrl_slots, kv_slots := other.kv_slots,
     size_ := other.size_, capacity_ := other.capacity_ },
   { ctrl_slots := fun _ => {}, kv_slots := fun _ => none, size_ := 0, capacity_ := 0 })

/-- The move assignment `self = std::move(other)`.  The flag `same_object` is the outcome
of the test `this == &other`: `self` and `other` are then two names of one object, and
nothing is executed.  Otherwise the entries of `self` are destroyed by `clear()` and its
buffer is released, then `self` takes the buffer, `capacity_` and `size_` of `other`, and
`capacity_` and `size_` of `other` become 0.  The result is the new `self`, then the new
`other`. -/
def move_assign (same_object : Bool) (self other : flat_hash_map K V) :
    flat_hash_map K V × flat_hash_map K V :=
  if same_object = true then (self, other)
  else
    ({ ctrl_slots := other.ctrl_slots, kv_slots := other.kv_slots,
       size_ := other.size_, capacity_ := other.capacity_ },
     { ctrl_slots := fun _ => {}, kv_slots := fun _ => none, size_ := 0, capacity_ := 0 })

/-- The loop of the initializer-list constructor that picks `required_capacity`. -/
def required_capacity_loop : Nat → Nat → Nat → Option Nat
  | 0, _, _ => none
  | fuel + 1, n, required_capacity =>
    if u32 (required_capacity * 7) / 8 < n then
      required_capacity_loop fuel n (u32 (required_capacity * 3) / 2)
    else some required_capacity

/-- The initializer-list constructor. -/
def init_list [kv_slot_layout K V] (hash_func_ : K → Nat) (fuel : Nat) (l : List (K × V)) :
    Option (flat_hash_map K V) :=
  (required_capacity_loop fuel l.length 8).bind fun required_capacity =>
    (rehash fuel (empty : flat_hash_map K V) required_capacity).bind fun m0 =>
      l.foldlM (fun acc kv => (insert hash_func_ fuel acc kv).map fun r => r.1) m0

/-! ## Predicates used to state the properties -/

/-- Slot `i` is occupied: its control entry is not the empty sentinel. -/
def occ (m : flat_hash_map K V) (i : Nat) : Prop := (m.ctrl_slots i).dib ≠ EMPTY_DIB

/-- Slot `i` is an occupied slot of the table and stores the pair `(k, v)`. -/
def slot_holds (m : flat_hash_map K V) (i : Nat) (k : K) (v : V) : Prop :=
  i < m.capacity_ ∧ occ m i ∧ m.kv_slots i = some (k, v)

/-- Some occupied slot stores the pair `(k, v)`. -/
def holds (m : flat_hash_map K V) (k : K) (v : V) : Prop := ∃ i, slot_holds m i k v

/-- No occupied slot stores the key `k`. -/
def fresh (m : flat_hash_map K V) (k : K) : Prop := ∀ i v, ¬ slot_holds m i k v

/-- The number of control slots whose displacement is not the empty sentinel. -/
def occupied_count (m : flat_hash_map K V) : Nat :=
  (List.range m.capacity_).countP fun i => !(m.ctrl_slots i).is_empty

/-- The keys of the occupied slots, in slot order. -/
def keys (m : flat_hash_map K V) : List K :=
  (List.range m.capacity_).filterMap fun i =>
    if (m.ctrl_slots i).is_empty = true then none else (m.kv_slots i).map Prod.fst

/-- Well-formedness of the table: every occupied slot stores an object, the truncated hash
of its key, and a displacement that is its circular distance from the ideal bucket; a slot
with positive displacement follows an occupied slot whose displacement is at most one less;
no key is stored twice. -/
structure WF (hash_func_ : K → Nat) (m : flat_hash_map K V) : Prop where
  cap_lt : m.capacity_ < 2 ^ 32
  slot_ok : ∀ i, i < m.capacity_ → occ m i →
    ∃ k v, m.kv_slots i = some (k, v) ∧ (m.ctrl_slots i).hash = hash32 hash_func_ k ∧
      (bucket (m.ctrl_slots i).hash m.capacity_ + (m.ctrl_slots i).dib) % m.capacity_ = i
  order : ∀ i, i < m.capacity_ → occ m (next_idx m.capacity_ i) →
    0 < (m.ctrl_slots (next_idx m.capacity_ i)).dib →
      occ m i ∧ (m.ctrl_slots (next_idx m.capacity_ i)).dib ≤ (m.ctrl_slots i).dib + 1
  uniq : ∀ i j k v w, slot_holds m i k v → slot_holds m j k w → i = j

/-- The invariant of the reachable states. -/
structure Inv (hash_func_ : K → Nat) (m : flat_hash_map K V) : Prop where
  wf : WF hash_func_ m
  size_eq : m.size_ = occupied_count m
  cap_min : m.capacity_ = 0 ∨ 8 ≤ m.capacity_
  load : 8 * m.size_ ≤ 7 * m.capacity_

/-- An entry with displacement `d` may be stored in slot `idx`: when `d` is positive, the
slot before `idx` is occupied and its displacement is at least `d - 1`. -/
def pred_ok (m : flat_hash_map K V) (idx d : Nat) : Prop :=
  0 < d → ∃ j, j < m.capacity_ ∧ next_idx m.capacity_ j = idx ∧ occ m j ∧
    d ≤ (m.ctrl_slots j).dib + 1

/-- The candidate control entry `c` of key `k` is about to be compared with slot `idx`. -/
def Pending (hash_func_ : K → Nat) (m : flat_hash_map K V) (c : ctrl_slot_t) (k : K)
    (idx : Nat) : Prop :=
  c.hash = hash32 hash_func_ k ∧ (bucket c.hash m.capacity_ + c.dib) % m.capacity_ = idx ∧
    pred_ok m idx c.dib

/-- The state of the table during the backward shift of `erase`: slot `idx` is the hole,
whose former entry had displacement `dh`; the table is well-formed except that the entry
after the hole may still have to move back. -/
structure Hole (hash_func_ : K → Nat) (m : flat_hash_map K V) (idx dh : Nat) : Prop where
  cap_lt : m.capacity_ < 2 ^ 32
  idx_lt : idx < m.capacity_
  hole_empty : ¬ occ m idx
  dib_lt : ∀ i, i < m.capacity_ → occ m i → (m.ctrl_slots i).dib < 2 ^ 32
  slot_ok : ∀ i, i < m.capacity_ → occ m i →
    ∃ k v, m.kv_slots i = some (k, v) ∧ (m.ctrl_slots i).hash = hash32 hash_func_ k ∧
      (bucket (m.ctrl_slots i).hash m.capacity_ + (m.ctrl_slots i).dib) % m.capacity_ = i
  order : ∀ i, i < m.capacity_ → i ≠ idx → occ m (next_idx m.capacity_ i) →
    0 < (m.ctrl_slots (next_idx m.capacity_ i)).dib →
      occ m i ∧ (m.ctrl_slots (next_idx m.capacity_ i)).dib ≤ (m.ctrl_slots i).dib + 1
  uniq : ∀ i j k v w, slot_holds m i k v → slot_holds m j k w → i = j
  before : 0 < dh → ∀ j, j < m.capacity_ → next_idx m.capacity_ j = idx →
    occ m j ∧ dh ≤ (m.ctrl_slots j).dib + 1
  after : occ m (next_idx m.capacity_ idx) →
    0 < (m.ctrl_slots (next_idx m.capacity_ idx)).dib →
      (m.ctrl_slots (next_idx m.capacity_ idx)).dib ≤ dh + 1

/-- The three ways in which a probe for a key ends. -/
inductive ProbeResult where
  | found (idx : Nat)
  | vacant (idx dib fuel : Nat)
  | richer (idx dib fuel : Nat)

/-- The probe sequence shared by `find`, `erase` and `try_emplace`: it ends at the slot of
the key, at an empty slot, or at a resident whose displacement is smaller than the number
of steps taken; the last two also report the fuel that is left. -/
def probe (m : flat_hash_map K V) (key : K) (hash : Nat) : Nat → Nat → Nat → Option ProbeResult
  | 0, _, _ => none
  | fuel + 1, idx, dib =>
    if (m.ctrl_slots idx).is_empty = true then some (ProbeResult.vacant idx dib fuel)
    else if (m.ctrl_slots idx).hash = hash ∧ key_equal_at m idx key = true then
      some (ProbeResult.found idx)
    else if (m.ctrl_slots idx).dib < dib then some (ProbeResult.richer idx dib fuel)
    else probe m key hash fuel (next_idx m.capacity_ idx) (u32 (dib + 1))

/-- What `find` returns for each way its probe can end. -/
def find_of_probe (m : flat_hash_map K V) : ProbeResult → Nat
  | ProbeResult.found idx => iterator m idx
  | ProbeResult.vacant _ _ _ => end_ m
  | ProbeResult.richer _ _ _ => end_ m

/-- What `erase` does for each way its probe can end. -/
def erase_of_probe (fuel_shift : Nat) (m : flat_hash_map K V) :
    ProbeResult → Option (flat_hash_map K V × Nat)
  | ProbeResult.found idx =>
    (erase_shift fuel_shift (destroy_kv { m with size_ := u32 (m.size_ + (2 ^ 32 - 1)) } idx)
      idx).map fun m1 => (m1, 1)
  | ProbeResult.vacant _ _ _ => some (m, 0)
  | ProbeResult.richer _ _ _ => some (m, 0)

/-- What `try_emplace` does for each way its probe can end. -/
def try_emplace_of_probe (m : flat_hash_map K V) (key : K) (value : V) (hash : Nat) :
    ProbeResult → Option (flat_hash_map K V × Nat × Bool)
  | ProbeResult.found idx => some (m, iterator m idx, false)
  | ProbeResult.vacant idx dib _ =>
    some
      ({ set_slot m idx { hash := hash, dib := dib } (some (key, value)) with
          size_ := u32 (m.size_ + 1) },
        iterator
          { set_slot m idx { hash := hash, dib := dib } (some (key, value)) with
            size_ := u32 (m.size_ + 1) }
          idx,
        true)
  | ProbeResult.richer idx dib fuel =>
    match m.kv_slots idx with
    | none => none
    | some old_kv =>
      try_emplace_carry fuel (set_slot m idx { hash := hash, dib := dib } (some (key, value)))
        (m.ctrl_slots idx) old_kv idx idx

/-- The capacity `try_emplace` works with after its growth step. -/
def grown_capacity (m : flat_hash_map K V) : Nat :=
  if u32 (m.capacity_ * 7) / 8 ≤ m.size_ then
    (if m.capacity_ = 0 then 8 else u32 (m.capacity_ * 3) / 2)
  else m.capacity_

/-- The growth step of `try_emplace` allocates no buffer, or the buffer it allocates holds
the slots of the grown capacity. -/
def grow_fits [kv_slot_layout K V] (m : flat_hash_map K V) : Bool :=
  if u32 (m.capacity_ * 7) / 8 ≤ m.size_ then
    buffer_fits K V (if m.capacity_ = 0 then 8 else u32 (m.capacity_ * 3) / 2)
  else true

/-- Inserts the pairs of a list one by one with `insert`. -/
def insert_all [kv_slot_layout K V] (hash_func_ : K → Nat) (fuel : Nat) (m : flat_hash_map K V) (l : List (K × V)) :
    Option (flat_hash_map K V) :=
  l.foldlM (fun acc kv => (insert hash_func_ fuel acc kv).map fun r => r.1) m

/-- The value `find(key)->second`, or the inner `none` when `find(key) == end()`. -/
def find_value (hash_func_ : K → Nat) (fuel : Nat) (m : flat_hash_map K V) (key : K) :
    Option (Option V) :=
  (find hash_func_ fuel m key).map fun it =>
    if it = end_ m then none else (deref m it).map Prod.snd

/-- In the run of `insert_all` every call starts from a capacity whose products with 7 and
with 3 fit in 32 bits, and every call returns. -/
def insert_all_no_wrap [kv_slot_layout K V] (hash_func_ : K → Nat) (fuel : Nat) :
    flat_hash_map K V → List (K × V) → Bool
  | _, [] => true
  | m, kv :: l =>
    decide (m.capacity_ * 7 < 2 ^ 32) &&
      match insert hash_func_ fuel m kv with
      | some r => insert_all_no_wrap hash_func_ fuel r.1 l
      | none => false

/-- The states reachable from the default-constructed map (or from the initializer-list
constructor) through the public operations, in runs in which the 32-bit products
`capacity_ * 7` and `capacity_ * 3` of the growth check do not wrap around and every call
has a result, so that every buffer allocated on the way holds its slots. -/
inductive Reachable [kv_slot_layout K V] [Inhabited V] (hash_func_ : K → Nat) : flat_hash_map K V → Prop where
  | empty : Reachable hash_func_ empty
  | init_list (fuel : Nat) (l : List (K × V)) (m : flat_hash_map K V) :
      12 * l.length ≤ 2 ^ 32 → init_list hash_func_ fuel l = some m → Reachable hash_func_ m
  | try_emplace (fuel : Nat) (m : flat_hash_map K V) (key : K) (value : V)
      (r : flat_hash_map K V × Nat × Bool) :
      Reachable hash_func_ m → m.capacity_ * 7 < 2 ^ 32 →
      flat_hash_map.try_emplace hash_func_ fuel m key value = some r → Reachable hash_func_ r.1
  | insert (fuel : Nat) (m : flat_hash_map K V) (kv : K × V)
      (r : flat_hash_map K V × Nat × Bool) :
      Reachable hash_func_ m → m.capacity_ * 7 < 2 ^ 32 →
      flat_hash_map.insert hash_func_ fuel m kv = some r → Reachable hash_func_ r.1
  | subscript_assign (fuel : Nat) (m : flat_hash_map K V) (key : K) (value : V)
      (m1 : flat_hash_map K V) :
      Reachable hash_func_ m → m.capacity_ * 7 < 2 ^ 32 →
      flat_hash_map.subscript_assign hash_func_ fuel m key value = some m1 →
      Reachable hash_func_ m1
  | erase (fuel : Nat) (m : flat_hash_map K V) (key : K) (r : flat_hash_map K V × Nat) :
      Reachable hash_func_ m → flat_hash_map.erase hash_func_ fuel m key = some r →
      Reachable hash_func_ r.1
  | clear (m : flat_hash_map K V) : Reachable hash_func_ m → Reachable hash_func_ (clear m)
  | move_construct_new (m : flat_hash_map K V) :
      Reachable hash_func_ m → Reachable hash_func_ (move_construct m).1
  | move_construct_old (m : flat_hash_map K V) :
      Reachable hash_func_ m → Reachable hash_func_ (move_construct m).2
  | move_assign_new (same_object : Bool) (m other : flat_hash_map K V) :
      Reachable hash_func_ m → Reachable hash_func_ other →
      Reachable hash_func_ (move_assign same_object m other).1
  | move_assign_old (same_object : Bool) (m other : flat_hash_map K V) :
      Reachable hash_func_ m → Reachable hash_func_ other →
      Reachable hash_func_ (move_assign same_object m other).2

/-! ## Iteration -/

/-- The loop `for (it = begin(); it != end(); ++it)`: the list of the positions the iterator
takes. -/
def traverse_loop (m : flat_hash_map K V) : Nat → Nat → Option (List Nat)
  | 0, _ => none
  | fuel + 1, it =>
    if it = end_ m then some []
    else (traverse_loop m fuel (iterator_next m it)).map fun rest => it :: rest

/-- The iteration over the whole map, from `begin()` to `end()`. -/
def traverse (fuel : Nat) (m : flat_hash_map K V) : Option (List Nat) :=
  traverse_loop m fuel (begin_ m)

/-- The slots that are occupied, in increasing order of slot index. -/
def occupied_slots (m : flat_hash_map K V) : List Nat :=
  (List.range m.capacity_).filter fun i => !(m.ctrl_slots i).is_empty

/-! ## The ordering in the words of the specification -/

/-- The Robin Hood ordering as the specification words it: on the walk that starts at the
ideal bucket of an occupied slot `p`, as long as no empty slot has been met, the
displacement of a resident is at most the displacement of the next resident. -/
def spec_ordering (m : flat_hash_map K V) : Prop :=
  ∀ p, p < m.capacity_ → occ m p → ∀ t,
    (∀ s, s ≤ t + 1 →
      occ m ((bucket (m.ctrl_slots p).hash m.capacity_ + s) % m.capacity_)) →
    (m.ctrl_slots ((bucket (m.ctrl_slots p).hash m.capacity_ + t) % m.capacity_)).dib ≤
      (m.ctrl_slots ((bucket (m.ctrl_slots p).hash m.capacity_ + (t + 1)) % m.capacity_)).dib

/-! ## The slot invariants, slot by slot -/

/-- Every occupied slot stores an entry and the 32-bit truncation of the hash of its key;
the ideal bucket of that hash lies below the capacity, and the stored displacement is the
circular distance from the ideal bucket to the slot. -/
def distance_ok (hash_func_ : K → Nat) (m : flat_hash_map K V) : Prop :=
  ∀ i, i < m.capacity_ → occ m i →
    ∃ k v, m.kv_slots i = some (k, v) ∧ (m.ctrl_slots i).hash = u32 (hash_func_ k) ∧
      bucket (m.ctrl_slots i).hash m.capacity_ < m.capacity_ ∧
      (m.ctrl_slots i).dib =
        (i + m.capacity_ - bucket (m.ctrl_slots i).hash m.capacity_) % m.capacity_

/-- For every slot `i` and its circular successor `j`: when `j` is occupied with a positive
displacement, `i` is occupied and the displacement of `j` is at most one more than that
of `i`. -/
def neighbours_ok (m : flat_hash_map K V) : Prop :=
  ∀ i, i < m.capacity_ → occ m ((i + 1) % m.capacity_) →
    0 < (m.ctrl_slots ((i + 1) % m.capacity_)).dib →
      occ m i ∧ (m.ctrl_slots ((i + 1) % m.capacity_)).dib ≤ (m.ctrl_slots i).dib + 1

/-- Slot `i` of `m1` holds what slot `i` of `m` held, or it holds the entry of the next slot
of `m`, moved one slot back with its displacement decremented by one. -/
def stays_or_moves_back (m m1 : flat_hash_map K V) (i : Nat) : Prop :=
  (m1.ctrl_slots i = m.ctrl_slots i ∧ m1.kv_slots i = m.kv_slots i) ∨
    (occ m (next_idx m.capacity_ i) ∧ m1.kv_slots i = m.kv_slots (next_idx m.capacity_ i) ∧
      (m1.ctrl_slots i).hash = (m.ctrl_slots (next_idx m.capacity_ i)).hash ∧
      (m1.ctrl_slots i).dib + 1 = (m.ctrl_slots (next_idx m.capacity_ i)).dib)

/-! ## Concrete maps -/

/-- The layout of the examples: keys and mapped values of 8 bytes each, as for
`flat_hash_map<std::uint64_t, std::uint64_t>`, so that `sizeof(kv_slot_t)` is 16 and
`alignof(kv_slot_t)` is 8. -/
instance example_layout : kv_slot_layout Nat Nat := ⟨16, 8⟩

/-- A hash function on `Nat` keys: in a table of 8 slots the ideal bucket of `k` is
`k % 8`. -/
def example_hash (k : Nat) : Nat := k * 2 ^ 29

/-- Four pairs; the keys 1, 9 and 17 share an ideal bucket, and inserting 17 steals the slot
of key 2. -/
def example_pairs : List (Nat × Nat) := [(1, 10), (9, 90), (2, 20), (17, 170)]

/-- The map that holds `example_pairs`. -/
def example_map : flat_hash_map Nat Nat :=
  (insert_all example_hash 16 empty example_pairs).getD empty

/-- Seven pairs: they fill a table of capacity 8 up to its growth threshold. -/
def example_full_pairs : List (Nat × Nat) :=
  [(1, 10), (9, 90), (2, 20), (17, 170), (3, 30), (4, 40), (5, 50)]

/-- The map that holds `example_full_pairs`: size 7, capacity 8. -/
def example_full_map : flat_hash_map Nat Nat :=
  (insert_all example_hash 16 empty example_full_pairs).getD empty

/-- Three pairs: keys 1 and 9 share the ideal bucket 1, key 3 sits in its own bucket 3
right behind them. -/
def example_dip_pairs : List (Nat × Nat) := [(1, 10), (9, 90), (3, 30)]

/-- The map that holds `example_dip_pairs`: slots 1, 2, 3 have displacements 0, 1, 0. -/
def example_dip_map : flat_hash_map Nat Nat :=
  (insert_all example_hash 16 empty example_dip_pairs).getD empty

end flat_hash_map

/-! ## The fixed map -/

/-- The data members of `constexpr_hash_map<Key, Value, N, Hash>`: the template argument
`N`, the array `ctrl_slots_` and the array `kv_slots_`, whose elements are value-initialised
pairs until an entry is assigned. -/
structure constexpr_hash_map (K V : Type) where
  N : Nat
  ctrl_slots_ : Nat → ctrl_slot_t
  kv_slots_ : Nat → K × V

namespace constexpr_hash_map

/-- The constant `constexpr_hash_map<Key, Value, N, Hash>::capacity`: `N * 8 / 7` computed
in `size_t` and converted to `uint32_t`. -/
def capacity (N : Nat) : Nat := u32 (N * 8 % 2 ^ 64 / 7)

variable {K V : Type} [DecidableEq K]

/-- The exceptions of the fixed map: `std::logic_error("duplicate keys are not allowed")`
and `std::out_of_range("key not found in this map")`. -/
inductive error where
  | duplicate_keys
  | key_not_found
deriving DecidableEq

/-- The state of the object before the body of the constructor runs: default control
entries and value-initialised pairs. -/
def initial [Inhabited K] [Inhabited V] (N : Nat) : constexpr_hash_map K V :=
  { N := N, ctrl_slots_ := fun _ => {}, kv_slots_ := fun _ => default }

/-- The assignments `ctrl_slots_[idx] = ctrl_slot; kv_slots_[idx] = kv_slot`. -/
def set_entry (m : constexpr_hash_map K V) (idx : Nat) (c : ctrl_slot_t) (kv : K × V) :
    constexpr_hash_map K V :=
  { m with
    ctrl_slots_ := Function.update m.ctrl_slots_ idx c
    kv_slots_ := Function.update m.kv_slots_ idx kv }

/-- The `while (true)` loop of the constructor for one entry of `init_list`. -/
def construct_loop :
    Nat → constexpr_hash_map K V → ctrl_slot_t → K × V → Nat →
      Option (Except error (constexpr_hash_map K V))
  | 0, _, _, _, _ => none
  | fuel + 1, m, ctrl_slot, kv_slot, idx =>
    if (m.ctrl_slots_ idx).is_empty = true then
      some (Except.ok (set_entry m idx ctrl_slot kv_slot))
    else if (m.ctrl_slots_ idx).hash = ctrl_slot.hash ∧ (m.kv_slots_ idx).1 = kv_slot.1 then
      some (Except.error error.duplicate_keys)
    else if (m.ctrl_slots_ idx).dib < ctrl_slot.dib then
      construct_loop fuel (set_entry m idx ctrl_slot kv_slot)
        { m.ctrl_slots_ idx with dib := u32 ((m.ctrl_slots_ idx).dib + 1) } (m.kv_slots_ idx)
        (next_idx (capacity m.N) idx)
    else
      construct_loop fuel m { ctrl_slot with dib := u32 (ctrl_slot.dib + 1) } kv_slot
        (next_idx (capacity m.N) idx)

/-- The `for` loop of the constructor over the entries of `init_list`. -/
def construct_entries (hash_func_ : K → Nat) (fuel : Nat) :
    constexpr_hash_map K V → List (K × V) → Option (Except error (constexpr_hash_map K V))
  | m, [] => some (Except.ok m)
  | m, kv :: rest =>
    match construct_loop fuel m { hash := u32 (hash_func_ kv.1), dib := 0 } kv
        (bucket (u32 (hash_func_ kv.1)) (capacity m.N)) with
    | none => none
    | some (Except.error e) => some (Except.error e)
    | some (Except.ok m1) => construct_entries hash_func_ fuel m1 rest

/-- The constructor `constexpr_hash_map(init_list)`, also `make_constexpr_hash_map`; the
template argument `N` is the length of the array. -/
def construct [Inhabited K] [Inhabited V] (hash_func_ : K → Nat) (fuel : Nat)
    (init_list : List (K × V)) : Option (Except error (constexpr_hash_map K V)) :=
  construct_entries hash_func_ fuel (initial init_list.length) init_list

/-- The loop of `operator()`. -/
def call_loop (m : constexpr_hash_map K V) (key : K) (hash : Nat) :
    Nat → Nat → Nat → Option (Option V)
  | 0, _, _ => none
  | fuel + 1, idx, dib =>
    if (m.ctrl_slots_ idx).is_empty = true then some none
    else if (m.ctrl_slots_ idx).hash = hash ∧ (m.kv_slots_ idx).1 = key then
      some (some (m.kv_slots_ idx).2)
    else if (m.ctrl_slots_ idx).dib < dib then some none
    else call_loop m key hash fuel (next_idx (capacity m.N) idx) (u32 (dib + 1))

/-- The member `operator()`: the inner `none` is `std::nullopt`. -/
def call (hash_func_ : K → Nat) (fuel : Nat) (m : constexpr_hash_map K V) (key : K) :
    Option (Option V) :=
  call_loop m key (u32 (hash_func_ key)) fuel
    (bucket (u32 (hash_func_ key)) (capacity m.N)) 0

/-- The member `operator[]`. -/
def index (hash_func_ : K → Nat) (fuel : Nat) (m : constexpr_hash_map K V) (key : K) :
    Option (Except error V) :=
  (call hash_func_ fuel m key).map fun opt =>
    match opt with
    | some value => Except.ok value
    | none => Except.error error.key_not_found

/-- The table of the fixed map seen as a table of the dynamic map, to state its
invariant with the same predicates. -/
def to_flat (m : constexpr_hash_map K V) : flat_hash_map K V :=
  { ctrl_slots := m.ctrl_slots_, kv_slots := fun i => some (m.kv_slots_ i), size_ := 0,
    capacity_ := capacity m.N }

/-- What `operator()` returns for each way its probe can end. -/
def call_of_probe (m : constexpr_hash_map K V) : flat_hash_map.ProbeResult → Option V
  | flat_hash_map.ProbeResult.found idx => some (m.kv_slots_ idx).2
  | flat_hash_map.ProbeResult.vacant _ _ _ => none
  | flat_hash_map.ProbeResult.richer _ _ _ => none

/-- The invariant of a table under construction and of a constructed table: it is
well-formed and every displacement is below the capacity. -/
structure Built (hash_func_ : K → Nat) (m : constexpr_hash_map K V) : Prop where
  wf : flat_hash_map.WF hash_func_ (to_flat m)
  dib_lt : ∀ i, i < capacity m.N → flat_hash_map.occ (to_flat m) i →
    (m.ctrl_slots_ i).dib + 1 ≤ capacity m.N

/-- The four entries of the repository's example, with `Nat` keys. -/
def example_fixed_pairs : List (Nat × Nat) := [(1, 1), (2, 2), (3, 124), (4, 223)]

/-- Four entries, two of them with the key 2. -/
def example_fixed_repeat : List (Nat × Nat) := [(1, 1), (2, 2), (3, 124), (2, 223)]

/-- The fixed map built from `example_fixed_pairs`; its four slots are all occupied. -/
def example_fixed_map : constexpr_hash_map Nat Nat :=
  match construct flat_hash_map.example_hash 8 example_fixed_pairs with
  | some (Except.ok m) => m
  | _ => initial 4

end constexpr_hash_map

end ineffa

/-! ## Arithmetic of slot indices -/

namespace ineffa

theorem u32_of_lt {n : Nat} (h : n < 2 ^ 32) : u32 n = n := Nat.mod_eq_of_lt h

theorem u32_lt (n : Nat) : u32 n < 2 ^ 32 := Nat.mod_lt _ (by norm_num)

theorem next_idx_eq {c idx : Nat} (h : idx < c) (hc : c < 2 ^ 32) :
    next_idx c idx = if idx + 1 = c then 0 else idx + 1 := by
  unfold next_idx
  rw [u32_of_lt (by omega)]

theorem next_idx_lt {c idx : Nat} (h : idx < c) (hc : c < 2 ^ 32) : next_idx c idx < c := by
  rw [next_idx_eq h hc]
  split_ifs <;> omega

theorem next_idx_inj {c i j : Nat} (hi : i < c) (hj : j < c) (hc : c < 2 ^ 32)
    (h : next_idx c i = next_idx c j) : i = j := by
  rw [next_idx_eq hi hc, next_idx_eq hj hc] at h
  split_ifs at h <;> omega

theorem next_idx_mod {c : Nat} (x : Nat) (h0 : 0 < c) (hc : c < 2 ^ 32) :
    next_idx c (x % c) = (x + 1) % c := by
  have hx : x % c < c := Nat.mod_lt _ h0
  have key : (x + 1) % c = (x % c + 1) % c := (Nat.mod_add_mod x c 1).symm
  rw [next_idx_eq hx hc, key]
  split_ifs with h
  · rw [h, Nat.mod_self]
  · rw [Nat.mod_eq_of_lt (show x % c + 1 < c by omega)]

theorem next_idx_ne_self {c i : Nat} (hi : i < c) (hc : c < 2 ^ 32) (h2 : 2 ≤ c) :
    next_idx c i ≠ i := by
  rw [next_idx_eq hi hc]
  split_ifs <;> omega

theorem iter_next_eq {c : Nat} (h0 : 0 < c) (hc : c < 2 ^ 32) (n : Nat) :
    ∀ idx, idx < c → (next_idx c)^[n] idx = (idx + n) % c := by
  induction n with
  | zero => intro idx h; simp [Nat.mod_eq_of_lt h]
  | succ n ih =>
    intro idx h
    rw [Function.iterate_succ_apply', ih idx h, next_idx_mod _ h0 hc]
    rfl

theorem iter_next_lt {c : Nat} (hc : c < 2 ^ 32) (n : Nat) {idx : Nat} (h : idx < c) :
    (next_idx c)^[n] idx < c := by
  rw [iter_next_eq (by omega) hc n idx h]
  exact Nat.mod_lt _ (by omega)

theorem mod_add_ne {c x s : Nat} (h0 : 0 < s) (hs : s < c) : (x + s) % c ≠ x % c := by
  intro h
  have h1 : (x + s) ≡ (x + 0) [MOD c] := by simpa [Nat.ModEq] using h
  have h2 : s ≡ 0 [MOD c] := Nat.ModEq.add_left_cancel' x h1
  have h3 : c ∣ s := (Nat.modEq_zero_iff_dvd).1 h2
  have := Nat.le_of_dvd h0 h3
  omega

theorem iter_next_ne {c i s : Nat} (hi : i < c) (hc : c < 2 ^ 32) (h0 : 0 < s) (hs : s < c) :
    (next_idx c)^[s] i ≠ i := by
  rw [iter_next_eq (by omega) hc s i hi]
  have := @mod_add_ne c i s h0 hs
  rwa [Nat.mod_eq_of_lt hi] at this

theorem reach {c b e : Nat} (hb : b < c) (he : e < c) : ∃ t, t < c ∧ (b + t) % c = e := by
  refine ⟨(e + c - b) % c, Nat.mod_lt _ (by omega), ?_⟩
  rw [Nat.add_mod_mod]
  have : b + (e + c - b) = e + c := by omega
  rw [this, Nat.add_mod_right, Nat.mod_eq_of_lt he]

theorem bucket_lt {h c : Nat} (hh : h < 2 ^ 32) (h0 : 0 < c) : bucket h c < c := by
  unfold bucket
  have h1 : h * c % 2 ^ 64 ≤ h * c := Nat.mod_le _ _
  have h2 : h * c < c * 2 ^ 32 := by
    rw [Nat.mul_comm c]
    exact Nat.mul_lt_mul_of_pos_right hh h0
  exact Nat.div_lt_of_lt_mul (by omega)

end ineffa

/-! ## Basic facts about tables -/

set_option linter.unusedSectionVars false

namespace ineffa

theorem countP_range_congr (f g : Nat → Bool) (c : Nat) (h : ∀ i, i < c → g i = f i) :
    (List.range c).countP g = (List.range c).countP f := by
  apply List.countP_congr
  intro x hx
  rw [h x (List.mem_range.1 hx)]

theorem countP_range_update (f g : Nat → Bool) (c idx : Nat) (hidx : idx < c)
    (hfg : ∀ i, i ≠ idx → g i = f i) (hf : f idx = false) (hg : g idx = true) :
    (List.range c).countP g = (List.range c).countP f + 1 := by
  induction c with
  | zero => omega
  | succ c ih =>
    rw [List.range_succ, List.countP_append, List.countP_append]
    by_cases hc : idx = c
    · subst hc
      rw [countP_range_congr f g idx (fun i hi => hfg i (by omega))]
      simp [List.countP_cons, hf, hg]
    · rw [ih (by omega)]
      have : g c = f c := hfg c (by omega)
      simp [List.countP_cons, this]
      omega

theorem countP_range_all (f : Nat → Bool) (c : Nat) (h : ∀ i, i < c → f i = true) :
    (List.range c).countP f = c := by
  have := List.countP_eq_length.2 (fun a ha => h a (List.mem_range.1 ha))
  simpa using this

theorem countP_range_le (f : Nat → Bool) (c : Nat) : (List.range c).countP f ≤ c := by
  exact (List.countP_le_length f).trans (List.length_range c).le

theorem countP_range_mono (f : Nat → Bool) {a b : Nat} (h : a ≤ b) :
    (List.range a).countP f ≤ (List.range b).countP f := by
  induction b with
  | zero =>
    have : a = 0 := by omega
    subst this
    exact Nat.le_refl _
  | succ b ih =>
    by_cases hab : a = b + 1
    · subst hab
      exact Nat.le_refl _
    · rw [List.range_succ, List.countP_append]
      have := ih (by omega)
      omega

namespace flat_hash_map

variable {K V : Type} [DecidableEq K]

theorem is_empty_iff (m : flat_hash_map K V) (i : Nat) :
    (m.ctrl_slots i).is_empty = true ↔ ¬ occ m i := by
  simp [ctrl_slot_t.is_empty, occ]

theorem hash32_lt (hash_func_ : K → Nat) (k : K) : hash32 hash_func_ k < 2 ^ 32 :=
  u32_lt _

theorem set_slot_capacity (m : flat_hash_map K V) (i : Nat) (c : ctrl_slot_t)
    (kv : Option (K × V)) : (set_slot m i c kv).capacity_ = m.capacity_ := rfl

theorem set_slot_size (m : flat_hash_map K V) (i : Nat) (c : ctrl_slot_t)
    (kv : Option (K × V)) : (set_slot m i c kv).size_ = m.size_ := rfl

theorem set_slot_ctrl (m : flat_hash_map K V) (i j : Nat) (c : ctrl_slot_t)
    (kv : Option (K × V)) :
    (set_slot m i c kv).ctrl_slots j = if j = i then c else m.ctrl_slots j := by
  simp [set_slot, Function.update_apply]

theorem set_slot_kv (m : flat_hash_map K V) (i j : Nat) (c : ctrl_slot_t)
    (kv : Option (K × V)) :
    (set_slot m i c kv).kv_slots j = if j = i then kv else m.kv_slots j := by
  simp [set_slot, Function.update_apply]

theorem occ_set_slot (m : flat_hash_map K V) (i j : Nat) (c : ctrl_slot_t)
    (kv : Option (K × V)) :
    occ (set_slot m i c kv) j ↔ if j = i then c.dib ≠ EMPTY_DIB else occ m j := by
  unfold occ
  rw [set_slot_ctrl]
  split_ifs <;> rfl

theorem occupied_count_le (m : flat_hash_map K V) : occupied_count m ≤ m.capacity_ :=
  countP_range_le _ _

theorem exists_empty_of_count_lt (m : flat_hash_map K V)
    (h : occupied_count m < m.capacity_) : ∃ e, e < m.capacity_ ∧ ¬ occ m e := by
  by_contra hne
  push_neg at hne
  have : occupied_count m = m.capacity_ := by
    apply countP_range_all
    intro i hi
    have := hne i hi
    simp only [occ] at this
    simp [ctrl_slot_t.is_empty, this]
  omega

theorem occupied_count_fill (m m1 : flat_hash_map K V) (idx : Nat)
    (hcap : m1.capacity_ = m.capacity_) (hidx : idx < m.capacity_)
    (hne : ∀ i, i ≠ idx → m1.ctrl_slots i = m.ctrl_slots i)
    (h0 : ¬ occ m idx) (h1 : occ m1 idx) : occupied_count m1 = occupied_count m + 1 := by
  unfold occupied_count
  rw [hcap]
  apply countP_range_update _ _ _ idx hidx
  · intro i hi
    simp only [hne i hi]
  · simpa [ctrl_slot_t.is_empty, occ] using h0
  · simpa [ctrl_slot_t.is_empty, occ] using h1

theorem occupied_count_same (m m1 : flat_hash_map K V)
    (hcap : m1.capacity_ = m.capacity_)
    (h : ∀ i, i < m.capacity_ → (occ m1 i ↔ occ m i)) : occupied_count m1 = occupied_count m := by
  unfold occupied_count
  rw [hcap]
  apply countP_range_congr
  intro i hi
  have := h i hi
  simp only [occ] at this
  by_cases h1 : (m.ctrl_slots i).dib = EMPTY_DIB
  · have h2 : (m1.ctrl_slots i).dib = EMPTY_DIB := by
      by_contra h3
      exact (this.1 h3) h1
    simp [ctrl_slot_t.is_empty, h1, h2]
  · have h2 : (m1.ctrl_slots i).dib ≠ EMPTY_DIB := this.2 h1
    simp [ctrl_slot_t.is_empty, h1, h2]

theorem holds_unique {hash_func_ : K → Nat} {m : flat_hash_map K V} (hwf : WF hash_func_ m)
    {k : K} {v w : V} (h1 : holds m k v) (h2 : holds m k w) : v = w := by
  obtain ⟨i, hi⟩ := h1
  obtain ⟨j, hj⟩ := h2
  have := hwf.uniq i j k v w hi hj
  subst this
  have := hi.2.2.symm.trans hj.2.2
  simpa using this

theorem chain {hash_func_ : K → Nat} {m : flat_hash_map K V} (hwf : WF hash_func_ m)
    (h0 : 0 < m.capacity_) (x d : Nat)
    (hocc : occ m ((x + d) % m.capacity_))
    (hd : d ≤ (m.ctrl_slots ((x + d) % m.capacity_)).dib) :
    ∀ s, s ≤ d → occ m ((x + (d - s)) % m.capacity_) ∧
      d - s ≤ (m.ctrl_slots ((x + (d - s)) % m.capacity_)).dib := by
  intro s
  induction s with
  | zero => intro _; exact ⟨hocc, hd⟩
  | succ s ih =>
    intro hs
    obtain ⟨h1, h2⟩ := ih (by omega)
    have e : d - s = (d - (s + 1)) + 1 := by omega
    have hn : next_idx m.capacity_ ((x + (d - (s + 1))) % m.capacity_) =
        (x + (d - s)) % m.capacity_ := by
      rw [next_idx_mod _ h0 hwf.cap_lt, e]
      rfl
    have := hwf.order ((x + (d - (s + 1))) % m.capacity_) (Nat.mod_lt _ h0)
      (by rw [hn]; exact h1) (by rw [hn]; omega)
    rw [hn] at this
    exact ⟨this.1, by omega⟩

theorem chain_at {hash_func_ : K → Nat} {m : flat_hash_map K V} (hwf : WF hash_func_ m)
    (h0 : 0 < m.capacity_) (x d t : Nat) (ht : t ≤ d)
    (hocc : occ m ((x + d) % m.capacity_))
    (hd : d ≤ (m.ctrl_slots ((x + d) % m.capacity_)).dib) :
    occ m ((x + t) % m.capacity_) ∧ t ≤ (m.ctrl_slots ((x + t) % m.capacity_)).dib := by
  have := chain hwf h0 x d hocc hd (d - t) (by omega)
  have e : d - (d - t) = t := by omega
  rwa [e] at this

theorem dib_bound {hash_func_ : K → Nat} {m : flat_hash_map K V} (hwf : WF hash_func_ m)
    {e : Nat} (he : e < m.capacity_) (hempty : ¬ occ m e) {i : Nat} (hi : i < m.capacity_)
    (hocc : occ m i) : (m.ctrl_slots i).dib + 2 ≤ m.capacity_ := by
  obtain ⟨k, v, _, hh, hpos⟩ := hwf.slot_ok i hi hocc
  have h0 : 0 < m.capacity_ := by omega
  have hb : bucket (m.ctrl_slots i).hash m.capacity_ < m.capacity_ :=
    bucket_lt (by rw [hh]; exact hash32_lt _ _) h0
  obtain ⟨t, ht, hte⟩ := reach hb he
  by_contra hcon
  have hle : t ≤ (m.ctrl_slots i).dib := by omega
  have := chain_at hwf h0 (bucket (m.ctrl_slots i).hash m.capacity_) (m.ctrl_slots i).dib t hle
    (by rw [hpos]; exact hocc) (by rw [hpos])
  rw [hte] at this
  exact hempty this.1

end flat_hash_map

end ineffa

/-! ## Storing an entry in a slot -/

namespace ineffa

namespace flat_hash_map

variable {K V : Type} [DecidableEq K]

theorem pos_step {c h d idx : Nat} (h0 : 0 < c) (hc : c < 2 ^ 32)
    (hpos : (bucket h c + d) % c = idx) : (bucket h c + (d + 1)) % c = next_idx c idx := by
  rw [← hpos, next_idx_mod _ h0 hc]
  rfl

theorem slot_holds_set_slot (m : flat_hash_map K V) (idx i : Nat) (cs : ctrl_slot_t)
    (kv : K × V) (hne : cs.dib ≠ EMPTY_DIB) (k : K) (v : V) :
    slot_holds (set_slot m idx cs (some kv)) i k v ↔
      (i = idx ∧ idx < m.capacity_ ∧ (k, v) = kv) ∨ (i ≠ idx ∧ slot_holds m i k v) := by
  unfold slot_holds
  rw [occ_set_slot, set_slot_kv, set_slot_capacity]
  by_cases h : i = idx
  · subst h
    simp only [if_true, true_and, ne_eq, not_true_eq_false, false_and, or_false,
      Option.some.injEq]
    constructor
    · rintro ⟨h1, _, h3⟩
      exact ⟨h1, h3.symm⟩
    · rintro ⟨h1, h3⟩
      exact ⟨h1, hne, h3.symm⟩
  · simp [h]

theorem WF_set_slot {hash_func_ : K → Nat} {m : flat_hash_map K V} (hwf : WF hash_func_ m)
    {idx : Nat} (hidx : idx < m.capacity_) (cs : ctrl_slot_t) (kv : K × V)
    (h_hash : cs.hash = hash32 hash_func_ kv.1)
    (h_pos : (bucket cs.hash m.capacity_ + cs.dib) % m.capacity_ = idx)
    (h_ne : cs.dib ≠ EMPTY_DIB)
    (h_pred : pred_ok m idx cs.dib)
    (h_succ : occ m (next_idx m.capacity_ idx) →
      0 < (m.ctrl_slots (next_idx m.capacity_ idx)).dib →
      (m.ctrl_slots (next_idx m.capacity_ idx)).dib ≤ cs.dib + 1)
    (h_fresh : ∀ j v, j ≠ idx → ¬ slot_holds m j kv.1 v) :
    WF hash_func_ (set_slot m idx cs (some kv)) := by
  refine ⟨hwf.cap_lt, ?_, ?_, ?_⟩
  · intro i hi hocc
    rw [set_slot_capacity] at hi
    rw [occ_set_slot] at hocc
    rw [set_slot_kv, set_slot_ctrl, set_slot_capacity]
    by_cases h : i = idx
    · subst h
      simp only [if_true]
      exact ⟨kv.1, kv.2, rfl, h_hash, h_pos⟩
    · simp only [h, if_false] at hocc ⊢
      exact hwf.slot_ok i hi hocc
  · intro i hi
    rw [set_slot_capacity] at hi ⊢
    rw [occ_set_slot, occ_set_slot, set_slot_ctrl, set_slot_ctrl]
    by_cases h : i = idx
    · subst h
      by_cases hn : next_idx m.capacity_ i = i
      · simp only [hn, if_true]
        intro _ _
        exact ⟨h_ne, by omega⟩
      · simp only [hn, if_false, if_true]
        intro h1 h2
        exact ⟨h_ne, h_succ h1 h2⟩
    · by_cases hn : next_idx m.capacity_ i = idx
      · simp only [hn, if_true, h, if_false]
        intro _ h2
        obtain ⟨j, hj, hjn, hjo, hjd⟩ := h_pred h2
        have : j = i := next_idx_inj hj hi hwf.cap_lt (hjn.trans hn.symm)
        subst this
        exact ⟨hjo, hjd⟩
      · simp only [hn, if_false, h]
        exact hwf.order i hi
  · intro i j k v w hi hj
    rw [slot_holds_set_slot _ _ _ _ _ h_ne] at hi hj
    rcases hi with ⟨hi1, _, hi3⟩ | ⟨hi1, hi2⟩
    · rcases hj with ⟨hj1, _, _⟩ | ⟨hj1, hj2⟩
      · rw [hi1, hj1]
      · exfalso
        have hk : k = kv.1 := by rw [← hi3]
        rw [hk] at hj2
        exact h_fresh j w hj1 hj2
    · rcases hj with ⟨hj1, _, hj3⟩ | ⟨_, hj2⟩
      · exfalso
        have hk : k = kv.1 := by rw [← hj3]
        rw [hk] at hi2
        exact h_fresh i v hi1 hi2
      · exact hwf.uniq i j k v w hi2 hj2

/-- The displacement of a pending candidate is below the capacity when the table has an
empty slot. -/
theorem pending_dib_lt {hash_func_ : K → Nat} {m : flat_hash_map K V} (hwf : WF hash_func_ m)
    {e : Nat} (he : e < m.capacity_) (hempty : ¬ occ m e) {idx d : Nat}
    (hp : pred_ok m idx d) : d + 1 ≤ m.capacity_ := by
  by_cases h : 0 < d
  · obtain ⟨j, hj, _, hjo, hjd⟩ := hp h
    have := dib_bound hwf he hempty hj hjo
    omega
  · omega

theorem place_spec {hash_func_ : K → Nat} {m : flat_hash_map K V} (hwf : WF hash_func_ m)
    {idx : Nat} (hidx : idx < m.capacity_) (hempty : ¬ occ m idx) (cs : ctrl_slot_t)
    (kv : K × V) (hp : Pending hash_func_ m cs kv.1 idx) (hf : fresh m kv.1) :
    WF hash_func_ (set_slot m idx cs (some kv)) ∧
      occupied_count (set_slot m idx cs (some kv)) = occupied_count m + 1 ∧
      (∀ k v, holds (set_slot m idx cs (some kv)) k v ↔ (holds m k v ∨ (k, v) = kv)) ∧
      slot_holds (set_slot m idx cs (some kv)) idx kv.1 kv.2 := by
  have hd := pending_dib_lt hwf hidx hempty hp.2.2
  have hne : cs.dib ≠ EMPTY_DIB := by
    have := hwf.cap_lt
    unfold EMPTY_DIB
    omega
  refine ⟨?_, ?_, ?_, ?_⟩
  · apply WF_set_slot hwf hidx cs kv hp.1 hp.2.1 hne hp.2.2
    · intro h1 h2
      exact absurd (hwf.order idx hidx h1 h2).1 hempty
    · intro j v _
      exact hf j v
  · refine occupied_count_fill m (set_slot m idx cs (some kv)) idx rfl hidx ?_ ?_ ?_
    · intro i hi
      rw [set_slot_ctrl, if_neg hi]
    · exact hempty
    · rw [occ_set_slot, if_pos rfl]
      exact hne
  · intro k v
    unfold holds
    constructor
    · rintro ⟨i, hi⟩
      rw [slot_holds_set_slot _ _ _ _ _ hne] at hi
      rcases hi with ⟨_, _, h3⟩ | ⟨_, h2⟩
      · exact Or.inr h3
      · exact Or.inl ⟨i, h2⟩
    · rintro (⟨i, hi⟩ | h)
      · refine ⟨i, ?_⟩
        rw [slot_holds_set_slot _ _ _ _ _ hne]
        refine Or.inr ⟨?_, hi⟩
        rintro rfl
        exact hempty hi.2.1
      · refine ⟨idx, ?_⟩
        rw [slot_holds_set_slot _ _ _ _ _ hne]
        exact Or.inl ⟨rfl, hidx, h⟩
  · rw [slot_holds_set_slot _ _ _ _ _ hne]
    exact Or.inl ⟨rfl, hidx, rfl⟩

theorem swap_spec {hash_func_ : K → Nat} {m : flat_hash_map K V} (hwf : WF hash_func_ m)
    {e : Nat} (he : e < m.capacity_) (hempty : ¬ occ m e)
    {idx : Nat} (hidx : idx < m.capacity_) (hocc : occ m idx) (cs : ctrl_slot_t)
    (kv old : K × V) (hold : m.kv_slots idx = some old)
    (hlt : (m.ctrl_slots idx).dib < cs.dib)
    (hp : Pending hash_func_ m cs kv.1 idx) (hf : fresh m kv.1) :
    WF hash_func_ (set_slot m idx cs (some kv)) ∧
      occupied_count (set_slot m idx cs (some kv)) = occupied_count m ∧
      (∀ k v, (holds (set_slot m idx cs (some kv)) k v ∨ (k, v) = old) ↔
        (holds m k v ∨ (k, v) = kv)) ∧
      slot_holds (set_slot m idx cs (some kv)) idx kv.1 kv.2 ∧
      Pending hash_func_ (set_slot m idx cs (some kv))
        { hash := (m.ctrl_slots idx).hash, dib := u32 ((m.ctrl_slots idx).dib + 1) } old.1
        (next_idx m.capacity_ idx) ∧
      fresh (set_slot m idx cs (some kv)) old.1 := by
  have hd := pending_dib_lt hwf he hempty hp.2.2
  have hcap := hwf.cap_lt
  have h0 : 0 < m.capacity_ := by omega
  have hne : cs.dib ≠ EMPTY_DIB := by
    unfold EMPTY_DIB
    omega
  obtain ⟨k0, v0, hkv0, hh0, hpos0⟩ := hwf.slot_ok idx hidx hocc
  have hold0 : old = (k0, v0) := by
    rw [hold] at hkv0
    exact Option.some.inj hkv0
  have hsh : slot_holds m idx old.1 old.2 := ⟨hidx, hocc, hold⟩
  have hkne : old.1 ≠ kv.1 := by
    intro h
    rw [h] at hsh
    exact hf idx old.2 hsh
  refine ⟨?_, ?_, ?_, ?_, ?_, ?_⟩
  · apply WF_set_slot hwf hidx cs kv hp.1 hp.2.1 hne hp.2.2
    · intro h1 h2
      have := (hwf.order idx hidx h1 h2).2
      omega
    · intro j v _
      exact hf j v
  · refine occupied_count_same m (set_slot m idx cs (some kv)) rfl ?_
    intro i _
    rw [occ_set_slot]
    by_cases h : i = idx
    · subst h
      simp only [if_true]
      exact ⟨fun _ => hocc, fun _ => hne⟩
    · simp only [h, if_false]
  · intro k v
    unfold holds
    constructor
    · rintro (⟨i, hi⟩ | h)
      · rw [slot_holds_set_slot _ _ _ _ _ hne] at hi
        rcases hi with ⟨_, _, h3⟩ | ⟨_, h2⟩
        · exact Or.inr h3
        · exact Or.inl ⟨i, h2⟩
      · refine Or.inl ⟨idx, ?_⟩
        subst h
        exact hsh
    · rintro (⟨i, hi⟩ | h)
      · by_cases hii : i = idx
        · subst hii
          right
          have := hi.2.2
          rw [hold] at this
          exact (Option.some.inj this).symm
        · left
          refine ⟨i, ?_⟩
          rw [slot_holds_set_slot _ _ _ _ _ hne]
          exact Or.inr ⟨hii, hi⟩
      · left
        refine ⟨idx, ?_⟩
        rw [slot_holds_set_slot _ _ _ _ _ hne]
        exact Or.inl ⟨rfl, hidx, h⟩
  · rw [slot_holds_set_slot _ _ _ _ _ hne]
    exact Or.inl ⟨rfl, hidx, rfl⟩
  · have hb := dib_bound hwf he hempty hidx hocc
    have hu : u32 ((m.ctrl_slots idx).dib + 1) = (m.ctrl_slots idx).dib + 1 :=
      u32_of_lt (by omega)
    refine ⟨?_, ?_, ?_⟩
    · show (m.ctrl_slots idx).hash = hash32 hash_func_ old.1
      rw [hold0]
      exact hh0
    · show (bucket (m.ctrl_slots idx).hash m.capacity_ + u32 ((m.ctrl_slots idx).dib + 1)) %
        m.capacity_ = next_idx m.capacity_ idx
      rw [hu]
      exact pos_step h0 hcap hpos0
    · intro _
      refine ⟨idx, hidx, rfl, ?_, ?_⟩
      · rw [occ_set_slot, if_pos rfl]
        exact hne
      · show u32 ((m.ctrl_slots idx).dib + 1) ≤ ((set_slot m idx cs (some kv)).ctrl_slots idx).dib + 1
        rw [hu, set_slot_ctrl, if_pos rfl]
        omega
  · intro i v hi
    rw [slot_holds_set_slot _ _ _ _ _ hne] at hi
    rcases hi with ⟨_, _, h3⟩ | ⟨h1, h2⟩
    · apply hkne
      rw [← h3]
    · exact h1 (hwf.uniq i idx old.1 v old.2 h2 hsh)

end flat_hash_map

end ineffa

/-! ## Robin Hood insertion -/

namespace ineffa

namespace flat_hash_map

variable {K V : Type} [DecidableEq K]

theorem pending_advance {hash_func_ : K → Nat} {m : flat_hash_map K V}
    (hwf : WF hash_func_ m) {e : Nat} (he : e < m.capacity_) (hempty : ¬ occ m e)
    {idx : Nat} (hidx : idx < m.capacity_) (hocc : occ m idx) (cs : ctrl_slot_t) (k : K)
    (hge : ¬ (m.ctrl_slots idx).dib < cs.dib)
    (hp : Pending hash_func_ m cs k idx) :
    Pending hash_func_ m { hash := cs.hash, dib := u32 (cs.dib + 1) } k
      (next_idx m.capacity_ idx) := by
  have hd := pending_dib_lt hwf he hempty hp.2.2
  have hcap := hwf.cap_lt
  have hu : u32 (cs.dib + 1) = cs.dib + 1 := u32_of_lt (by omega)
  refine ⟨hp.1, ?_, ?_⟩
  · show (bucket cs.hash m.capacity_ + u32 (cs.dib + 1)) % m.capacity_ = _
    rw [hu]
    exact pos_step (by omega) hcap hp.2.1
  · intro _
    refine ⟨idx, hidx, rfl, hocc, ?_⟩
    show u32 (cs.dib + 1) ≤ _
    rw [hu]
    omega

theorem insert_for_rehash_loop_spec {hash_func_ : K → Nat} :
    ∀ (fuel n : Nat) (m : flat_hash_map K V) (cs : ctrl_slot_t) (kv : K × V) (idx : Nat),
      WF hash_func_ m → idx < m.capacity_ → n < fuel →
      ¬ occ m ((next_idx m.capacity_)^[n] idx) →
      Pending hash_func_ m cs kv.1 idx → fresh m kv.1 →
      ∃ m1, insert_for_rehash_loop fuel m cs kv idx = some m1 ∧ WF hash_func_ m1 ∧
        m1.capacity_ = m.capacity_ ∧ m1.size_ = m.size_ ∧
        occupied_count m1 = occupied_count m + 1 ∧
        (∀ k v, holds m1 k v ↔ (holds m k v ∨ (k, v) = kv)) ∧
        (∀ i, (∀ t, t ≤ n → i ≠ (next_idx m.capacity_)^[t] idx) →
          m1.ctrl_slots i = m.ctrl_slots i ∧ m1.kv_slots i = m.kv_slots i) := by
  intro fuel
  induction fuel with
  | zero => intro n m cs kv idx _ _ hn; omega
  | succ fuel ih =>
    intro n m cs kv idx hwf hidx hn hempty hp hf
    have hcap := hwf.cap_lt
    have he : (next_idx m.capacity_)^[n] idx < m.capacity_ := iter_next_lt hcap n hidx
    unfold insert_for_rehash_loop
    by_cases hocc : occ m idx
    · have hie : ¬ ((m.ctrl_slots idx).is_empty = true) := by
        rw [is_empty_iff]; exact not_not.2 hocc
      rw [if_neg hie]
      obtain ⟨n1, rfl⟩ : ∃ n1, n = n1 + 1 := by
        cases n with
        | zero => exact absurd hocc hempty
        | succ n1 => exact ⟨n1, rfl⟩
      have hnext : next_idx m.capacity_ idx < m.capacity_ := next_idx_lt hidx hcap
      rw [Function.iterate_succ_apply] at hempty
      by_cases hlt : (m.ctrl_slots idx).dib < cs.dib
      · rw [if_pos hlt]
        obtain ⟨k0, v0, hkv0, _, _⟩ := hwf.slot_ok idx hidx hocc
        rw [hkv0]
        simp only
        obtain ⟨hwf1, hcnt1, hholds1, _, hp1, hf1⟩ :=
          swap_spec hwf he (by rwa [Function.iterate_succ_apply]) hidx hocc cs kv (k0, v0) hkv0 hlt hp hf
        have hempty1 : ¬ occ (set_slot m idx cs (some kv))
            ((next_idx (set_slot m idx cs (some kv)).capacity_)^[n1]
              (next_idx m.capacity_ idx)) := by
          rw [set_slot_capacity, occ_set_slot]
          split_ifs with h
          · rw [h] at hempty
            exact absurd hocc hempty
          · exact hempty
        obtain ⟨m1, hm1, hwfm1, hc1, hs1, hcn1, hh1, hfr1⟩ :=
          ih n1 (set_slot m idx cs (some kv))
            { hash := (m.ctrl_slots idx).hash, dib := u32 ((m.ctrl_slots idx).dib + 1) }
            (k0, v0) (next_idx m.capacity_ idx) hwf1 hnext (by omega) hempty1 hp1 hf1
        refine ⟨m1, hm1, hwfm1, hc1, hs1, by omega, ?_, ?_⟩
        · intro k v
          rw [hh1 k v]
          exact hholds1 k v
        · intro i hi
          have h0 : i ≠ idx := hi 0 (by omega)
          have := hfr1 i (fun t ht => by
            have := hi (t + 1) (by omega)
            rwa [Function.iterate_succ_apply] at this)
          rw [set_slot_ctrl, set_slot_kv, if_neg h0, if_neg h0] at this
          exact this
      · rw [if_neg hlt]
        have hp1 := pending_advance hwf he (by rwa [Function.iterate_succ_apply]) hidx hocc cs kv.1 hlt hp
        obtain ⟨m1, hm1, hwfm1, hc1, hs1, hcn1, hh1, hfr1⟩ :=
          ih n1 m { hash := cs.hash, dib := u32 (cs.dib + 1) } kv (next_idx m.capacity_ idx)
            hwf hnext (by omega) hempty hp1 hf
        refine ⟨m1, hm1, hwfm1, hc1, hs1, hcn1, hh1, ?_⟩
        intro i hi
        exact hfr1 i (fun t ht => by
          have := hi (t + 1) (by omega)
          rwa [Function.iterate_succ_apply] at this)
    · have hie : (m.ctrl_slots idx).is_empty = true := by
        rw [is_empty_iff]; exact hocc
      rw [if_pos hie]
      obtain ⟨h1, h2, h3, _⟩ := place_spec hwf hidx hocc cs kv hp hf
      refine ⟨_, rfl, h1, rfl, rfl, h2, h3, ?_⟩
      intro i hi
      have h0 : i ≠ idx := hi 0 (by omega)
      rw [set_slot_ctrl, set_slot_kv, if_neg h0, if_neg h0]
      exact ⟨rfl, rfl⟩

end flat_hash_map

end ineffa

/-! ## Rehash -/

namespace ineffa

namespace flat_hash_map

variable {K V : Type} [DecidableEq K] [kv_slot_layout K V]

/-- The fresh buffer `rehash` starts from. -/
theorem fresh_table_not_occ (s c : Nat) (i : Nat) :
    ¬ occ (fresh_buffer s c : flat_hash_map K V) i := by
  simp [occ, EMPTY_DIB, fresh_buffer]

theorem fresh_table_WF (hash_func_ : K → Nat) (s c : Nat) (hc : c < 2 ^ 32) :
    WF hash_func_ (fresh_buffer s c : flat_hash_map K V) := by
  refine ⟨hc, ?_, ?_, ?_⟩
  · intro i _ h
    exact absurd h (fresh_table_not_occ s c i)
  · intro i _ h
    exact absurd h (fresh_table_not_occ s c _)
  · intro i j k v w h
    exact absurd h.2.1 (fresh_table_not_occ s c i)

theorem fresh_table_count (s c : Nat) :
    occupied_count (fresh_buffer s c : flat_hash_map K V) = 0 := by
  unfold occupied_count
  rw [List.countP_eq_zero]
  intro a _
  simp [ctrl_slot_t.is_empty, EMPTY_DIB, fresh_buffer]

theorem insert_for_rehash_spec {hash_func_ : K → Nat} (fuel : Nat) (m : flat_hash_map K V)
    (k : K) (v : V) (hwf : WF hash_func_ m) (hcnt : occupied_count m < m.capacity_)
    (hfuel : m.capacity_ ≤ fuel) (hf : fresh m k) :
    ∃ m1, insert_for_rehash fuel m (hash32 hash_func_ k) (k, v) = some m1 ∧
      WF hash_func_ m1 ∧ m1.capacity_ = m.capacity_ ∧ m1.size_ = m.size_ ∧
      occupied_count m1 = occupied_count m + 1 ∧
      (∀ k1 v1, holds m1 k1 v1 ↔ (holds m k1 v1 ∨ (k1, v1) = (k, v))) := by
  obtain ⟨e, he, hempty⟩ := exists_empty_of_count_lt m hcnt
  have hcap := hwf.cap_lt
  have h0 : 0 < m.capacity_ := by omega
  have hb : bucket (hash32 hash_func_ k) m.capacity_ < m.capacity_ :=
    bucket_lt (hash32_lt _ _) h0
  obtain ⟨t, ht, hte⟩ := reach hb he
  have hit : (next_idx m.capacity_)^[t] (bucket (hash32 hash_func_ k) m.capacity_) = e := by
    rw [iter_next_eq h0 hcap t _ hb, hte]
  obtain ⟨m1, h1, h2, h3, h4, h5, h6, _⟩ :=
    insert_for_rehash_loop_spec fuel t m
      { hash := hash32 hash_func_ k, dib := 0 } (k, v)
      (bucket (hash32 hash_func_ k) m.capacity_) hwf hb (by omega) (by rw [hit]; exact hempty)
      ⟨rfl, Nat.mod_eq_of_lt hb, fun h => absurd h (Nat.lt_irrefl 0)⟩ hf
  exact ⟨m1, h1, h2, h3, h4, h5, h6⟩

theorem rehash_prefix {hash_func_ : K → Nat} (fuel : Nat) (m : flat_hash_map K V)
    (new_capacity : Nat) (hwf : WF hash_func_ m) (hnc : new_capacity < 2 ^ 32)
    (hcnt : occupied_count m < new_capacity) (hfuel : new_capacity ≤ fuel) :
    ∀ i, i ≤ m.capacity_ →
      ∃ acc, (List.range i).foldlM (rehash_step fuel m)
          (fresh_buffer m.size_ new_capacity : flat_hash_map K V) = some acc ∧
        WF hash_func_ acc ∧ acc.capacity_ = new_capacity ∧ acc.size_ = m.size_ ∧
        occupied_count acc =
          (List.range i).countP (fun j => !(m.ctrl_slots j).is_empty) ∧
        (∀ k v, holds acc k v ↔ ∃ j, j < i ∧ slot_holds m j k v) := by
  intro i
  induction i with
  | zero =>
    intro _
    refine ⟨_, rfl, fresh_table_WF hash_func_ _ _ hnc, rfl, rfl, ?_, ?_⟩
    · rw [fresh_table_count]
      rfl
    · intro k v
      constructor
      · rintro ⟨j, hj⟩
        exact absurd hj.2.1 (fresh_table_not_occ _ _ j)
      · rintro ⟨j, hj, _⟩
        omega
  | succ i ih =>
    intro hi
    obtain ⟨acc, hacc, hwfa, hca, hsa, hcnta, hha⟩ := ih (by omega)
    rw [List.range_succ, List.foldlM_append, hacc]
    simp only [Option.some_bind, List.foldlM_cons, List.foldlM_nil, Option.bind_eq_bind]
    rw [List.countP_append]
    unfold rehash_step
    by_cases hocc : occ m i
    · have hie : ¬ ((m.ctrl_slots i).is_empty = true) := by
        rw [is_empty_iff]; exact not_not.2 hocc
      have hie2 : (m.ctrl_slots i).is_empty = false := by simpa using hie
      rw [if_neg hie]
      obtain ⟨k0, v0, hkv0, hh0, _⟩ := hwf.slot_ok i (by omega) hocc
      rw [hkv0]
      simp only
      have hmono := countP_range_mono (fun j => !(m.ctrl_slots j).is_empty)
        (show i + 1 ≤ m.capacity_ by omega)
      rw [List.range_succ, List.countP_append] at hmono
      simp only [List.countP_cons, List.countP_nil, hie2, Bool.not_false, if_true] at hmono
      have hfr : fresh acc k0 := by
        intro a w ha
        obtain ⟨j, hj, hjs⟩ := (hha k0 w).1 ⟨a, ha⟩
        have := hwf.uniq j i k0 w v0 hjs ⟨by omega, hocc, hkv0⟩
        omega
      rw [hh0]
      obtain ⟨m1, h1, h2, h3, h4, h5, h6⟩ :=
        insert_for_rehash_spec fuel acc k0 v0 hwfa
          (by rw [hca, hcnta]; unfold occupied_count at hcnt; omega) (by omega) hfr
      rw [h1]
      refine ⟨m1, rfl, h2, by omega, by omega, ?_, ?_⟩
      · rw [h5, hcnta]
        simp [List.countP_cons, hie2]
      · intro k v
        rw [h6, hha]
        constructor
        · rintro (⟨j, hj, hjs⟩ | h)
          · exact ⟨j, by omega, hjs⟩
          · refine ⟨i, by omega, by omega, hocc, ?_⟩
            rw [hkv0, h]
        · rintro ⟨j, hj, hjs⟩
          by_cases hji : j = i
          · subst hji
            right
            have := hjs.2.2
            rw [hkv0] at this
            exact (Option.some.inj this).symm
          · exact Or.inl ⟨j, by omega, hjs⟩
    · have hie : (m.ctrl_slots i).is_empty = true := by
        rw [is_empty_iff]; exact hocc
      rw [if_pos hie]
      refine ⟨acc, rfl, hwfa, hca, hsa, ?_, ?_⟩
      · rw [hcnta]
        simp [List.countP_cons, hie]
      · intro k v
        rw [hha]
        constructor
        · rintro ⟨j, hj, hjs⟩
          exact ⟨j, by omega, hjs⟩
        · rintro ⟨j, hj, hjs⟩
          by_cases hji : j = i
          · subst hji
            exact absurd hjs.2.1 hocc
          · exact ⟨j, by omega, hjs⟩

/-- With a buffer that fits, `rehash` is its loop. -/
theorem rehash_of_fits (fuel : Nat) (m : flat_hash_map K V) {new_capacity : Nat}
    (hfit : buffer_fits K V new_capacity = true) :
    rehash fuel m new_capacity = rehash_loop fuel m new_capacity := by
  unfold rehash
  rw [if_pos hfit]

/-- With a buffer that does not fit, `rehash` has no result. -/
theorem rehash_of_not_fits (fuel : Nat) (m : flat_hash_map K V) {new_capacity : Nat}
    (hfit : buffer_fits K V new_capacity = false) : rehash fuel m new_capacity = none := by
  unfold rehash
  rw [hfit]
  rfl

/-- A result of `rehash` shows that the buffer fits. -/
theorem fits_of_rehash {fuel : Nat} {m m1 : flat_hash_map K V} {new_capacity : Nat}
    (h : rehash fuel m new_capacity = some m1) : buffer_fits K V new_capacity = true := by
  cases hfit : buffer_fits K V new_capacity with
  | true => rfl
  | false => rw [rehash_of_not_fits fuel m hfit] at h; exact absurd h (by simp)

theorem rehash_spec {hash_func_ : K → Nat} (fuel : Nat) (m : flat_hash_map K V)
    (new_capacity : Nat) (hwf : WF hash_func_ m) (hnc : new_capacity < 2 ^ 32)
    (hcnt : occupied_count m < new_capacity) (hfuel : new_capacity ≤ fuel)
    (hfit : buffer_fits K V new_capacity = true) :
    ∃ m1, rehash fuel m new_capacity = some m1 ∧ WF hash_func_ m1 ∧
      m1.capacity_ = new_capacity ∧ m1.size_ = m.size_ ∧
      occupied_count m1 = occupied_count m ∧ (∀ k v, holds m1 k v ↔ holds m k v) := by
  obtain ⟨acc, h1, h2, h3, h4, h5, h6⟩ :=
    rehash_prefix fuel m new_capacity hwf hnc hcnt hfuel m.capacity_ (Nat.le_refl _)
  refine ⟨acc, (rehash_of_fits fuel m hfit).trans h1, h2, h3, h4, h5, ?_⟩
  intro k v
  rw [h6]
  constructor
  · rintro ⟨j, _, hjs⟩
    exact ⟨j, hjs⟩
  · rintro ⟨j, hjs⟩
    exact ⟨j, hjs.1, hjs⟩

end flat_hash_map

end ineffa

/-! ## The probe sequence -/

namespace ineffa

namespace flat_hash_map

variable {K V : Type} [DecidableEq K]

theorem find_loop_eq_probe (m : flat_hash_map K V) (key : K) (hash : Nat) :
    ∀ fuel idx dib, find_loop m key hash fuel idx dib =
      (probe m key hash fuel idx dib).map (find_of_probe m) := by
  intro fuel
  induction fuel with
  | zero => intro idx dib; rfl
  | succ fuel ih =>
    intro idx dib
    unfold find_loop probe
    split_ifs
    · rfl
    · rfl
    · rfl
    · exact ih _ _

theorem erase_loop_eq_probe (fuel_shift : Nat) (m : flat_hash_map K V) (key : K) (hash : Nat) :
    ∀ fuel idx dib, erase_loop fuel_shift m key hash fuel idx dib =
      (probe m key hash fuel idx dib).bind (erase_of_probe fuel_shift m) := by
  intro fuel
  induction fuel with
  | zero => intro idx dib; rfl
  | succ fuel ih =>
    intro idx dib
    unfold erase_loop probe
    split_ifs
    · rfl
    · rfl
    · rfl
    · exact ih _ _

theorem try_emplace_loop_eq_probe (m : flat_hash_map K V) (key : K) (value : V) :
    ∀ fuel cs idx, try_emplace_loop m key value fuel cs idx =
      (probe m key cs.hash fuel idx cs.dib).bind (try_emplace_of_probe m key value cs.hash) := by
  intro fuel
  induction fuel with
  | zero => intro cs idx; rfl
  | succ fuel ih =>
    intro cs idx
    unfold try_emplace_loop probe
    split_ifs
    · rfl
    · rfl
    · rfl
    · exact ih _ _

theorem try_emplace_carry_eq :
    ∀ (fuel : Nat) (m : flat_hash_map K V) (cs : ctrl_slot_t) (kv : K × V) (idx ins : Nat),
      try_emplace_carry fuel m cs kv idx ins =
        (insert_for_rehash_loop fuel m { hash := cs.hash, dib := u32 (cs.dib + 1) } kv
          (next_idx m.capacity_ idx)).map
          fun m1 => ({ m1 with size_ := u32 (m1.size_ + 1) },
            iterator { m1 with size_ := u32 (m1.size_ + 1) } ins, true) := by
  intro fuel
  induction fuel with
  | zero => intro m cs kv idx ins; rfl
  | succ fuel ih =>
    intro m cs kv idx ins
    unfold try_emplace_carry insert_for_rehash_loop
    split_ifs
    · rfl
    · cases h : m.kv_slots (next_idx m.capacity_ idx) with
      | none => rfl
      | some old => exact ih _ _ _ _ _
    · exact ih _ _ _ _ _

theorem key_equal_at_iff (m : flat_hash_map K V) (i : Nat) (k : K) :
    key_equal_at m i k = true ↔ ∃ v, m.kv_slots i = some (k, v) := by
  unfold key_equal_at
  cases h : m.kv_slots i with
  | none => simp
  | some kv =>
    obtain ⟨a, b⟩ := kv
    simp only [decide_eq_true_eq, Option.some.injEq, Prod.mk.injEq]
    constructor
    · rintro rfl
      exact ⟨b, rfl, rfl⟩
    · rintro ⟨v, h1, _⟩
      exact h1

theorem probe_found_aux {hash_func_ : K → Nat} {m : flat_hash_map K V}
    (hwf : WF hash_func_ m) {e : Nat} (he : e < m.capacity_) (hempty : ¬ occ m e)
    {p : Nat} {k : K} {v : V} (hp : slot_holds m p k v) :
    ∀ s t fuel, t + s = (m.ctrl_slots p).dib → s < fuel →
      probe m k (hash32 hash_func_ k) fuel
        ((bucket (hash32 hash_func_ k) m.capacity_ + t) % m.capacity_) t =
        some (ProbeResult.found p) := by
  have hcap := hwf.cap_lt
  have h0 : 0 < m.capacity_ := by omega
  obtain ⟨k1, v1, hkv1, hh1, hpos1⟩ := hwf.slot_ok p hp.1 hp.2.1
  have hk1 : k1 = k := by
    have := hkv1.symm.trans hp.2.2
    simp only [Option.some.injEq, Prod.mk.injEq] at this
    exact this.1
  subst hk1
  rw [hh1] at hpos1
  have hbd := dib_bound hwf he hempty hp.1 hp.2.1
  intro s
  induction s with
  | zero =>
    intro t fuel ht hf
    obtain ⟨f, rfl⟩ : ∃ f, fuel = f + 1 := ⟨fuel - 1, by omega⟩
    have ht2 : t = (m.ctrl_slots p).dib := by omega
    subst ht2
    rw [hpos1]
    unfold probe
    have hie : ¬ ((m.ctrl_slots p).is_empty = true) := by
      rw [is_empty_iff]; exact not_not.2 hp.2.1
    rw [if_neg hie, if_pos ⟨hh1, (key_equal_at_iff m p k1).2 ⟨v, hp.2.2⟩⟩]
  | succ s ih =>
    intro t fuel ht hf
    obtain ⟨f, rfl⟩ : ∃ f, fuel = f + 1 := ⟨fuel - 1, by omega⟩
    have hch := chain_at hwf h0 (bucket (hash32 hash_func_ k1) m.capacity_)
      (m.ctrl_slots p).dib t (by omega) (by rw [hpos1]; exact hp.2.1) (by rw [hpos1])
    have hi : (bucket (hash32 hash_func_ k1) m.capacity_ + t) % m.capacity_ < m.capacity_ :=
      Nat.mod_lt _ h0
    unfold probe
    have hie : ¬ ((m.ctrl_slots
        ((bucket (hash32 hash_func_ k1) m.capacity_ + t) % m.capacity_)).is_empty = true) := by
      rw [is_empty_iff]; exact not_not.2 hch.1
    rw [if_neg hie]
    split_ifs with h1 h2
    · obtain ⟨w, hw⟩ := (key_equal_at_iff m _ k1).1 h1.2
      have := hwf.uniq _ p k1 w v ⟨hi, hch.1, hw⟩ hp
      rw [this]
    · omega
    · rw [u32_of_lt (by omega), next_idx_mod _ h0 hcap]
      exact ih (t + 1) f (by omega) (by omega)

theorem probe_found {hash_func_ : K → Nat} {m : flat_hash_map K V}
    (hwf : WF hash_func_ m) {e : Nat} (he : e < m.capacity_) (hempty : ¬ occ m e)
    {p : Nat} {k : K} {v : V} (hp : slot_holds m p k v) {fuel : Nat}
    (hfuel : m.capacity_ ≤ fuel) :
    probe m k (hash32 hash_func_ k) fuel (bucket (hash32 hash_func_ k) m.capacity_) 0 =
      some (ProbeResult.found p) := by
  have hbd := dib_bound hwf he hempty hp.1 hp.2.1
  have hb : bucket (hash32 hash_func_ k) m.capacity_ < m.capacity_ :=
    bucket_lt (hash32_lt _ _) (by omega)
  have := probe_found_aux hwf he hempty hp (m.ctrl_slots p).dib 0 fuel (by omega) (by omega)
  rwa [Nat.add_zero, Nat.mod_eq_of_lt hb] at this

theorem probe_absent {hash_func_ : K → Nat} {m : flat_hash_map K V}
    (hwf : WF hash_func_ m) {k : K} (hf : fresh m k) (h : Nat) :
    ∀ n fuel idx d, idx < m.capacity_ → n < fuel →
      ¬ occ m ((next_idx m.capacity_)^[n] idx) →
      Pending hash_func_ m { hash := h, dib := d } k idx →
      ∃ s i d1 f, s ≤ n ∧ i = (next_idx m.capacity_)^[s] idx ∧ f + s + 1 = fuel ∧
        Pending hash_func_ m { hash := h, dib := d1 } k i ∧
        ((¬ occ m i ∧ probe m k h fuel idx d = some (ProbeResult.vacant i d1 f)) ∨
          (occ m i ∧ (m.ctrl_slots i).dib < d1 ∧
            probe m k h fuel idx d = some (ProbeResult.richer i d1 f))) := by
  have hcap := hwf.cap_lt
  intro n
  induction n with
  | zero =>
    intro fuel idx d hidx hfuel hempty hp
    obtain ⟨f, rfl⟩ : ∃ f, fuel = f + 1 := ⟨fuel - 1, by omega⟩
    refine ⟨0, idx, d, f, Nat.le_refl _, rfl, by omega, hp, Or.inl ⟨hempty, ?_⟩⟩
    unfold probe
    rw [if_pos ((is_empty_iff m idx).2 hempty)]
  | succ n ih =>
    intro fuel idx d hidx hfuel hempty hp
    obtain ⟨f, rfl⟩ : ∃ f, fuel = f + 1 := ⟨fuel - 1, by omega⟩
    have he : (next_idx m.capacity_)^[n + 1] idx < m.capacity_ := iter_next_lt hcap _ hidx
    by_cases hocc : occ m idx
    · have hie : ¬ ((m.ctrl_slots idx).is_empty = true) := by
        rw [is_empty_iff]; exact not_not.2 hocc
      have hkey : ¬ ((m.ctrl_slots idx).hash = h ∧ key_equal_at m idx k = true) := by
        rintro ⟨_, h2⟩
        obtain ⟨w, hw⟩ := (key_equal_at_iff m idx k).1 h2
        exact hf idx w ⟨hidx, hocc, hw⟩
      by_cases hlt : (m.ctrl_slots idx).dib < d
      · refine ⟨0, idx, d, f, Nat.zero_le _, rfl, by omega, hp, Or.inr ⟨hocc, hlt, ?_⟩⟩
        unfold probe
        rw [if_neg hie, if_neg hkey, if_pos hlt]
      · have hp1 := pending_advance hwf he hempty hidx hocc { hash := h, dib := d } k hlt hp
        rw [Function.iterate_succ_apply] at hempty
        obtain ⟨s, i, d1, f1, hs, hi, hf1, hpi, hres⟩ :=
          ih f (next_idx m.capacity_ idx) (u32 (d + 1)) (next_idx_lt hidx hcap) (by omega)
            hempty hp1
        refine ⟨s + 1, i, d1, f1, by omega, ?_, by omega, hpi, ?_⟩
        · rw [Function.iterate_succ_apply]
          exact hi
        · have hstep : probe m k h (f + 1) idx d =
              probe m k h f (next_idx m.capacity_ idx) (u32 (d + 1)) := by
            conv_lhs => unfold probe
            rw [if_neg hie, if_neg hkey, if_neg hlt]
          rw [hstep]
          exact hres
    · refine ⟨0, idx, d, f, Nat.zero_le _, rfl, by omega, hp, Or.inl ⟨hocc, ?_⟩⟩
      unfold probe
      rw [if_pos ((is_empty_iff m idx).2 hocc)]

end flat_hash_map

end ineffa

/-! ## Lookup -/

namespace ineffa

namespace flat_hash_map

variable {K V : Type} [DecidableEq K]

theorem end_eq (m : flat_hash_map K V) : end_ m = m.capacity_ := by
  unfold end_ iterator
  rw [if_neg (Nat.lt_irrefl _)]

theorem iterator_occ (m : flat_hash_map K V) {p : Nat} (hp : p < m.capacity_)
    (hocc : occ m p) : iterator m p = p := by
  unfold iterator skip_empty
  rw [if_pos hp]
  obtain ⟨n, hn⟩ : ∃ n, m.capacity_ - p = n + 1 := ⟨m.capacity_ - p - 1, by omega⟩
  rw [hn]
  unfold skip_empty_loop
  have hie : ¬ ((m.ctrl_slots p).is_empty = true) := by
    rw [is_empty_iff]; exact not_not.2 hocc
  rw [if_neg (fun h => hie h.2)]

theorem WF_with_size {hash_func_ : K → Nat} {m : flat_hash_map K V} (s : Nat)
    (h : WF hash_func_ m) : WF hash_func_ { m with size_ := s } :=
  ⟨h.cap_lt, h.slot_ok, h.order, h.uniq⟩

theorem inv_has_empty {hash_func_ : K → Nat} {m : flat_hash_map K V} (h : Inv hash_func_ m)
    (h0 : m.capacity_ ≠ 0) : ∃ e, e < m.capacity_ ∧ ¬ occ m e := by
  apply exists_empty_of_count_lt
  have h1 := h.size_eq
  have h2 := h.load
  omega

theorem fresh_or_holds (m : flat_hash_map K V) (k : K) : fresh m k ∨ ∃ v, holds m k v := by
  by_cases h : ∃ v, holds m k v
  · exact Or.inr h
  · left
    intro i v hi
    exact h ⟨v, i, hi⟩

theorem find_present {hash_func_ : K → Nat} {m : flat_hash_map K V}
    (hwf : WF hash_func_ m) {e : Nat} (he : e < m.capacity_) (hempty : ¬ occ m e)
    {p : Nat} {k : K} {v : V} (hp : slot_holds m p k v) {fuel : Nat}
    (hfuel : m.capacity_ ≤ fuel) : find hash_func_ fuel m k = some p := by
  unfold find
  rw [if_neg (by omega), find_loop_eq_probe, probe_found hwf he hempty hp hfuel]
  simp only [Option.map_some', find_of_probe, iterator_occ m hp.1 hp.2.1]

theorem find_absent {hash_func_ : K → Nat} {m : flat_hash_map K V}
    (hwf : WF hash_func_ m) (hem : m.capacity_ = 0 ∨ ∃ e, e < m.capacity_ ∧ ¬ occ m e)
    {k : K} (hf : fresh m k) {fuel : Nat}
    (hfuel : m.capacity_ ≤ fuel) : find hash_func_ fuel m k = some m.capacity_ := by
  unfold find
  by_cases h0 : m.capacity_ = 0
  · rw [if_pos h0, end_eq]
  · rw [if_neg h0, find_loop_eq_probe]
    obtain ⟨e, he, hempty⟩ := hem.resolve_left h0
    have hcap := hwf.cap_lt
    have hb : bucket (hash32 hash_func_ k) m.capacity_ < m.capacity_ :=
      bucket_lt (hash32_lt _ _) (by omega)
    obtain ⟨t, ht, hte⟩ := reach hb he
    have hit : (next_idx m.capacity_)^[t] (bucket (hash32 hash_func_ k) m.capacity_) = e := by
      rw [iter_next_eq (by omega) hcap t _ hb, hte]
    obtain ⟨s, i, d1, f, _, _, _, _, hres⟩ :=
      probe_absent hwf hf (hash32 hash_func_ k) t fuel
        (bucket (hash32 hash_func_ k) m.capacity_) 0 hb (by omega) (by rw [hit]; exact hempty)
        ⟨rfl, Nat.mod_eq_of_lt hb, fun h => absurd h (Nat.lt_irrefl 0)⟩
    rcases hres with ⟨_, hr⟩ | ⟨_, _, hr⟩
    · rw [hr]
      simp only [Option.map_some', find_of_probe, end_eq]
    · rw [hr]
      simp only [Option.map_some', find_of_probe, end_eq]

/-- With enough fuel `find` returns the slot of the key, or `end()` when no slot stores it. -/
theorem find_spec {hash_func_ : K → Nat} {m : flat_hash_map K V} (hinv : Inv hash_func_ m)
    (k : K) {fuel : Nat} (hfuel : m.capacity_ ≤ fuel) :
    (∃ p v, slot_holds m p k v ∧ find hash_func_ fuel m k = some p) ∨
      (fresh m k ∧ find hash_func_ fuel m k = some m.capacity_) := by
  have hem : m.capacity_ = 0 ∨ ∃ e, e < m.capacity_ ∧ ¬ occ m e := by
    by_cases h0 : m.capacity_ = 0
    · exact Or.inl h0
    · exact Or.inr (inv_has_empty hinv h0)
  rcases fresh_or_holds m k with hf | ⟨v, p, hp⟩
  · exact Or.inr ⟨hf, find_absent hinv.wf hem hf hfuel⟩
  · left
    have h0 : m.capacity_ ≠ 0 := by
      have := hp.1
      omega
    obtain ⟨e, he, hempty⟩ := hem.resolve_left h0
    exact ⟨p, v, hp, find_present hinv.wf he hempty hp hfuel⟩

/-! ## Growth -/

variable [kv_slot_layout K V]

theorem grow_spec {hash_func_ : K → Nat} {m : flat_hash_map K V} (hinv : Inv hash_func_ m)
    (hg : m.capacity_ * 7 < 2 ^ 32) {fuel : Nat} (hfuel : grown_capacity m ≤ fuel)
    (hfit : grow_fits m = true) :
    ∃ m1, grow_if_needed fuel m = some m1 ∧ WF hash_func_ m1 ∧
      m1.capacity_ = grown_capacity m ∧ m1.size_ = m.size_ ∧
      occupied_count m1 = occupied_count m ∧ (∀ k v, holds m1 k v ↔ holds m k v) ∧
      8 ≤ m1.capacity_ ∧ 8 * (m1.size_ + 1) ≤ 7 * m1.capacity_ ∧
      (¬ (u32 (m.capacity_ * 7) / 8 ≤ m.size_) → m1 = m) := by
  have h7 : u32 (m.capacity_ * 7) = m.capacity_ * 7 := u32_of_lt hg
  have h3 : u32 (m.capacity_ * 3) = m.capacity_ * 3 := u32_of_lt (by omega)
  have hse := hinv.size_eq
  have hld := hinv.load
  have hcm := hinv.cap_min
  unfold grow_if_needed
  unfold grown_capacity at hfuel ⊢
  unfold grow_fits at hfit
  rw [h7, h3] at hfuel hfit ⊢
  by_cases hthr : m.capacity_ * 7 / 8 ≤ m.size_
  · simp only [if_pos hthr] at hfuel hfit ⊢
    by_cases hc0 : m.capacity_ = 0
    · simp only [if_pos hc0] at hfuel hfit ⊢
      obtain ⟨m1, h1, h2, h3, h4, h5, h6⟩ :=
        rehash_spec fuel m 8 hinv.wf (by norm_num) (by omega) hfuel hfit
      exact ⟨m1, h1, h2, h3, h4, h5, h6, by omega, by omega, fun h => absurd hthr h⟩
    · simp only [if_neg hc0] at hfuel hfit ⊢
      obtain ⟨m1, h1, h2, h3, h4, h5, h6⟩ :=
        rehash_spec fuel m (m.capacity_ * 3 / 2) hinv.wf
          (by omega) (by omega) hfuel hfit
      exact ⟨m1, h1, h2, h3, h4, h5, h6, by omega, by omega, fun h => absurd hthr h⟩
  · simp only [if_neg hthr] at hfuel ⊢
    exact ⟨m, rfl, hinv.wf, rfl, rfl, rfl, fun _ _ => Iff.rfl, by omega, by omega, fun _ => rfl⟩

end flat_hash_map

end ineffa

/-! ## Insertion -/

namespace ineffa

namespace flat_hash_map

variable {K V : Type} [DecidableEq K] [kv_slot_layout K V]

theorem iterator_with_size (m : flat_hash_map K V) (s : Nat) {p : Nat} (hp : p < m.capacity_)
    (hocc : occ m p) : iterator { m with size_ := s } p = p :=
  iterator_occ { m with size_ := s } hp hocc

theorem try_emplace_loop_present {hash_func_ : K → Nat} {m : flat_hash_map K V}
    (hwf : WF hash_func_ m) {e : Nat} (he : e < m.capacity_) (hempty : ¬ occ m e)
    {p : Nat} {k : K} {v0 : V} (hp : slot_holds m p k v0) (v : V) {fuel : Nat}
    (hfuel : m.capacity_ ≤ fuel) :
    try_emplace_loop m k v fuel { hash := hash32 hash_func_ k, dib := 0 }
      (bucket (hash32 hash_func_ k) m.capacity_) = some (m, p, false) := by
  rw [try_emplace_loop_eq_probe]
  show (probe m k (hash32 hash_func_ k) fuel _ 0).bind _ = _
  rw [probe_found hwf he hempty hp hfuel]
  simp only [Option.some_bind, try_emplace_of_probe, iterator_occ m hp.1 hp.2.1]

theorem try_emplace_loop_absent {hash_func_ : K → Nat} {m : flat_hash_map K V}
    (hwf : WF hash_func_ m) {e : Nat} (he : e < m.capacity_) (hempty : ¬ occ m e)
    (k : K) (v : V) (hf : fresh m k) {fuel : Nat} (hfuel : m.capacity_ ≤ fuel)
    (hsz : m.size_ + 1 < 2 ^ 32) :
    ∃ m1 i, try_emplace_loop m k v fuel { hash := hash32 hash_func_ k, dib := 0 }
        (bucket (hash32 hash_func_ k) m.capacity_) = some (m1, i, true) ∧
      WF hash_func_ m1 ∧ m1.capacity_ = m.capacity_ ∧ m1.size_ = m.size_ + 1 ∧
      occupied_count m1 = occupied_count m + 1 ∧
      (∀ k1 v1, holds m1 k1 v1 ↔ (holds m k1 v1 ∨ (k1, v1) = (k, v))) ∧
      slot_holds m1 i k v := by
  have hcap := hwf.cap_lt
  have h0 : 0 < m.capacity_ := by omega
  have hb : bucket (hash32 hash_func_ k) m.capacity_ < m.capacity_ :=
    bucket_lt (hash32_lt _ _) h0
  obtain ⟨t, ht, hte⟩ := reach hb he
  have hit : (next_idx m.capacity_)^[t] (bucket (hash32 hash_func_ k) m.capacity_) = e := by
    rw [iter_next_eq h0 hcap t _ hb, hte]
  obtain ⟨s, i, d1, f, hs, hi, hfs, hpi, hres⟩ :=
    probe_absent hwf hf (hash32 hash_func_ k) t fuel
      (bucket (hash32 hash_func_ k) m.capacity_) 0 hb (by omega) (by rw [hit]; exact hempty)
      ⟨rfl, Nat.mod_eq_of_lt hb, fun h => absurd h (Nat.lt_irrefl 0)⟩
  have hilt : i < m.capacity_ := by rw [hi]; exact iter_next_lt hcap s hb
  have hu : u32 (m.size_ + 1) = m.size_ + 1 := u32_of_lt hsz
  have hloop : try_emplace_loop m k v fuel { hash := hash32 hash_func_ k, dib := 0 }
      (bucket (hash32 hash_func_ k) m.capacity_) =
      (probe m k (hash32 hash_func_ k) fuel (bucket (hash32 hash_func_ k) m.capacity_) 0).bind
        (try_emplace_of_probe m k v (hash32 hash_func_ k)) :=
    try_emplace_loop_eq_probe m k v fuel _ _
  rw [hloop]
  rcases hres with ⟨hiempty, hr⟩ | ⟨hiocc, hilt2, hr⟩
  · rw [hr]
    obtain ⟨h1, h2, h3, h4⟩ :=
      place_spec hwf hilt hiempty { hash := hash32 hash_func_ k, dib := d1 } (k, v) hpi hf
    have hocc1 : occ (set_slot m i { hash := hash32 hash_func_ k, dib := d1 } (some (k, v))) i :=
      h4.2.1
    refine ⟨{ set_slot m i { hash := hash32 hash_func_ k, dib := d1 } (some (k, v)) with
        size_ := m.size_ + 1 }, i, ?_, WF_with_size _ h1, rfl, rfl, h2, h3, h4⟩
    simp only [Option.some_bind, try_emplace_of_probe, hu]
    rw [iterator_with_size (set_slot m i { hash := hash32 hash_func_ k, dib := d1 } (some (k, v))) _ hilt hocc1]
  · rw [hr]
    obtain ⟨k0, v0, hkv0, _, _⟩ := hwf.slot_ok i hilt hiocc
    obtain ⟨hwf1, hcnt1, hholds1, hsh1, hp1, hf1⟩ :=
      swap_spec hwf he hempty hilt hiocc { hash := hash32 hash_func_ k, dib := d1 } (k, v)
        (k0, v0) hkv0 hilt2 hpi hf
    have hsn : s < t := by
      rcases Nat.lt_or_ge s t with h | h
      · exact h
      · exfalso
        have : s = t := by omega
        rw [this, hit] at hi
        rw [hi] at hiocc
        exact hempty hiocc
    obtain ⟨n1, hn1⟩ : ∃ n1, t = s + (n1 + 1) := ⟨t - s - 1, by omega⟩
    have hpath : ∀ u, (next_idx m.capacity_)^[u] (next_idx m.capacity_ i) =
        (next_idx m.capacity_)^[s + (u + 1)] (bucket (hash32 hash_func_ k) m.capacity_) := by
      intro u
      rw [hi, ← Function.iterate_succ_apply, ← Function.iterate_add_apply]
      congr 1
      omega
    have hempty1 : ¬ occ (set_slot m i { hash := hash32 hash_func_ k, dib := d1 } (some (k, v)))
        ((next_idx (set_slot m i { hash := hash32 hash_func_ k, dib := d1 }
          (some (k, v))).capacity_)^[n1] (next_idx m.capacity_ i)) := by
      rw [set_slot_capacity, hpath, ← hn1, hit, occ_set_slot]
      split_ifs with h
      · rw [h] at hempty
        exact absurd hiocc hempty
      · exact hempty
    obtain ⟨m1, hm1, hwfm1, hc1, hs1, hcn1, hh1, hfr1⟩ :=
      insert_for_rehash_loop_spec f n1
        (set_slot m i { hash := hash32 hash_func_ k, dib := d1 } (some (k, v)))
        { hash := (m.ctrl_slots i).hash, dib := u32 ((m.ctrl_slots i).dib + 1) }
        (k0, v0) (next_idx m.capacity_ i) hwf1 (next_idx_lt hilt hcap) (by omega) hempty1 hp1 hf1
    have hkeep := hfr1 i (fun u hu2 => by
      rw [set_slot_capacity]
      exact (iter_next_ne hilt hcap (Nat.succ_pos u) (by omega)).symm.trans_eq
        (Function.iterate_succ_apply _ _ _))
    have hocc1 : occ m1 i := by
      unfold occ
      rw [hkeep.1]
      exact hsh1.2.1
    have hslot : slot_holds m1 i k v := ⟨by rw [hc1]; exact hilt, hocc1, by rw [hkeep.2]; exact hsh1.2.2⟩
    rw [set_slot_capacity] at hc1
    rw [set_slot_size] at hs1
    refine ⟨{ m1 with size_ := m.size_ + 1 }, i, ?_, WF_with_size _ hwfm1, hc1, rfl,
      by show occupied_count m1 = _; omega, ?_, hslot⟩
    · simp only [Option.some_bind, try_emplace_of_probe, hkv0]
      rw [try_emplace_carry_eq]
      show Option.map _ (insert_for_rehash_loop f _ _ (k0, v0) (next_idx m.capacity_ i)) = _
      rw [hm1]
      simp only [Option.map_some', hs1, hu]
      rw [iterator_with_size m1 _ (show i < m1.capacity_ by rw [hc1]; exact hilt) hocc1]
    · intro k1 v1
      show holds m1 k1 v1 ↔ _
      rw [hh1 k1 v1]
      exact hholds1 k1 v1

end flat_hash_map

end ineffa


namespace ineffa

namespace flat_hash_map

variable {K V : Type} [DecidableEq K] [kv_slot_layout K V]

/-- Insertion of a key that some slot already stores: nothing is inserted; the table that
results is the one left by the growth step. -/
theorem try_emplace_present {hash_func_ : K → Nat} {m : flat_hash_map K V}
    (hinv : Inv hash_func_ m) (hg : m.capacity_ * 7 < 2 ^ 32) {fuel : Nat}
    (hfuel : grown_capacity m ≤ fuel) (hfit : grow_fits m = true) {k : K} {v0 : V}
    (hk : holds m k v0) (v : V) :
    ∃ m1 i, try_emplace hash_func_ fuel m k v = some (m1, i, false) ∧ Inv hash_func_ m1 ∧
      m1.capacity_ = grown_capacity m ∧ m1.size_ = m.size_ ∧
      (∀ k1 v1, holds m1 k1 v1 ↔ holds m k1 v1) ∧ slot_holds m1 i k v0 ∧
      (¬ (u32 (m.capacity_ * 7) / 8 ≤ m.size_) → m1 = m) := by
  obtain ⟨m1, h1, hwf1, hc1, hs1, hcn1, hh1, h8, hld, hsame⟩ := grow_spec hinv hg hfuel hfit
  obtain ⟨p, hp⟩ := (hh1 k v0).2 hk
  have hse := hinv.size_eq
  obtain ⟨e, he, hempty⟩ := exists_empty_of_count_lt m1 (by omega)
  refine ⟨m1, p, ?_, ⟨hwf1, by omega, Or.inr h8, by omega⟩, hc1, hs1, hh1, hp, hsame⟩
  unfold try_emplace
  rw [h1]
  exact try_emplace_loop_present hwf1 he hempty hp v (by omega)

/-- Insertion of a key that no slot stores. -/
theorem try_emplace_absent {hash_func_ : K → Nat} {m : flat_hash_map K V}
    (hinv : Inv hash_func_ m) (hg : m.capacity_ * 7 < 2 ^ 32) {fuel : Nat}
    (hfuel : grown_capacity m ≤ fuel) (hfit : grow_fits m = true) {k : K} (hk : fresh m k)
    (v : V) :
    ∃ m1 i, try_emplace hash_func_ fuel m k v = some (m1, i, true) ∧ Inv hash_func_ m1 ∧
      m1.capacity_ = grown_capacity m ∧ m1.size_ = m.size_ + 1 ∧
      (∀ k1 v1, holds m1 k1 v1 ↔ (holds m k1 v1 ∨ (k1, v1) = (k, v))) ∧
      slot_holds m1 i k v := by
  obtain ⟨m1, h1, hwf1, hc1, hs1, hcn1, hh1, h8, hld, _⟩ := grow_spec hinv hg hfuel hfit
  have hse := hinv.size_eq
  have hcap1 := hwf1.cap_lt
  obtain ⟨e, he, hempty⟩ := exists_empty_of_count_lt m1 (by omega)
  have hf1 : fresh m1 k := fun i w hi => hk _ w ((hh1 k w).1 ⟨i, hi⟩).choose_spec
  obtain ⟨m2, i, h2, hwf2, hc2, hs2, hcn2, hh2, hsl2⟩ :=
    try_emplace_loop_absent hwf1 he hempty k v hf1 (show m1.capacity_ ≤ fuel by omega)
      (by omega)
  refine ⟨m2, i, ?_, ⟨hwf2, by omega, Or.inr (by omega), by omega⟩, by omega, by omega, ?_, hsl2⟩
  · unfold try_emplace
    rw [h1]
    exact h2
  · intro k1 v1
    rw [hh2, hh1]

end flat_hash_map

end ineffa

/-! ## Erase -/

namespace ineffa

theorem u32_pred {d : Nat} (h0 : 0 < d) (h : d < 2 ^ 32) : u32 (d + (2 ^ 32 - 1)) = d - 1 := by
  unfold u32
  omega

namespace flat_hash_map

variable {K V : Type} [DecidableEq K]

theorem destroy_kv_ctrl (m : flat_hash_map K V) (idx i : Nat) :
    (destroy_kv m idx).ctrl_slots i =
      if i = idx then { hash := (m.ctrl_slots idx).hash, dib := EMPTY_DIB }
      else m.ctrl_slots i := by
  unfold destroy_kv
  rw [set_slot_ctrl]

theorem destroy_kv_kv (m : flat_hash_map K V) (idx i : Nat) :
    (destroy_kv m idx).kv_slots i = if i = idx then none else m.kv_slots i := by
  unfold destroy_kv
  rw [set_slot_kv]

theorem occ_destroy_kv (m : flat_hash_map K V) (idx i : Nat) :
    occ (destroy_kv m idx) i ↔ i ≠ idx ∧ occ m i := by
  unfold occ
  rw [destroy_kv_ctrl]
  split_ifs with h
  · simp [h]
  · simp [h]

theorem slot_holds_destroy_kv (m : flat_hash_map K V) (idx i : Nat) (k : K) (v : V) :
    slot_holds (destroy_kv m idx) i k v ↔ i ≠ idx ∧ slot_holds m i k v := by
  unfold slot_holds
  rw [occ_destroy_kv, destroy_kv_kv]
  show i < m.capacity_ ∧ _ ↔ _
  by_cases h : i = idx
  · simp [h]
  · simp [h]

theorem shift_step_ctrl (m : flat_hash_map K V) {idx nxt : Nat} (hne : idx ≠ nxt) (i : Nat) :
    (shift_step m idx nxt).ctrl_slots i =
      if i = idx then
        { hash := (m.ctrl_slots nxt).hash, dib := u32 ((m.ctrl_slots nxt).dib + (2 ^ 32 - 1)) }
      else if i = nxt then { hash := (m.ctrl_slots nxt).hash, dib := EMPTY_DIB }
      else m.ctrl_slots i := by
  unfold shift_step dec_dib
  simp only [Function.update_apply, destroy_kv_ctrl, set_slot_ctrl]
  by_cases h1 : i = idx
  · subst h1
    simp [hne]
  · by_cases h2 : i = nxt
    · subst h2
      simp [h1]
    · simp [h1, h2]

theorem shift_step_kv (m : flat_hash_map K V) {idx nxt : Nat} (hne : idx ≠ nxt) (i : Nat) :
    (shift_step m idx nxt).kv_slots i =
      if i = idx then m.kv_slots nxt else if i = nxt then none else m.kv_slots i := by
  unfold shift_step dec_dib
  simp only [destroy_kv_kv, set_slot_kv]
  by_cases h1 : i = idx
  · subst h1
    simp [hne]
  · by_cases h2 : i = nxt
    · subst h2
      simp [h1]
    · simp [h1, h2]

theorem shift_step_capacity (m : flat_hash_map K V) (idx nxt : Nat) :
    (shift_step m idx nxt).capacity_ = m.capacity_ := rfl

theorem shift_step_size (m : flat_hash_map K V) (idx nxt : Nat) :
    (shift_step m idx nxt).size_ = m.size_ := rfl

end flat_hash_map

end ineffa


namespace ineffa

namespace flat_hash_map

variable {K V : Type} [DecidableEq K]

theorem pos_back {c h d idx : Nat} (hc : c < 2 ^ 32) (hidx : idx < c) (hd : 0 < d)
    (hpos : (bucket h c + d) % c = next_idx c idx) : (bucket h c + (d - 1)) % c = idx := by
  have h0 : 0 < c := by omega
  have e : bucket h c + d = bucket h c + (d - 1) + 1 := by omega
  rw [e, ← next_idx_mod _ h0 hc] at hpos
  exact next_idx_inj (Nat.mod_lt _ h0) hidx hc hpos

theorem shift_step_hole {hash_func_ : K → Nat} {m : flat_hash_map K V} {idx dh nx : Nat}
    (h : Hole hash_func_ m idx dh) (hn : nx = next_idx m.capacity_ idx)
    (hocc : occ m nx) (hpos : 0 < (m.ctrl_slots nx).dib) :
    Hole hash_func_ (shift_step m idx nx) nx (m.ctrl_slots nx).dib := by
  have hcap := h.cap_lt
  have hidx := h.idx_lt
  have hnx : nx < m.capacity_ := by rw [hn]; exact next_idx_lt hidx hcap
  have hne : idx ≠ nx := by
    intro e
    rw [← e] at hocc
    exact h.hole_empty hocc
  have h2 : 2 ≤ m.capacity_ := by omega
  have hdn : (m.ctrl_slots nx).dib < 2 ^ 32 := h.dib_lt nx hnx hocc
  have hu := u32_pred hpos hdn
  have hcx : ∀ i, (shift_step m idx nx).ctrl_slots i =
      if i = idx then { hash := (m.ctrl_slots nx).hash, dib := (m.ctrl_slots nx).dib - 1 }
      else if i = nx then { hash := (m.ctrl_slots nx).hash, dib := EMPTY_DIB }
      else m.ctrl_slots i := by
    intro i
    rw [shift_step_ctrl m hne, hu]
  have hkx := shift_step_kv m hne
  have hoccx : ∀ i, occ (shift_step m idx nx) i ↔ (i = idx ∨ (i ≠ nx ∧ occ m i)) := by
    intro i
    unfold occ
    rw [hcx]
    by_cases h1 : i = idx
    · simp only [h1, if_true, true_or, iff_true]
      show (m.ctrl_slots nx).dib - 1 ≠ EMPTY_DIB
      unfold EMPTY_DIB
      omega
    · by_cases h3 : i = nx
      · subst h3
        simp [h1]
      · simp [h1, h3]
  have hinj : ∀ i, i < m.capacity_ → next_idx m.capacity_ i = nx → i = idx := by
    intro i hi hin
    exact next_idx_inj hi hidx hcap (hin.trans hn)
  have hsh : ∀ i k v, slot_holds (shift_step m idx nx) i k v →
      (i = idx ∧ slot_holds m nx k v) ∨ (i ≠ idx ∧ i ≠ nx ∧ slot_holds m i k v) := by
    intro i k v ⟨hi1, hi2, hi3⟩
    rw [shift_step_capacity] at hi1
    rw [hoccx] at hi2
    rw [hkx] at hi3
    by_cases h1 : i = idx
    · left
      rw [if_pos h1] at hi3
      exact ⟨h1, hnx, hocc, hi3⟩
    · right
      rcases hi2 with h4 | ⟨h4, h5⟩
      · exact absurd h4 h1
      · rw [if_neg h1, if_neg h4] at hi3
        exact ⟨h1, h4, hi1, h5, hi3⟩
  refine ⟨hcap, hnx, ?_, ?_, ?_, ?_, ?_, ?_, ?_⟩
  · rw [hoccx]
    rintro (h1 | ⟨h1, _⟩)
    · exact hne h1.symm
    · exact h1 rfl
  · intro i hi ho
    rw [hoccx] at ho
    rw [hcx]
    by_cases h1 : i = idx
    · rw [if_pos h1]
      show (m.ctrl_slots nx).dib - 1 < 2 ^ 32
      omega
    · rcases ho with h3 | ⟨h3, h4⟩
      · exact absurd h3 h1
      · rw [if_neg h1, if_neg h3]
        exact h.dib_lt i hi h4
  · intro i hi ho
    rw [shift_step_capacity] at hi ⊢
    rw [hoccx] at ho
    rw [hcx, hkx]
    by_cases h1 : i = idx
    · rw [if_pos h1, if_pos h1]
      obtain ⟨k, v, hkv, hh, hp⟩ := h.slot_ok nx hnx hocc
      refine ⟨k, v, hkv, hh, ?_⟩
      rw [h1]
      rw [hn] at hp
      exact pos_back hcap hidx hpos (by rw [← hn] at hp ⊢; exact hp)
    · rcases ho with h3 | ⟨h3, h4⟩
      · exact absurd h3 h1
      · rw [if_neg h1, if_neg h3, if_neg h1, if_neg h3]
        exact h.slot_ok i hi h4
  · intro i hi hine
    rw [shift_step_capacity] at hi ⊢
    rw [hoccx, hoccx, hcx, hcx]
    by_cases h1 : i = idx
    · subst h1
      rw [← hn]
      rintro (h3 | ⟨h3, _⟩)
      · exact absurd h3.symm hne
      · exact absurd rfl h3
    · have hnn : next_idx m.capacity_ i ≠ nx := fun e => h1 (hinj i hi e)
      rw [if_neg h1, if_neg hine]
      by_cases h3 : next_idx m.capacity_ i = idx
      · rw [h3, if_pos rfl]
        intro _ hd
        have hd1 : 0 < (m.ctrl_slots nx).dib - 1 := hd
        have haft := h.after (by rw [← hn]; exact hocc) (by rw [← hn]; exact hpos)
        rw [← hn] at haft
        obtain ⟨hb1, hb2⟩ := h.before (by omega) i hi h3
        refine ⟨Or.inr ⟨hine, hb1⟩, ?_⟩
        show (m.ctrl_slots nx).dib - 1 ≤ _
        omega
      · rw [if_neg h3, if_neg hnn]
        rintro (h4 | ⟨_, h4⟩) hd
        · exact absurd h4 h3
        · obtain ⟨ho1, ho2⟩ := h.order i hi h1 h4 hd
          exact ⟨Or.inr ⟨hine, ho1⟩, ho2⟩
  · intro i j k v w hi hj
    rcases hsh i k v hi with ⟨hi1, hi2⟩ | ⟨hi1, hi2, hi3⟩
    · rcases hsh j k w hj with ⟨hj1, _⟩ | ⟨_, hj2, hj3⟩
      · rw [hi1, hj1]
      · exact absurd (h.uniq nx j k v w hi2 hj3).symm hj2
    · rcases hsh j k w hj with ⟨_, hj2⟩ | ⟨_, _, hj3⟩
      · exact absurd (h.uniq i nx k v w hi3 hj2) hi2
      · exact h.uniq i j k v w hi3 hj3
  · intro _ j hj hjn
    rw [shift_step_capacity] at hj hjn
    have := hinj j hj hjn
    subst this
    rw [hoccx, hcx, if_pos rfl]
    refine ⟨Or.inl rfl, ?_⟩
    show _ ≤ (m.ctrl_slots nx).dib - 1 + 1
    omega
  · rw [shift_step_capacity, hoccx, hcx]
    have hnn : next_idx m.capacity_ nx ≠ nx := next_idx_ne_self hnx hcap h2
    by_cases h3 : next_idx m.capacity_ nx = idx
    · rw [h3, if_pos rfl]
      intro _ _
      show (m.ctrl_slots nx).dib - 1 ≤ _
      omega
    · rw [if_neg h3, if_neg hnn]
      rintro (h4 | ⟨_, h4⟩) hd
      · exact absurd h4 h3
      · exact (h.order nx hnx hne.symm h4 hd).2

end flat_hash_map

end ineffa


namespace ineffa

namespace flat_hash_map

variable {K V : Type} [DecidableEq K]

theorem shift_step_occ {m : flat_hash_map K V} {idx nx : Nat} (hne : idx ≠ nx)
    (hpos : 0 < (m.ctrl_slots nx).dib) (hdn : (m.ctrl_slots nx).dib < 2 ^ 32) (i : Nat) :
    occ (shift_step m idx nx) i ↔ (i = idx ∨ (i ≠ nx ∧ occ m i)) := by
  unfold occ
  rw [shift_step_ctrl m hne, u32_pred hpos hdn]
  by_cases h1 : i = idx
  · simp only [h1, if_true, true_or, iff_true]
    show (m.ctrl_slots nx).dib - 1 ≠ EMPTY_DIB
    unfold EMPTY_DIB
    omega
  · by_cases h3 : i = nx
    · subst h3
      simp [h1]
    · simp [h1, h3]

theorem shift_step_holds {hash_func_ : K → Nat} {m : flat_hash_map K V} {idx dh nx : Nat}
    (h : Hole hash_func_ m idx dh) (hn : nx = next_idx m.capacity_ idx)
    (hocc : occ m nx) (hpos : 0 < (m.ctrl_slots nx).dib) :
    (∀ k v, holds (shift_step m idx nx) k v ↔ holds m k v) ∧
      occupied_count (shift_step m idx nx) = occupied_count m := by
  have hcap := h.cap_lt
  have hidx := h.idx_lt
  have hnx : nx < m.capacity_ := by rw [hn]; exact next_idx_lt hidx hcap
  have hne : idx ≠ nx := by
    intro e
    rw [← e] at hocc
    exact h.hole_empty hocc
  have hdn : (m.ctrl_slots nx).dib < 2 ^ 32 := h.dib_lt nx hnx hocc
  have hoccx := shift_step_occ hne hpos hdn
  have hkx := shift_step_kv m hne
  constructor
  · intro k v
    constructor
    · rintro ⟨i, hi1, hi2, hi3⟩
      rw [shift_step_capacity] at hi1
      rw [hoccx] at hi2
      rw [hkx] at hi3
      by_cases h1 : i = idx
      · rw [if_pos h1] at hi3
        exact ⟨nx, hnx, hocc, hi3⟩
      · rcases hi2 with h4 | ⟨h4, h5⟩
        · exact absurd h4 h1
        · rw [if_neg h1, if_neg h4] at hi3
          exact ⟨i, hi1, h5, hi3⟩
    · rintro ⟨i, hi1, hi2, hi3⟩
      have h1 : i ≠ idx := by
        rintro rfl
        exact h.hole_empty hi2
      by_cases h3 : i = nx
      · subst h3
        refine ⟨idx, hidx, (hoccx idx).2 (Or.inl rfl), ?_⟩
        rw [hkx, if_pos rfl]
        exact hi3
      · refine ⟨i, hi1, (hoccx i).2 (Or.inr ⟨h3, hi2⟩), ?_⟩
        rw [hkx, if_neg h1, if_neg h3]
        exact hi3
  · have ha := occupied_count_fill m
      (set_slot m idx ((shift_step m idx nx).ctrl_slots idx) none) idx rfl hidx
      (fun i hi => by rw [set_slot_ctrl, if_neg hi]) h.hole_empty
      (by
        unfold occ
        rw [set_slot_ctrl, if_pos rfl]
        exact (hoccx idx).2 (Or.inl rfl))
    have hb := occupied_count_fill (shift_step m idx nx)
      (set_slot m idx ((shift_step m idx nx).ctrl_slots idx) none) nx rfl hnx
      (fun i hi => by
        rw [set_slot_ctrl]
        by_cases h1 : i = idx
        · rw [if_pos h1, h1]
        · rw [if_neg h1, shift_step_ctrl m hne, if_neg h1, if_neg hi])
      (by
        rw [hoccx]
        rintro (h1 | ⟨h1, _⟩)
        · exact hne h1.symm
        · exact h1 rfl)
      (by
        unfold occ
        rw [set_slot_ctrl, if_neg hne.symm]
        exact hocc)
    omega

theorem hole_stop {hash_func_ : K → Nat} {m : flat_hash_map K V} {idx dh : Nat}
    (h : Hole hash_func_ m idx dh)
    (hs : ¬ occ m (next_idx m.capacity_ idx) ∨
      (m.ctrl_slots (next_idx m.capacity_ idx)).dib = 0) : WF hash_func_ m := by
  refine ⟨h.cap_lt, h.slot_ok, ?_, h.uniq⟩
  intro i hi ho hd
  by_cases h1 : i = idx
  · subst h1
    rcases hs with h2 | h2
    · exact absurd ho h2
    · omega
  · exact h.order i hi h1 ho hd

theorem erase_shift_spec {hash_func_ : K → Nat} :
    ∀ (n fuel : Nat) (m : flat_hash_map K V) (idx dh : Nat),
      Hole hash_func_ m idx dh → n < fuel → n + 1 < m.capacity_ →
      ¬ occ m ((next_idx m.capacity_)^[n + 1] idx) →
      ∃ m1, erase_shift fuel m idx = some m1 ∧ WF hash_func_ m1 ∧
        m1.capacity_ = m.capacity_ ∧ m1.size_ = m.size_ ∧
        occupied_count m1 = occupied_count m ∧ (∀ k v, holds m1 k v ↔ holds m k v) := by
  intro n
  induction n with
  | zero =>
    intro fuel m idx dh h hf _ hempty
    obtain ⟨f, rfl⟩ : ∃ f, fuel = f + 1 := ⟨fuel - 1, by omega⟩
    unfold erase_shift
    rw [Function.iterate_succ_apply, Function.iterate_zero_apply] at hempty
    rw [if_pos (Or.inl ((is_empty_iff m _).2 hempty))]
    exact ⟨m, rfl, hole_stop h (Or.inl hempty), rfl, rfl, rfl, fun _ _ => Iff.rfl⟩
  | succ n ih =>
    intro fuel m idx dh h hf hc hempty
    obtain ⟨f, rfl⟩ : ∃ f, fuel = f + 1 := ⟨fuel - 1, by omega⟩
    unfold erase_shift
    by_cases hs : (m.ctrl_slots (next_idx m.capacity_ idx)).is_empty = true ∨
        (m.ctrl_slots (next_idx m.capacity_ idx)).dib = 0
    · rw [if_pos hs]
      refine ⟨m, rfl, hole_stop h ?_, rfl, rfl, rfl, fun _ _ => Iff.rfl⟩
      rcases hs with h1 | h1
      · exact Or.inl ((is_empty_iff m _).1 h1)
      · exact Or.inr h1
    · rw [if_neg hs]
      have hocc : occ m (next_idx m.capacity_ idx) := by
        by_contra hno
        exact hs (Or.inl ((is_empty_iff m _).2 hno))
      have hpos : 0 < (m.ctrl_slots (next_idx m.capacity_ idx)).dib := by
        rcases Nat.eq_zero_or_pos (m.ctrl_slots (next_idx m.capacity_ idx)).dib with h1 | h1
        · exact absurd (Or.inr h1) hs
        · exact h1
      have hcap := h.cap_lt
      have hidx := h.idx_lt
      have hnx : next_idx m.capacity_ idx < m.capacity_ := next_idx_lt hidx hcap
      have hne : idx ≠ next_idx m.capacity_ idx := by
        intro e
        rw [← e] at hocc
        exact h.hole_empty hocc
      have hdn := h.dib_lt _ hnx hocc
      have hhole := shift_step_hole h rfl hocc hpos
      obtain ⟨hholds, hcount⟩ := shift_step_holds h rfl hocc hpos
      have hempty1 : ¬ occ (shift_step m idx (next_idx m.capacity_ idx))
          ((next_idx (shift_step m idx (next_idx m.capacity_ idx)).capacity_)^[n + 1]
            (next_idx m.capacity_ idx)) := by
        rw [shift_step_capacity, ← Function.iterate_succ_apply, shift_step_occ hne hpos hdn]
        rintro (h1 | ⟨_, h1⟩)
        · exact iter_next_ne hidx hcap (by omega) hc h1
        · exact hempty h1
      obtain ⟨m1, h1, h2, h3, h4, h5, h6⟩ :=
        ih f (shift_step m idx (next_idx m.capacity_ idx)) (next_idx m.capacity_ idx) _
          hhole (by omega) (by rw [shift_step_capacity]; omega) hempty1
      refine ⟨m1, h1, h2, h3, h4, by omega, ?_⟩
      intro k v
      rw [h6, hholds]

theorem hole_of_destroy {hash_func_ : K → Nat} {m : flat_hash_map K V}
    (hwf : WF hash_func_ m) {e : Nat} (he : e < m.capacity_) (hempty : ¬ occ m e)
    {p : Nat} (hp : p < m.capacity_) (hocc : occ m p) :
    Hole hash_func_ (destroy_kv m p) p (m.ctrl_slots p).dib := by
  have hcap := hwf.cap_lt
  have hep : e ≠ p := by
    rintro rfl
    exact hempty hocc
  have h2 : 2 ≤ m.capacity_ := by omega
  have hctrl : ∀ i, i ≠ p → (destroy_kv m p).ctrl_slots i = m.ctrl_slots i := by
    intro i hi
    rw [destroy_kv_ctrl, if_neg hi]
  have hkv : ∀ i, i ≠ p → (destroy_kv m p).kv_slots i = m.kv_slots i := by
    intro i hi
    rw [destroy_kv_kv, if_neg hi]
  refine ⟨hcap, hp, ?_, ?_, ?_, ?_, ?_, ?_, ?_⟩
  · rw [occ_destroy_kv]
    exact fun h => h.1 rfl
  · intro i hi ho
    rw [occ_destroy_kv] at ho
    rw [hctrl i ho.1]
    have := dib_bound hwf he hempty hi ho.2
    omega
  · intro i hi ho
    rw [occ_destroy_kv] at ho
    rw [hctrl i ho.1, hkv i ho.1]
    exact hwf.slot_ok i hi ho.2
  · intro i hi hne ho hd
    show occ _ i ∧ ((destroy_kv m p).ctrl_slots (next_idx m.capacity_ i)).dib ≤ _
    have ho1 : occ (destroy_kv m p) (next_idx m.capacity_ i) := ho
    have hd1 : 0 < ((destroy_kv m p).ctrl_slots (next_idx m.capacity_ i)).dib := hd
    rw [occ_destroy_kv] at ho1 ⊢
    rw [hctrl _ ho1.1] at hd1 ⊢
    rw [hctrl i hne]
    obtain ⟨h1, h3⟩ := hwf.order i hi ho1.2 hd1
    exact ⟨⟨hne, h1⟩, h3⟩
  · intro i j k v w hi hj
    rw [slot_holds_destroy_kv] at hi hj
    exact hwf.uniq i j k v w hi.2 hj.2
  · intro hd j hj hjn
    have hj1 : j < m.capacity_ := hj
    have hjn1 : next_idx m.capacity_ j = p := hjn
    have hjp : j ≠ p := by
      rintro rfl
      exact next_idx_ne_self hj1 hcap h2 hjn1
    rw [occ_destroy_kv, hctrl j hjp]
    obtain ⟨h1, h3⟩ := hwf.order j hj1 (by rw [hjn1]; exact hocc) (by rw [hjn1]; exact hd)
    rw [hjn1] at h3
    exact ⟨⟨hjp, h1⟩, h3⟩
  · intro ho hd
    have ho1 : occ (destroy_kv m p) (next_idx m.capacity_ p) := ho
    have hd1 : 0 < ((destroy_kv m p).ctrl_slots (next_idx m.capacity_ p)).dib := hd
    show ((destroy_kv m p).ctrl_slots (next_idx m.capacity_ p)).dib ≤ _
    rw [occ_destroy_kv] at ho1
    rw [hctrl _ ho1.1] at hd1 ⊢
    exact (hwf.order p hp ho1.2 hd1).2

end flat_hash_map

end ineffa

/-! ## More fuel does not change a result -/

namespace ineffa

theorem foldlM_option_mono {α β : Type} (f g : β → α → Option β)
    (hfg : ∀ b a r, f b a = some r → g b a = some r) :
    ∀ (l : List α) (b r : β), l.foldlM f b = some r → l.foldlM g b = some r := by
  intro l
  induction l with
  | nil => intro b r h; exact h
  | cons a l ih =>
    intro b r h
    rw [List.foldlM_cons] at h ⊢
    cases hfa : f b a with
    | none => rw [hfa] at h; exact absurd h (by simp)
    | some b1 =>
      rw [hfa] at h
      rw [hfg b a b1 hfa]
      exact ih b1 r h

namespace flat_hash_map

variable {K V : Type} [DecidableEq K] [kv_slot_layout K V]

theorem insert_for_rehash_loop_mono :
    ∀ (fuel fuel1 : Nat) (m : flat_hash_map K V) (cs : ctrl_slot_t) (kv : K × V) (idx : Nat)
      (r : flat_hash_map K V), fuel ≤ fuel1 →
      insert_for_rehash_loop fuel m cs kv idx = some r →
      insert_for_rehash_loop fuel1 m cs kv idx = some r := by
  intro fuel
  induction fuel with
  | zero => intro fuel1 m cs kv idx r _ h; exact absurd h (by simp [insert_for_rehash_loop])
  | succ fuel ih =>
    intro fuel1 m cs kv idx r hle h
    obtain ⟨f1, rfl⟩ : ∃ f1, fuel1 = f1 + 1 := ⟨fuel1 - 1, by omega⟩
    unfold insert_for_rehash_loop at h ⊢
    split_ifs at h ⊢ with c1 c2
    · exact h
    · cases hkv : m.kv_slots idx with
      | none => rw [hkv] at h; exact absurd h (by simp)
      | some old =>
        rw [hkv] at h
        exact ih f1 _ _ _ _ r (by omega) h
    · exact ih f1 _ _ _ _ r (by omega) h

theorem rehash_mono (fuel fuel1 : Nat) (m : flat_hash_map K V) (c : Nat)
    (r : flat_hash_map K V) (hle : fuel ≤ fuel1) (h : rehash fuel m c = some r) :
    rehash fuel1 m c = some r := by
  have hfit := fits_of_rehash h
  rw [rehash_of_fits _ _ hfit] at h ⊢
  unfold rehash_loop at h ⊢
  refine foldlM_option_mono (rehash_step fuel m) (rehash_step fuel1 m) ?_ _ _ _ h
  intro b a r1 h1
  unfold rehash_step at h1 ⊢
  split_ifs at h1 ⊢ with c1
  · exact h1
  · cases hkv : m.kv_slots a with
    | none => rw [hkv] at h1; exact absurd h1 (by simp)
    | some kv =>
      rw [hkv] at h1
      exact insert_for_rehash_loop_mono fuel fuel1 _ _ _ _ r1 hle h1

theorem find_loop_mono (m : flat_hash_map K V) (key : K) (hash : Nat) :
    ∀ (fuel fuel1 idx dib r : Nat), fuel ≤ fuel1 →
      find_loop m key hash fuel idx dib = some r → find_loop m key hash fuel1 idx dib = some r := by
  intro fuel
  induction fuel with
  | zero => intro fuel1 idx dib r _ h; exact absurd h (by simp [find_loop])
  | succ fuel ih =>
    intro fuel1 idx dib r hle h
    obtain ⟨f1, rfl⟩ : ∃ f1, fuel1 = f1 + 1 := ⟨fuel1 - 1, by omega⟩
    unfold find_loop at h ⊢
    split_ifs at h ⊢
    · exact h
    · exact h
    · exact h
    · exact ih f1 _ _ r (by omega) h

theorem find_mono (hash_func_ : K → Nat) (fuel fuel1 : Nat) (m : flat_hash_map K V) (key : K)
    (r : Nat) (hle : fuel ≤ fuel1) (h : find hash_func_ fuel m key = some r) :
    find hash_func_ fuel1 m key = some r := by
  unfold find at h ⊢
  split_ifs at h ⊢
  · exact h
  · exact find_loop_mono m key _ fuel fuel1 _ _ r hle h

theorem erase_shift_mono :
    ∀ (fuel fuel1 : Nat) (m : flat_hash_map K V) (idx : Nat) (r : flat_hash_map K V),
      fuel ≤ fuel1 → erase_shift fuel m idx = some r → erase_shift fuel1 m idx = some r := by
  intro fuel
  induction fuel with
  | zero => intro fuel1 m idx r _ h; exact absurd h (by simp [erase_shift])
  | succ fuel ih =>
    intro fuel1 m idx r hle h
    obtain ⟨f1, rfl⟩ : ∃ f1, fuel1 = f1 + 1 := ⟨fuel1 - 1, by omega⟩
    unfold erase_shift at h ⊢
    split_ifs at h ⊢
    · exact h
    · exact ih f1 _ _ r (by omega) h

theorem erase_loop_mono (m : flat_hash_map K V) (key : K) (hash : Nat) (fs fs1 : Nat)
    (hfs : fs ≤ fs1) :
    ∀ (fuel fuel1 idx dib : Nat) (r : flat_hash_map K V × Nat), fuel ≤ fuel1 →
      erase_loop fs m key hash fuel idx dib = some r →
      erase_loop fs1 m key hash fuel1 idx dib = some r := by
  intro fuel
  induction fuel with
  | zero => intro fuel1 idx dib r _ h; exact absurd h (by simp [erase_loop])
  | succ fuel ih =>
    intro fuel1 idx dib r hle h
    obtain ⟨f1, rfl⟩ : ∃ f1, fuel1 = f1 + 1 := ⟨fuel1 - 1, by omega⟩
    unfold erase_loop at h ⊢
    split_ifs at h ⊢
    · exact h
    · cases hs : erase_shift fs
          (destroy_kv { m with size_ := u32 (m.size_ + (2 ^ 32 - 1)) } idx) idx with
      | none => rw [hs] at h; exact absurd h (by simp)
      | some m1 =>
        rw [hs] at h
        rw [erase_shift_mono fs fs1 _ _ m1 hfs hs]
        exact h
    · exact h
    · exact ih f1 _ _ r (by omega) h

theorem erase_mono (hash_func_ : K → Nat) (fuel fuel1 : Nat) (m : flat_hash_map K V) (key : K)
    (r : flat_hash_map K V × Nat) (hle : fuel ≤ fuel1)
    (h : erase hash_func_ fuel m key = some r) : erase hash_func_ fuel1 m key = some r := by
  unfold erase at h ⊢
  split_ifs at h ⊢
  · exact h
  · exact erase_loop_mono m key _ fuel fuel1 hle fuel fuel1 _ _ r hle h

theorem try_emplace_carry_mono :
    ∀ (fuel fuel1 : Nat) (m : flat_hash_map K V) (cs : ctrl_slot_t) (kv : K × V)
      (idx ins : Nat) (r : flat_hash_map K V × Nat × Bool), fuel ≤ fuel1 →
      try_emplace_carry fuel m cs kv idx ins = some r →
      try_emplace_carry fuel1 m cs kv idx ins = some r := by
  intro fuel fuel1 m cs kv idx ins r hle h
  rw [try_emplace_carry_eq] at h ⊢
  cases hi : insert_for_rehash_loop fuel m { hash := cs.hash, dib := u32 (cs.dib + 1) } kv
      (next_idx m.capacity_ idx) with
  | none => rw [hi] at h; exact absurd h (by simp)
  | some m1 =>
    rw [hi] at h
    rw [insert_for_rehash_loop_mono fuel fuel1 _ _ _ _ m1 hle hi]
    exact h

theorem try_emplace_loop_mono (m : flat_hash_map K V) (key : K) (value : V) :
    ∀ (fuel fuel1 : Nat) (cs : ctrl_slot_t) (idx : Nat) (r : flat_hash_map K V × Nat × Bool),
      fuel ≤ fuel1 → try_emplace_loop m key value fuel cs idx = some r →
      try_emplace_loop m key value fuel1 cs idx = some r := by
  intro fuel
  induction fuel with
  | zero => intro fuel1 cs idx r _ h; exact absurd h (by simp [try_emplace_loop])
  | succ fuel ih =>
    intro fuel1 cs idx r hle h
    obtain ⟨f1, rfl⟩ : ∃ f1, fuel1 = f1 + 1 := ⟨fuel1 - 1, by omega⟩
    unfold try_emplace_loop at h ⊢
    split_ifs at h ⊢
    · exact h
    · exact h
    · cases hkv : m.kv_slots idx with
      | none => rw [hkv] at h; exact absurd h (by simp)
      | some old =>
        rw [hkv] at h
        exact try_emplace_carry_mono fuel f1 _ _ _ _ _ r (by omega) h
    · exact ih f1 _ _ r (by omega) h

theorem try_emplace_mono (hash_func_ : K → Nat) (fuel fuel1 : Nat) (m : flat_hash_map K V)
    (key : K) (value : V) (r : flat_hash_map K V × Nat × Bool) (hle : fuel ≤ fuel1)
    (h : try_emplace hash_func_ fuel m key value = some r) :
    try_emplace hash_func_ fuel1 m key value = some r := by
  unfold try_emplace at h ⊢
  cases hg : grow_if_needed fuel m with
  | none => rw [hg] at h; exact absurd h (by simp)
  | some m1 =>
    rw [hg] at h
    have hg1 : grow_if_needed fuel1 m = some m1 := by
      unfold grow_if_needed at hg ⊢
      split_ifs at hg ⊢
      · exact rehash_mono fuel fuel1 m _ m1 hle hg
      · exact rehash_mono fuel fuel1 m _ m1 hle hg
      · exact hg
    rw [hg1]
    exact try_emplace_loop_mono m1 key value fuel fuel1 _ _ r hle h

theorem required_capacity_loop_mono :
    ∀ (fuel fuel1 n rc r : Nat), fuel ≤ fuel1 →
      required_capacity_loop fuel n rc = some r → required_capacity_loop fuel1 n rc = some r := by
  intro fuel
  induction fuel with
  | zero => intro fuel1 n rc r _ h; exact absurd h (by simp [required_capacity_loop])
  | succ fuel ih =>
    intro fuel1 n rc r hle h
    obtain ⟨f1, rfl⟩ : ∃ f1, fuel1 = f1 + 1 := ⟨fuel1 - 1, by omega⟩
    unfold required_capacity_loop at h ⊢
    split_ifs at h ⊢
    · exact ih f1 _ _ r (by omega) h
    · exact h

end flat_hash_map

end ineffa


namespace ineffa

namespace flat_hash_map

variable {K V : Type} [DecidableEq K] [kv_slot_layout K V]

/-- Erase of a key that some slot stores. -/
theorem erase_present {hash_func_ : K → Nat} {m : flat_hash_map K V}
    (hinv : Inv hash_func_ m) {p : Nat} {k : K} {v : V} (hp : slot_holds m p k v)
    {fuel : Nat} (hfuel : m.capacity_ ≤ fuel) :
    ∃ m1, erase hash_func_ fuel m k = some (m1, 1) ∧ Inv hash_func_ m1 ∧
      m1.capacity_ = m.capacity_ ∧ m1.size_ + 1 = m.size_ ∧
      (∀ k1 v1, holds m1 k1 v1 ↔ (holds m k1 v1 ∧ k1 ≠ k)) := by
  have hwf := hinv.wf
  have hcap := hwf.cap_lt
  have h0 : m.capacity_ ≠ 0 := by
    have := hp.1
    omega
  obtain ⟨e, he, hempty⟩ := inv_has_empty hinv h0
  have hep : e ≠ p := by
    rintro rfl
    exact hempty hp.2.1
  obtain ⟨t, ht, hte⟩ := reach hp.1 he
  have ht0 : t ≠ 0 := by
    rintro rfl
    rw [Nat.add_zero, Nat.mod_eq_of_lt hp.1] at hte
    exact hep hte.symm
  obtain ⟨n, rfl⟩ : ∃ n, t = n + 1 := ⟨t - 1, by omega⟩
  have hit : (next_idx m.capacity_)^[n + 1] p = e := by
    rw [iter_next_eq (by omega) hcap _ _ hp.1, hte]
  obtain ⟨s0, hs0⟩ : ∃ s0, s0 = u32 (m.size_ + (2 ^ 32 - 1)) := ⟨_, rfl⟩
  have hwf0 : WF hash_func_ { m with size_ := s0 } := WF_with_size _ hwf
  have hhole := hole_of_destroy hwf0 he hempty hp.1 hp.2.1
  have hempty0 : ¬ occ (destroy_kv { m with size_ := s0 } p)
      ((next_idx (destroy_kv { m with size_ := s0 } p).capacity_)^[n + 1] p) := by
    show ¬ occ _ ((next_idx m.capacity_)^[n + 1] p)
    rw [hit, occ_destroy_kv]
    exact fun h => hempty h.2
  obtain ⟨m1, h1, h2, h3, h4, h5, h6⟩ :=
    erase_shift_spec n fuel _ p _ hhole (by omega) ht hempty0
  have hcnt : occupied_count (destroy_kv { m with size_ := s0 } p) + 1 = occupied_count m := by
    have := occupied_count_fill (destroy_kv { m with size_ := s0 } p)
      m p rfl hp.1 (fun i hi => by rw [destroy_kv_ctrl, if_neg hi])
      (by rw [occ_destroy_kv]; exact fun h => h.1 rfl) hp.2.1
    omega
  have hse := hinv.size_eq
  have hle := occupied_count_le m
  have hsz : s0 = m.size_ - 1 := by
    rw [hs0]
    exact u32_pred (by omega) (by omega)
  have hs1 : m1.size_ = m.size_ - 1 := by
    rw [h4]
    exact hsz
  have hld := hinv.load
  refine ⟨m1, ?_, ⟨h2, by omega, by rw [h3]; exact hinv.cap_min, by rw [h3]; show _ ≤ 7 * m.capacity_; omega⟩,
    h3, by omega, ?_⟩
  · unfold erase
    rw [if_neg h0, erase_loop_eq_probe, probe_found hwf he hempty hp hfuel]
    simp only [Option.some_bind, erase_of_probe, ← hs0, h1, Option.map_some']
  · intro k1 v1
    rw [h6]
    unfold holds
    constructor
    · rintro ⟨i, hi⟩
      rw [slot_holds_destroy_kv] at hi
      refine ⟨⟨i, hi.2⟩, ?_⟩
      rintro rfl
      exact hi.1 (hwf.uniq i p k1 v1 v hi.2 hp)
    · rintro ⟨⟨i, hi⟩, hne⟩
      refine ⟨i, ?_⟩
      rw [slot_holds_destroy_kv]
      refine ⟨?_, hi⟩
      rintro rfl
      have := hi.2.2.symm.trans hp.2.2
      simp only [Option.some.injEq, Prod.mk.injEq] at this
      exact hne this.1

/-- Erase of a key that no slot stores. -/
theorem erase_absent {hash_func_ : K → Nat} {m : flat_hash_map K V}
    (hinv : Inv hash_func_ m) {k : K} (hf : fresh m k)
    {fuel : Nat} (hfuel : m.capacity_ ≤ fuel) :
    erase hash_func_ fuel m k = some (m, 0) := by
  unfold erase
  by_cases h0 : m.capacity_ = 0
  · rw [if_pos h0]
  · rw [if_neg h0, erase_loop_eq_probe]
    have hwf := hinv.wf
    obtain ⟨e, he, hempty⟩ := inv_has_empty hinv h0
    have hcap := hwf.cap_lt
    have hb : bucket (hash32 hash_func_ k) m.capacity_ < m.capacity_ :=
      bucket_lt (hash32_lt _ _) (by omega)
    obtain ⟨t, ht, hte⟩ := reach hb he
    have hit : (next_idx m.capacity_)^[t] (bucket (hash32 hash_func_ k) m.capacity_) = e := by
      rw [iter_next_eq (by omega) hcap t _ hb, hte]
    obtain ⟨s, i, d1, f, _, _, _, _, hres⟩ :=
      probe_absent hwf hf (hash32 hash_func_ k) t fuel
        (bucket (hash32 hash_func_ k) m.capacity_) 0 hb (by omega) (by rw [hit]; exact hempty)
        ⟨rfl, Nat.mod_eq_of_lt hb, fun h => absurd h (Nat.lt_irrefl 0)⟩
    rcases hres with ⟨_, hr⟩ | ⟨_, _, hr⟩
    · rw [hr]
      rfl
    · rw [hr]
      rfl

end flat_hash_map

end ineffa

/-! ## The invariant of the reachable states -/

namespace ineffa

namespace flat_hash_map

variable {K V : Type} [DecidableEq K] [kv_slot_layout K V]

theorem inv_of_capacity_zero (hash_func_ : K → Nat) (m : flat_hash_map K V)
    (hc : m.capacity_ = 0) (hs : m.size_ = 0) : Inv hash_func_ m := by
  refine ⟨⟨by omega, ?_, ?_, ?_⟩, ?_, Or.inl hc, by omega⟩
  · intro i hi
    omega
  · intro i hi
    omega
  · intro i j k v w hi
    have := hi.1
    omega
  · unfold occupied_count
    rw [hc, hs]
    rfl

theorem inv_empty (hash_func_ : K → Nat) : Inv hash_func_ (empty : flat_hash_map K V) :=
  inv_of_capacity_zero hash_func_ _ rfl rfl

theorem inv_no_occ (hash_func_ : K → Nat) (m : flat_hash_map K V)
    (hcap : m.capacity_ < 2 ^ 32) (hmin : m.capacity_ = 0 ∨ 8 ≤ m.capacity_)
    (hs : m.size_ = 0) (hno : ∀ i, i < m.capacity_ → ¬ occ m i) : Inv hash_func_ m := by
  have hcap1 := hcap
  refine ⟨⟨hcap, ?_, ?_, ?_⟩, ?_, hmin, by omega⟩
  · intro i hi ho
    exact absurd ho (hno i hi)
  · intro i hi ho
    exact absurd ho (hno _ (next_idx_lt hi hcap1))
  · intro i j k v w hi
    exact absurd hi.2.1 (hno i hi.1)
  · rw [hs]
    unfold occupied_count
    symm
    rw [List.countP_eq_zero]
    intro a ha
    have := hno a (List.mem_range.1 ha)
    simp only [occ, ne_eq, not_not] at this
    simp [ctrl_slot_t.is_empty, this]

/-- A result of the growth step shows that its buffer fits. -/
theorem grow_fits_of_grow {fuel : Nat} {m m1 : flat_hash_map K V}
    (h : grow_if_needed fuel m = some m1) : grow_fits m = true := by
  unfold grow_if_needed at h
  unfold grow_fits
  by_cases hthr : u32 (m.capacity_ * 7) / 8 ≤ m.size_
  · simp only [if_pos hthr] at h ⊢
    exact fits_of_rehash h
  · simp only [if_neg hthr]

/-- Below the growth threshold the growth step allocates nothing. -/
theorem grow_fits_of_lt {m : flat_hash_map K V}
    (h : ¬ (u32 (m.capacity_ * 7) / 8 ≤ m.size_)) : grow_fits m = true := by
  unfold grow_fits
  rw [if_neg h]

/-- A result of `try_emplace` shows that the buffer of its growth step fits. -/
theorem grow_fits_of_try_emplace {hash_func_ : K → Nat} {fuel : Nat} {m : flat_hash_map K V}
    {k : K} {v : V} {r : flat_hash_map K V × Nat × Bool}
    (h : try_emplace hash_func_ fuel m k v = some r) : grow_fits m = true := by
  unfold try_emplace at h
  cases hg : grow_if_needed fuel m with
  | none => rw [hg] at h; exact absurd h (by simp)
  | some m1 => exact grow_fits_of_grow hg

/-- What `try_emplace` does with any amount of fuel that lets it return. -/
theorem try_emplace_any {hash_func_ : K → Nat} {m : flat_hash_map K V}
    (hinv : Inv hash_func_ m) (hg : m.capacity_ * 7 < 2 ^ 32) {fuel : Nat} {k : K} {v : V}
    {r : flat_hash_map K V × Nat × Bool} (h : try_emplace hash_func_ fuel m k v = some r) :
    Inv hash_func_ r.1 ∧ r.1.capacity_ = grown_capacity m ∧
      ((∃ v0, holds m k v0 ∧ r.2.2 = false ∧ r.1.size_ = m.size_ ∧ slot_holds r.1 r.2.1 k v0 ∧
          (∀ k1 v1, holds r.1 k1 v1 ↔ holds m k1 v1) ∧
          (¬ (u32 (m.capacity_ * 7) / 8 ≤ m.size_) → r.1 = m)) ∨
        (fresh m k ∧ r.2.2 = true ∧ r.1.size_ = m.size_ + 1 ∧ slot_holds r.1 r.2.1 k v ∧
          (∀ k1 v1, holds r.1 k1 v1 ↔ (holds m k1 v1 ∨ (k1, v1) = (k, v))))) := by
  have hm := try_emplace_mono hash_func_ fuel (max fuel (grown_capacity m)) m k v r
    (Nat.le_max_left _ _) h
  have hfit := grow_fits_of_try_emplace h
  rcases fresh_or_holds m k with hf | ⟨v0, hv0⟩
  · obtain ⟨m1, i, h1, h2, h3, h4, h5, h6⟩ :=
      try_emplace_absent hinv hg (Nat.le_max_right fuel (grown_capacity m)) hfit hf v
    rw [h1] at hm
    have := Option.some.inj hm
    subst this
    exact ⟨h2, h3, Or.inr ⟨hf, rfl, h4, h6, h5⟩⟩
  · obtain ⟨m1, i, h1, h2, h3, h4, h5, h6, h7⟩ :=
      try_emplace_present hinv hg (Nat.le_max_right fuel (grown_capacity m)) hfit hv0 v
    rw [h1] at hm
    have := Option.some.inj hm
    subst this
    exact ⟨h2, h3, Or.inl ⟨v0, hv0, rfl, h4, h6, h5, h7⟩⟩

/-- What `erase` does with any amount of fuel that lets it return. -/
theorem erase_any {hash_func_ : K → Nat} {m : flat_hash_map K V}
    (hinv : Inv hash_func_ m) {fuel : Nat} {k : K}
    {r : flat_hash_map K V × Nat} (h : erase hash_func_ fuel m k = some r) :
    Inv hash_func_ r.1 ∧ r.1.capacity_ = m.capacity_ ∧
      ((∃ v0, holds m k v0 ∧ r.2 = 1 ∧ r.1.size_ + 1 = m.size_ ∧
          (∀ k1 v1, holds r.1 k1 v1 ↔ (holds m k1 v1 ∧ k1 ≠ k))) ∨
        (fresh m k ∧ r = (m, 0))) := by
  have hm := erase_mono hash_func_ fuel (max fuel m.capacity_) m k r (Nat.le_max_left _ _) h
  rcases fresh_or_holds m k with hf | ⟨v0, p, hp⟩
  · rw [erase_absent hinv hf (Nat.le_max_right _ _)] at hm
    have := Option.some.inj hm
    subst this
    exact ⟨hinv, rfl, Or.inr ⟨hf, rfl⟩⟩
  · obtain ⟨m1, h1, h2, h3, h4, h5⟩ := erase_present hinv hp (Nat.le_max_right fuel m.capacity_)
    rw [h1] at hm
    have := Option.some.inj hm
    subst this
    exact ⟨h2, h3, Or.inl ⟨v0, ⟨p, hp⟩, rfl, h4, h5⟩⟩

/-! ### clear -/

theorem clear_fold (m : flat_hash_map K V) :
    ∀ n, ((List.range n).foldl
        (fun acc idx => if (acc.ctrl_slots idx).is_empty = true then acc else destroy_kv acc idx)
        m).capacity_ = m.capacity_ ∧
      ∀ j, j < n → ¬ occ ((List.range n).foldl
        (fun acc idx => if (acc.ctrl_slots idx).is_empty = true then acc else destroy_kv acc idx)
        m) j := by
  intro n
  induction n with
  | zero => exact ⟨rfl, fun j hj => absurd hj (Nat.not_lt_zero j)⟩
  | succ n ih =>
    rw [List.range_succ, List.foldl_append]
    simp only [List.foldl_cons, List.foldl_nil]
    obtain ⟨h1, h2⟩ := ih
    split_ifs with hc
    · refine ⟨h1, ?_⟩
      intro j hj
      by_cases hjn : j = n
      · rw [hjn]
        exact (is_empty_iff _ _).1 hc
      · exact h2 j (by omega)
    · refine ⟨h1, ?_⟩
      intro j hj
      rw [occ_destroy_kv]
      rintro ⟨h3, h4⟩
      exact h2 j (by omega) h4

theorem clear_spec {hash_func_ : K → Nat} {m : flat_hash_map K V} (hinv : Inv hash_func_ m) :
    Inv hash_func_ (clear m) ∧ (clear m).capacity_ = m.capacity_ ∧ (clear m).size_ = 0 ∧
      (∀ i, i < m.capacity_ → ¬ occ (clear m) i) := by
  unfold clear
  by_cases h0 : m.capacity_ = 0
  · rw [if_pos h0]
    have hs : m.size_ = 0 := by
      have := hinv.load
      omega
    exact ⟨hinv, rfl, hs, fun i hi => by omega⟩
  · rw [if_neg h0]
    obtain ⟨h1, h2⟩ := clear_fold m m.capacity_
    have hcap := hinv.wf.cap_lt
    refine ⟨inv_no_occ hash_func_ _ (by show _ < 2 ^ 32; rw [h1]; exact hcap) (by show _ ∨ 8 ≤ _; rw [h1]; exact hinv.cap_min) rfl ?_, h1, rfl, h2⟩
    intro i hi
    exact h2 i (by rw [← h1]; exact hi)

/-! ### Writing through a reference -/

theorem write_value_spec {hash_func_ : K → Nat} {m : flat_hash_map K V}
    (hinv : Inv hash_func_ m) {i : Nat} {k : K} {v0 : V} (hs : slot_holds m i k v0) (v : V) :
    Inv hash_func_ (write_value m i v) ∧ slot_holds (write_value m i v) i k v ∧
      (∀ k1 v1, k1 ≠ k → (holds (write_value m i v) k1 v1 ↔ holds m k1 v1)) := by
  have hkv : ∀ j, (write_value m i v).kv_slots j =
      if j = i then some (k, v) else m.kv_slots j := by
    intro j
    simp only [write_value, Function.update_apply, hs.2.2, Option.map_some']
  have hsh : ∀ j k1 v1, slot_holds (write_value m i v) j k1 v1 ↔
      ((j = i ∧ k1 = k ∧ v1 = v) ∨ (j ≠ i ∧ slot_holds m j k1 v1)) := by
    intro j k1 v1
    unfold slot_holds
    rw [hkv]
    show j < m.capacity_ ∧ occ m j ∧ _ ↔ _
    by_cases hj : j = i
    · subst hj
      simp only [if_true, Option.some.injEq, Prod.mk.injEq, true_and, ne_eq, not_true_eq_false,
        false_and, or_false]
      constructor
      · rintro ⟨_, _, h1, h2⟩
        exact ⟨h1.symm, h2.symm⟩
      · rintro ⟨h1, h2⟩
        exact ⟨hs.1, hs.2.1, h1.symm, h2.symm⟩
    · simp [hj]
  refine ⟨⟨⟨hinv.wf.cap_lt, ?_, hinv.wf.order, ?_⟩, hinv.size_eq, hinv.cap_min, hinv.load⟩, ?_, ?_⟩
  · intro j hj ho
    rw [hkv]
    by_cases hji : j = i
    · subst hji
      obtain ⟨k1, v1, h1, h2, h3⟩ := hinv.wf.slot_ok j hj ho
      have := h1.symm.trans hs.2.2
      simp only [Option.some.injEq, Prod.mk.injEq] at this
      rw [if_pos rfl]
      exact ⟨k, v, rfl, by rw [← this.1]; exact h2, h3⟩
    · rw [if_neg hji]
      exact hinv.wf.slot_ok j hj ho
  · intro a b k1 w1 w2 ha hb
    rw [hsh] at ha hb
    rcases ha with ⟨ha1, ha2, _⟩ | ⟨ha1, ha2⟩
    · rcases hb with ⟨hb1, _, _⟩ | ⟨hb1, hb2⟩
      · rw [ha1, hb1]
      · rw [ha2] at hb2
        rw [ha1]
        exact hinv.wf.uniq i b k v0 w2 hs hb2
    · rcases hb with ⟨hb1, hb2, _⟩ | ⟨_, hb2⟩
      · rw [hb2] at ha2
        rw [hb1]
        exact hinv.wf.uniq a i k w1 v0 ha2 hs
      · exact hinv.wf.uniq a b k1 w1 w2 ha2 hb2
  · rw [hsh]
    exact Or.inl ⟨rfl, rfl, rfl⟩
  · intro k1 v1 hne
    unfold holds
    constructor
    · rintro ⟨j, hj⟩
      rw [hsh] at hj
      rcases hj with ⟨_, h2, _⟩ | ⟨_, h2⟩
      · exact absurd h2 hne
      · exact ⟨j, h2⟩
    · rintro ⟨j, hj⟩
      refine ⟨j, ?_⟩
      rw [hsh]
      refine Or.inr ⟨?_, hj⟩
      rintro rfl
      have := hj.2.2.symm.trans hs.2.2
      simp only [Option.some.injEq, Prod.mk.injEq] at this
      exact hne this.1

end flat_hash_map

end ineffa


namespace ineffa

namespace flat_hash_map

variable {K V : Type} [DecidableEq K] [kv_slot_layout K V]

theorem grown_capacity_of_lt {m : flat_hash_map K V}
    (h : ¬ (u32 (m.capacity_ * 7) / 8 ≤ m.size_)) : grown_capacity m = m.capacity_ := by
  unfold grown_capacity
  rw [if_neg h]

/-- What `map[key] = value` does with any amount of fuel that lets it return. -/
theorem subscript_assign_any [Inhabited V] {hash_func_ : K → Nat} {m : flat_hash_map K V}
    (hinv : Inv hash_func_ m) (hg : m.capacity_ * 7 < 2 ^ 32) {fuel : Nat} {k : K} {v : V}
    {m1 : flat_hash_map K V} (h : subscript_assign hash_func_ fuel m k v = some m1) :
    Inv hash_func_ m1 ∧ m1.capacity_ = grown_capacity m ∧ holds m1 k v ∧
      (∀ k1 v1, k1 ≠ k → (holds m1 k1 v1 ↔ holds m k1 v1)) ∧
      ((∃ v0, holds m k v0) → m1.size_ = m.size_) ∧ (fresh m k → m1.size_ = m.size_ + 1) := by
  unfold subscript_assign subscript at h
  cases ht : try_emplace hash_func_ fuel m k default with
  | none => rw [ht] at h; exact absurd h (by simp)
  | some r =>
    rw [ht] at h
    simp only [Option.map_some', Option.some.injEq] at h
    subst h
    obtain ⟨h1, h2, h3⟩ := try_emplace_any hinv hg ht
    rcases h3 with ⟨v0, h4, _, h6, h7, h8, _⟩ | ⟨h4, _, h6, h7, h8⟩
    · obtain ⟨w1, w2, w3⟩ := write_value_spec h1 h7 v
      refine ⟨w1, h2, ⟨_, w2⟩, ?_, fun _ => h6, ?_⟩
      · intro k1 v1 hne
        rw [w3 k1 v1 hne, h8]
      · intro hf
        obtain ⟨i, hi⟩ := h4
        exact absurd hi (hf i v0)
    · obtain ⟨w1, w2, w3⟩ := write_value_spec h1 h7 v
      refine ⟨w1, h2, ⟨_, w2⟩, ?_, ?_, fun _ => h6⟩
      · intro k1 v1 hne
        rw [w3 k1 v1 hne, h8]
        constructor
        · rintro (h | h)
          · exact h
          · simp only [Prod.mk.injEq] at h
            exact absurd h.1 hne
        · exact Or.inl
      · rintro ⟨v0, i, hi⟩
        exact absurd hi (h4 i v0)

/-! ### The initializer-list constructor -/

theorem required_capacity_loop_any :
    ∀ (fuel n rc r : Nat), 8 ≤ rc → (rc = 8 ∨ 7 * rc < 12 * n) → 12 * n ≤ 2 ^ 32 →
      required_capacity_loop fuel n rc = some r → 8 ≤ r ∧ 7 * r < 2 ^ 32 ∧ n ≤ 7 * r / 8 := by
  intro fuel
  induction fuel with
  | zero => intro n rc r _ _ _ h; exact absurd h (by simp [required_capacity_loop])
  | succ fuel ih =>
    intro n rc r h8 hrc hn h
    unfold required_capacity_loop at h
    have h7 : u32 (rc * 7) = rc * 7 := u32_of_lt (by omega)
    have h3 : u32 (rc * 3) = rc * 3 := u32_of_lt (by omega)
    rw [h7, h3] at h
    split_ifs at h with hc
    · exact ih n (rc * 3 / 2) r (by omega) (Or.inr (by omega)) hn h
    · have := Option.some.inj h
      subst this
      exact ⟨h8, by omega, by omega⟩

theorem rehash_empty (fuel c : Nat) (hfit : buffer_fits K V c = true) :
    rehash fuel (empty : flat_hash_map K V) c = some (fresh_buffer 0 c) := by
  rw [rehash_of_fits _ _ hfit]
  rfl

theorem inv_fresh_buffer (hash_func_ : K → Nat) (c : Nat) (h8 : 8 ≤ c) (hc : c < 2 ^ 32) :
    Inv hash_func_ (fresh_buffer 0 c : flat_hash_map K V) :=
  inv_no_occ hash_func_ _ hc (Or.inr h8) rfl (fun i _ => fresh_table_not_occ 0 c i)

theorem insert_all_any {hash_func_ : K → Nat} (fuel : Nat) :
    ∀ (l : List (K × V)) (m m1 : flat_hash_map K V), Inv hash_func_ m →
      m.capacity_ * 7 < 2 ^ 32 → m.size_ + l.length ≤ m.capacity_ * 7 / 8 →
      insert_all hash_func_ fuel m l = some m1 →
      Inv hash_func_ m1 ∧ m1.capacity_ = m.capacity_ := by
  intro l
  induction l with
  | nil =>
    intro m m1 hinv _ _ h
    have := Option.some.inj h
    subst this
    exact ⟨hinv, rfl⟩
  | cons kv l ih =>
    intro m m1 hinv hg hlen h
    unfold insert_all at h
    rw [List.foldlM_cons] at h
    cases hi : insert hash_func_ fuel m kv with
    | none => rw [hi] at h; exact absurd h (by simp)
    | some r =>
      rw [hi] at h
      simp only [Option.map_some', Option.some_bind, Option.bind_eq_bind] at h
      unfold insert at hi
      obtain ⟨h1, h2, h3⟩ := try_emplace_any hinv hg hi
      have h7 : u32 (m.capacity_ * 7) = m.capacity_ * 7 := u32_of_lt hg
      simp only [List.length_cons] at hlen
      have hno : ¬ (u32 (m.capacity_ * 7) / 8 ≤ m.size_) := by
        rw [h7]
        omega
      rw [grown_capacity_of_lt hno] at h2
      have hsz : r.1.size_ ≤ m.size_ + 1 := by
        rcases h3 with ⟨_, _, _, h6, _⟩ | ⟨_, _, h6, _⟩
        · omega
        · omega
      obtain ⟨i1, i2⟩ := ih r.1 m1 h1 (by rw [h2]; exact hg) (by rw [h2]; omega) h
      exact ⟨i1, by rw [i2, h2]⟩

theorem init_list_any {hash_func_ : K → Nat} {fuel : Nat} {l : List (K × V)}
    {m : flat_hash_map K V} (hl : 12 * l.length ≤ 2 ^ 32)
    (h : init_list hash_func_ fuel l = some m) : Inv hash_func_ m := by
  unfold init_list at h
  cases hrc : required_capacity_loop fuel l.length 8 with
  | none => rw [hrc] at h; exact absurd h (by simp)
  | some rc =>
    rw [hrc] at h
    simp only [Option.some_bind] at h
    have hfit : buffer_fits K V rc = true := by
      cases hrh : rehash fuel (empty : flat_hash_map K V) rc with
      | none => rw [hrh] at h; exact absurd h (by simp)
      | some m0 => exact fits_of_rehash hrh
    rw [rehash_empty fuel rc hfit] at h
    simp only [Option.some_bind] at h
    obtain ⟨h8, h7, hn⟩ := required_capacity_loop_any fuel l.length 8 rc (Nat.le_refl _)
      (Or.inl rfl) hl hrc
    exact (insert_all_any fuel l (fresh_buffer 0 rc) m (inv_fresh_buffer hash_func_ rc h8 (by omega))
      (by show rc * 7 < _; omega) (by show 0 + _ ≤ rc * 7 / 8; omega) h).1

/-! ### Every reachable state satisfies the invariant -/

theorem inv_of_reachable [Inhabited V] {hash_func_ : K → Nat} {m : flat_hash_map K V}
    (h : Reachable hash_func_ m) : Inv hash_func_ m := by
  induction h with
  | empty => exact inv_empty hash_func_
  | init_list fuel l m hl h => exact init_list_any hl h
  | try_emplace fuel m key value r _ hg h ih => exact (try_emplace_any ih hg h).1
  | insert fuel m kv r _ hg h ih => exact (try_emplace_any ih hg h).1
  | subscript_assign fuel m key value m1 _ hg h ih => exact (subscript_assign_any ih hg h).1
  | erase fuel m key r _ h ih => exact (erase_any ih h).1
  | clear m _ ih => exact (clear_spec ih).1
  | move_construct_new m _ ih => exact ih
  | move_construct_old m _ _ => exact inv_of_capacity_zero hash_func_ _ rfl rfl
  | move_assign_new same_object m other _ _ ihm iho =>
    cases same_object with
    | false => exact iho
    | true => exact ihm
  | move_assign_old same_object m other _ _ _ iho =>
    cases same_object with
    | false => exact inv_of_capacity_zero hash_func_ _ rfl rfl
    | true => exact iho

end flat_hash_map

end ineffa

/-! ## Lookup through the public interface -/

namespace ineffa

namespace flat_hash_map

variable {K V : Type} [DecidableEq K] [kv_slot_layout K V]

theorem capacity_le_grown {m : flat_hash_map K V} (hg : m.capacity_ * 7 < 2 ^ 32) :
    m.capacity_ ≤ grown_capacity m ∧ grown_capacity m ≤ 8 + 2 * m.capacity_ := by
  unfold grown_capacity
  have h3 : u32 (m.capacity_ * 3) = m.capacity_ * 3 := u32_of_lt (by omega)
  rw [h3]
  split_ifs <;> omega

theorem inv_hem {hash_func_ : K → Nat} {m : flat_hash_map K V} (hinv : Inv hash_func_ m) :
    m.capacity_ = 0 ∨ ∃ e, e < m.capacity_ ∧ ¬ occ m e := by
  by_cases h0 : m.capacity_ = 0
  · exact Or.inl h0
  · exact Or.inr (inv_has_empty hinv h0)

theorem find_of_holds {hash_func_ : K → Nat} {m : flat_hash_map K V}
    (hinv : Inv hash_func_ m) {fuel : Nat} (hfuel : m.capacity_ ≤ fuel) {p : Nat} {k : K} {v : V}
    (h : slot_holds m p k v) : find hash_func_ fuel m k = some p := by
  have h0 : m.capacity_ ≠ 0 := by
    have := h.1
    omega
  obtain ⟨e, he, hempty⟩ := inv_has_empty hinv h0
  exact find_present hinv.wf he hempty h hfuel

theorem find_of_fresh {hash_func_ : K → Nat} {m : flat_hash_map K V}
    (hinv : Inv hash_func_ m) {fuel : Nat} (hfuel : m.capacity_ ≤ fuel) {k : K}
    (h : fresh m k) : find hash_func_ fuel m k = some (end_ m) := by
  rw [end_eq]
  exact find_absent hinv.wf (inv_hem hinv) h hfuel

theorem contains_of_holds {hash_func_ : K → Nat} {m : flat_hash_map K V}
    (hinv : Inv hash_func_ m) {fuel : Nat} (hfuel : m.capacity_ ≤ fuel) {k : K} {v : V}
    (h : holds m k v) : contains hash_func_ fuel m k = some true := by
  obtain ⟨p, hp⟩ := h
  unfold contains
  rw [find_of_holds hinv hfuel hp, end_eq]
  have := hp.1
  simp only [Option.map_some', Option.some.injEq, decide_eq_true_eq]
  omega

theorem contains_of_fresh {hash_func_ : K → Nat} {m : flat_hash_map K V}
    (hinv : Inv hash_func_ m) {fuel : Nat} (hfuel : m.capacity_ ≤ fuel) {k : K}
    (h : fresh m k) : contains hash_func_ fuel m k = some false := by
  unfold contains
  rw [find_of_fresh hinv hfuel h]
  simp

theorem holds_of_contains {hash_func_ : K → Nat} {m : flat_hash_map K V}
    (hinv : Inv hash_func_ m) {fuel : Nat} (hfuel : m.capacity_ ≤ fuel) {k : K}
    (h : contains hash_func_ fuel m k = some true) : ∃ v, holds m k v := by
  rcases fresh_or_holds m k with hf | hv
  · rw [contains_of_fresh hinv hfuel hf] at h
    exact absurd h (by simp)
  · exact hv

theorem fresh_of_contains {hash_func_ : K → Nat} {m : flat_hash_map K V}
    (hinv : Inv hash_func_ m) {fuel : Nat} (hfuel : m.capacity_ ≤ fuel) {k : K}
    (h : contains hash_func_ fuel m k = some false) : fresh m k := by
  rcases fresh_or_holds m k with hf | ⟨v, hv⟩
  · exact hf
  · rw [contains_of_holds hinv hfuel hv] at h
    exact absurd h (by simp)

theorem contains_total {hash_func_ : K → Nat} {m : flat_hash_map K V}
    (hinv : Inv hash_func_ m) {fuel : Nat} (hfuel : m.capacity_ ≤ fuel) (k : K) :
    contains hash_func_ fuel m k = some true ∨ contains hash_func_ fuel m k = some false := by
  rcases fresh_or_holds m k with hf | ⟨v, hv⟩
  · exact Or.inr (contains_of_fresh hinv hfuel hf)
  · exact Or.inl (contains_of_holds hinv hfuel hv)

theorem find_value_of_holds {hash_func_ : K → Nat} {m : flat_hash_map K V}
    (hinv : Inv hash_func_ m) {fuel : Nat} (hfuel : m.capacity_ ≤ fuel) {k : K} {v : V}
    (h : holds m k v) : find_value hash_func_ fuel m k = some (some v) := by
  obtain ⟨p, hp⟩ := h
  unfold find_value
  rw [find_of_holds hinv hfuel hp, end_eq]
  have := hp.1
  simp only [Option.map_some', deref, hp.2.2]
  rw [if_neg (by omega)]

theorem find_value_of_fresh {hash_func_ : K → Nat} {m : flat_hash_map K V}
    (hinv : Inv hash_func_ m) {fuel : Nat} (hfuel : m.capacity_ ≤ fuel) {k : K}
    (h : fresh m k) : find_value hash_func_ fuel m k = some none := by
  unfold find_value
  rw [find_of_fresh hinv hfuel h]
  simp

theorem holds_of_find_value {hash_func_ : K → Nat} {m : flat_hash_map K V}
    (hinv : Inv hash_func_ m) {fuel : Nat} (hfuel : m.capacity_ ≤ fuel) {k : K} {v : V}
    (h : find_value hash_func_ fuel m k = some (some v)) : holds m k v := by
  rcases fresh_or_holds m k with hf | ⟨w, hw⟩
  · rw [find_value_of_fresh hinv hfuel hf] at h
    exact absurd h (by simp)
  · rw [find_value_of_holds hinv hfuel hw] at h
    simp only [Option.some.injEq] at h
    rw [← h]
    exact hw

theorem find_value_congr {hash_func_ : K → Nat} {m m1 : flat_hash_map K V}
    (hinv : Inv hash_func_ m) (hinv1 : Inv hash_func_ m1) {fuel : Nat}
    (hfuel : m.capacity_ ≤ fuel) (hfuel1 : m1.capacity_ ≤ fuel) {k : K}
    (h : ∀ v, holds m1 k v ↔ holds m k v) :
    find_value hash_func_ fuel m1 k = find_value hash_func_ fuel m k := by
  rcases fresh_or_holds m k with hf | ⟨w, hw⟩
  · rw [find_value_of_fresh hinv hfuel hf]
    apply find_value_of_fresh hinv1 hfuel1
    intro i v hi
    obtain ⟨j, hj⟩ := (h v).1 ⟨i, hi⟩
    exact hf j v hj
  · rw [find_value_of_holds hinv hfuel hw, find_value_of_holds hinv1 hfuel1 ((h w).2 hw)]

/-! ## The keys of a table -/

theorem length_filterMap_eq_countP {α β : Type} (f : α → Option β) (l : List α) :
    (l.filterMap f).length = l.countP fun a => (f a).isSome := by
  induction l with
  | nil => rfl
  | cons a l ih =>
    rw [List.filterMap_cons, List.countP_cons]
    cases h : f a with
    | none => simp [ih]
    | some b => simp [ih]

theorem nodup_filterMap_range {β : Type} (f : Nat → Option β) :
    ∀ n, (∀ i j b, i < n → j < n → f i = some b → f j = some b → i = j) →
      ((List.range n).filterMap f).Nodup := by
  intro n
  induction n with
  | zero => intro _; simp
  | succ n ih =>
    intro h
    rw [List.range_succ, List.filterMap_append, List.nodup_append]
    refine ⟨ih (fun i j b hi hj => h i j b (by omega) (by omega)), ?_, ?_⟩
    · cases hf : f n with
      | none => simp [hf]
      | some b => simp [hf]
    · intro b hb1 hb2
      rw [List.mem_filterMap] at hb1 hb2
      obtain ⟨i, hi, hib⟩ := hb1
      obtain ⟨j, hj, hjb⟩ := hb2
      have hjn : j = n := by simpa using hj
      subst hjn
      have := h i j b (by have := List.mem_range.1 hi; omega) (by omega) hib hjb
      have := List.mem_range.1 hi
      omega

theorem key_slot_iff (m : flat_hash_map K V) (i : Nat) (k : K) :
    (if (m.ctrl_slots i).is_empty = true then none else (m.kv_slots i).map Prod.fst) = some k ↔
      (occ m i ∧ ∃ v, m.kv_slots i = some (k, v)) := by
  by_cases ho : occ m i
  · rw [if_neg (by rw [is_empty_iff]; exact not_not.2 ho)]
    constructor
    · intro h
      refine ⟨ho, ?_⟩
      cases hkv : m.kv_slots i with
      | none => rw [hkv] at h; exact absurd h (by simp)
      | some kv =>
        rw [hkv] at h
        simp only [Option.map_some', Option.some.injEq] at h
        exact ⟨kv.2, by rw [← h]⟩
    · rintro ⟨_, v, hv⟩
      rw [hv]
      rfl
  · rw [if_pos ((is_empty_iff m i).2 ho)]
    constructor
    · intro h
      exact absurd h (by simp)
    · rintro ⟨h1, _⟩
      exact absurd h1 ho

theorem mem_keys_iff (m : flat_hash_map K V) (k : K) : k ∈ keys m ↔ ∃ v, holds m k v := by
  unfold keys
  rw [List.mem_filterMap]
  constructor
  · rintro ⟨i, hi, hk⟩
    obtain ⟨ho, v, hv⟩ := (key_slot_iff m i k).1 hk
    exact ⟨v, i, List.mem_range.1 hi, ho, hv⟩
  · rintro ⟨v, i, hi, ho, hv⟩
    exact ⟨i, List.mem_range.2 hi, (key_slot_iff m i k).2 ⟨ho, v, hv⟩⟩

theorem keys_nodup {hash_func_ : K → Nat} {m : flat_hash_map K V} (hinv : Inv hash_func_ m) :
    (keys m).Nodup := by
  unfold keys
  apply nodup_filterMap_range
  intro i j b hi hj hib hjb
  obtain ⟨hoi, v, hv⟩ := (key_slot_iff m i b).1 hib
  obtain ⟨hoj, w, hw⟩ := (key_slot_iff m j b).1 hjb
  exact hinv.wf.uniq i j b v w ⟨hi, hoi, hv⟩ ⟨hj, hoj, hw⟩

theorem keys_length {hash_func_ : K → Nat} {m : flat_hash_map K V} (hinv : Inv hash_func_ m) :
    (keys m).length = occupied_count m := by
  unfold keys occupied_count
  rw [length_filterMap_eq_countP]
  apply countP_range_congr
  intro i hi
  by_cases ho : occ m i
  · obtain ⟨k, v, hkv, _⟩ := hinv.wf.slot_ok i hi ho
    have hie : (m.ctrl_slots i).is_empty = false := by
      have := (is_empty_iff m i).not.2 (not_not.2 ho)
      simpa using this
    simp [hie, hkv]
  · have hie : (m.ctrl_slots i).is_empty = true := (is_empty_iff m i).2 ho
    simp [hie]

end flat_hash_map

end ineffa

/-! ## Runs of insertions -/

namespace ineffa

namespace flat_hash_map

variable {K V : Type} [DecidableEq K] [kv_slot_layout K V]

theorem insert_all_cons (hash_func_ : K → Nat) (fuel : Nat) (m : flat_hash_map K V)
    (kv : K × V) (l : List (K × V)) :
    insert_all hash_func_ fuel m (kv :: l) =
      (insert hash_func_ fuel m kv).bind fun r => insert_all hash_func_ fuel r.1 l := by
  unfold insert_all
  rw [List.foldlM_cons]
  cases insert hash_func_ fuel m kv with
  | none => rfl
  | some r => rfl

theorem insert_all_append (hash_func_ : K → Nat) (fuel : Nat) (m : flat_hash_map K V)
    (l1 l2 : List (K × V)) :
    insert_all hash_func_ fuel m (l1 ++ l2) =
      (insert_all hash_func_ fuel m l1).bind fun m1 => insert_all hash_func_ fuel m1 l2 := by
  unfold insert_all
  rw [List.foldlM_append]
  rfl

theorem insert_all_mono (hash_func_ : K → Nat) (fuel fuel1 : Nat) (hle : fuel ≤ fuel1)
    (l : List (K × V)) (m m1 : flat_hash_map K V)
    (h : insert_all hash_func_ fuel m l = some m1) :
    insert_all hash_func_ fuel1 m l = some m1 := by
  unfold insert_all at h ⊢
  refine foldlM_option_mono _ _ ?_ l m m1 h
  intro b a r hr
  cases hi : insert hash_func_ fuel b a with
  | none => rw [hi] at hr; exact absurd hr (by simp)
  | some x =>
    rw [hi] at hr
    unfold insert at hi ⊢
    rw [try_emplace_mono hash_func_ fuel fuel1 b a.1 a.2 x hle hi]
    exact hr

/-- Inserting pairs with pairwise distinct keys, none of them stored yet: what a run that
returns has done. -/
theorem insert_all_distinct_any {hash_func_ : K → Nat} (fuel : Nat) :
    ∀ (l : List (K × V)) (m m1 : flat_hash_map K V), Inv hash_func_ m →
      (m.capacity_ ≤ 8 ∨ 7 * m.capacity_ ≤ 12 * m.size_) →
      12 * (m.size_ + l.length) ≤ 2 ^ 32 →
      (l.map Prod.fst).Nodup → (∀ kv, kv ∈ l → fresh m kv.1) →
      insert_all hash_func_ fuel m l = some m1 →
      Inv hash_func_ m1 ∧ m1.size_ = m.size_ + l.length := by
  intro l
  induction l with
  | nil =>
    intro m m1 hinv _ _ _ _ h
    have := Option.some.inj h
    subst this
    exact ⟨hinv, rfl⟩
  | cons kv l ih =>
    intro m m1 hinv hj hlen hnd hfr h
    simp only [List.length_cons] at hlen
    simp only [List.map_cons, List.nodup_cons] at hnd
    have hg : m.capacity_ * 7 < 2 ^ 32 := by omega
    have hcm := hinv.cap_min
    rw [insert_all_cons] at h
    cases hi : insert hash_func_ fuel m kv with
    | none => rw [hi] at h; exact absurd h (by simp)
    | some r =>
      rw [hi] at h
      simp only [Option.some_bind] at h
      unfold insert at hi
      obtain ⟨h2, h3, h4⟩ := try_emplace_any hinv hg hi
      rcases h4 with ⟨v0, ⟨i, hv0⟩, _⟩ | ⟨_, _, h6, _, h8⟩
      · exact absurd hv0 (hfr kv (List.mem_cons_self _ _) i v0)
      · have hj1 : r.1.capacity_ ≤ 8 ∨ 7 * r.1.capacity_ ≤ 12 * r.1.size_ := by
          rw [h3, h6]
          have h7 : u32 (m.capacity_ * 7) = m.capacity_ * 7 := u32_of_lt hg
          have h3' : u32 (m.capacity_ * 3) = m.capacity_ * 3 := u32_of_lt (by omega)
          unfold grown_capacity
          rw [h7, h3']
          split_ifs <;> omega
        have hfr1 : ∀ kv1, kv1 ∈ l → fresh r.1 kv1.1 := by
          intro kv1 hkv1 j w hjw
          rcases (h8 kv1.1 w).1 ⟨j, hjw⟩ with ⟨a, ha⟩ | hb
          · exact hfr kv1 (List.mem_cons_of_mem _ hkv1) a w ha
          · simp only [Prod.mk.injEq] at hb
            apply hnd.1
            rw [← hb.1]
            exact List.mem_map_of_mem _ hkv1
        obtain ⟨i1, i2⟩ := ih r.1 m1 h2 hj1 (by rw [h6]; omega) hnd.2 hfr1 h
        exact ⟨i1, by rw [i2, h6]; simp only [List.length_cons]; omega⟩

theorem fresh_empty (k : K) : fresh (empty : flat_hash_map K V) k := by
  intro i v h
  have := h.1
  exact absurd this (Nat.not_lt_zero i)

/-- A run of insertions that passes the no-wrap check leads from a reachable state to a
reachable state. -/
theorem reachable_insert_all [Inhabited V] (hash_func_ : K → Nat) (fuel : Nat) :
    ∀ (l : List (K × V)) (m m1 : flat_hash_map K V), Reachable hash_func_ m →
      insert_all_no_wrap hash_func_ fuel m l = true →
      insert_all hash_func_ fuel m l = some m1 → Reachable hash_func_ m1 := by
  intro l
  induction l with
  | nil =>
    intro m m1 hr _ h
    have := Option.some.inj h
    subst this
    exact hr
  | cons kv l ih =>
    intro m m1 hr hnw h
    rw [insert_all_cons] at h
    unfold insert_all_no_wrap at hnw
    cases hi : insert hash_func_ fuel m kv with
    | none => rw [hi] at h; exact absurd h (by simp)
    | some r =>
      rw [hi] at h hnw
      simp only [Bool.and_eq_true, decide_eq_true_eq] at hnw
      exact ih r.1 m1 (Reachable.insert fuel m kv r hr hnw.1 hi) hnw.2 h

end flat_hash_map

end ineffa

/-! ## The concrete maps are reachable -/

namespace ineffa

namespace flat_hash_map

variable {K V : Type} [DecidableEq K] [kv_slot_layout K V]

theorem example_map_eq : insert_all example_hash 16 empty example_pairs = some example_map :=
  rfl

theorem example_map_reachable : Reachable example_hash example_map :=
  reachable_insert_all example_hash 16 example_pairs empty example_map Reachable.empty
    (by decide) example_map_eq

theorem example_full_map_eq :
    insert_all example_hash 16 empty example_full_pairs = some example_full_map :=
  rfl

theorem example_full_map_reachable : Reachable example_hash example_full_map :=
  reachable_insert_all example_hash 16 example_full_pairs empty example_full_map Reachable.empty
    (by decide) example_full_map_eq

/-! ## The claims -/

/-- C2: in a reachable map, with fuel for the probe loops, `contains(k)` returns; when it
returns true `erase(k)` returns 1, `size()` decreases by exactly one and `contains(k)` is
false afterwards; when it returns false (as it does when the capacity is 0) `erase(k)`
returns 0 and `size()` is unchanged. -/
theorem C2_erase_result [Inhabited V] (hash_func_ : K → Nat) (m : flat_hash_map K V) (k : K)
    (fuel : Nat) (hm : Reachable hash_func_ m) (hfuel : capacity m ≤ fuel) :
    (contains hash_func_ fuel m k = some true ∨ contains hash_func_ fuel m k = some false) ∧
      (contains hash_func_ fuel m k = some true →
        ∃ m1, erase hash_func_ fuel m k = some (m1, 1) ∧ size m1 + 1 = size m ∧
          contains hash_func_ fuel m1 k = some false) ∧
      (contains hash_func_ fuel m k = some false →
        ∃ m1, erase hash_func_ fuel m k = some (m1, 0) ∧ size m1 = size m) ∧
      (capacity m = 0 → erase hash_func_ fuel m k = some (m, 0)) := by
  have hinv := inv_of_reachable hm
  refine ⟨contains_total hinv hfuel k, ?_, ?_, ?_⟩
  · intro hc
    obtain ⟨v, p, hp⟩ := holds_of_contains hinv hfuel hc
    obtain ⟨m1, h1, h2, h3, h4, h5⟩ := erase_present hinv hp hfuel
    refine ⟨m1, h1, h4, ?_⟩
    apply contains_of_fresh h2 (by rw [h3]; exact hfuel)
    intro i w hi
    exact ((h5 k w).1 ⟨i, hi⟩).2 rfl
  · intro hc
    exact ⟨m, erase_absent hinv (fresh_of_contains hinv hfuel hc) hfuel, rfl⟩
  · intro h0
    have h1 : m.capacity_ = 0 := h0
    unfold erase
    rw [if_pos h1]

/-- C2 at a concrete input: erasing the present key 9 of `example_map`. -/
theorem C2_witness :
    Reachable example_hash example_map ∧ capacity example_map ≤ 16 ∧
      contains example_hash 16 example_map 9 = some true ∧
      ∃ m1, erase example_hash 16 example_map 9 = some (m1, 1) ∧
        size m1 + 1 = size example_map ∧ contains example_hash 16 m1 9 = some false :=
  ⟨example_map_reachable, by decide, by decide,
    (C2_erase_result example_hash example_map 9 16 example_map_reachable (by decide)).2.1
      (by decide)⟩

/-- C3: in a reachable map, with fuel for the probe loops, `erase(k)` returns, every key
other than `k` that `find` found before is found afterwards with the same value, and every
key that was absent before is absent afterwards. -/
theorem C3_erase_frame [Inhabited V] (hash_func_ : K → Nat) (m : flat_hash_map K V) (k : K)
    (fuel : Nat) (hm : Reachable hash_func_ m) (hfuel : capacity m ≤ fuel) :
    ∃ m1 r, erase hash_func_ fuel m k = some (m1, r) ∧
      (∀ k1 v1, k1 ≠ k → find_value hash_func_ fuel m k1 = some (some v1) →
        find_value hash_func_ fuel m1 k1 = some (some v1)) ∧
      (∀ k1, find_value hash_func_ fuel m k1 = some none →
        find_value hash_func_ fuel m1 k1 = some none) := by
  have hinv := inv_of_reachable hm
  rcases fresh_or_holds m k with hf | ⟨v, p, hp⟩
  · exact ⟨m, 0, erase_absent hinv hf hfuel, fun _ _ _ h => h, fun _ h => h⟩
  · obtain ⟨m1, h1, h2, h3, h4, h5⟩ := erase_present hinv hp hfuel
    have hfuel1 : m1.capacity_ ≤ fuel := by rw [h3]; exact hfuel
    refine ⟨m1, 1, h1, ?_, ?_⟩
    · intro k1 v1 hne hfv
      have := holds_of_find_value hinv hfuel hfv
      exact find_value_of_holds h2 hfuel1 ((h5 k1 v1).2 ⟨this, hne⟩)
    · intro k1 hfv
      apply find_value_of_fresh h2 hfuel1
      intro i w hi
      have hh := ((h5 k1 w).1 ⟨i, hi⟩).1
      rw [find_value_of_holds hinv hfuel hh] at hfv
      exact absurd hfv (by simp)

/-- C3 at a concrete input: erasing key 9 of `example_map` shifts the entries of keys 17
and 2 back by one slot. -/
theorem C3_witness :
    Reachable example_hash example_map ∧ capacity example_map ≤ 16 ∧
      ∃ m1 r, erase example_hash 16 example_map 9 = some (m1, r) ∧
        (∀ k1 v1, k1 ≠ 9 → find_value example_hash 16 example_map k1 = some (some v1) →
          find_value example_hash 16 m1 k1 = some (some v1)) ∧
        (∀ k1, find_value example_hash 16 example_map k1 = some none →
          find_value example_hash 16 m1 k1 = some none) :=
  ⟨example_map_reachable, by decide,
    C3_erase_frame example_hash example_map 9 16 example_map_reachable (by decide)⟩

end flat_hash_map

end ineffa


namespace ineffa

namespace flat_hash_map

variable {K V : Type} [DecidableEq K] [kv_slot_layout K V]

/-- C6: every reachable state (runs in which the 32-bit products `capacity_ * 7` and
`capacity_ * 3` do not wrap) satisfies `size ≤ capacity * 7 / 8` as an exact comparison;
and the map that results from inserting `N` pairs with pairwise distinct keys into the
empty map has capacity at least `N`. -/
theorem C6_load_factor [Inhabited V] (hash_func_ : K → Nat) (m : flat_hash_map K V)
    (hm : Reachable hash_func_ m) (kvs : List (K × V)) (fuel : Nat) (m2 : flat_hash_map K V)
    (hnodup : (kvs.map Prod.fst).Nodup) (hlen : 12 * kvs.length ≤ 2 ^ 32)
    (hins : insert_all hash_func_ fuel empty kvs = some m2) :
    8 * size m ≤ 7 * capacity m ∧ (size m : ℚ) ≤ (capacity m : ℚ) * 7 / 8 ∧
      size m2 = kvs.length ∧ 8 * size m2 ≤ 7 * capacity m2 ∧ kvs.length ≤ capacity m2 := by
  have hinv := inv_of_reachable hm
  have hld : 8 * m.size_ ≤ 7 * m.capacity_ := hinv.load
  have hj0 : (empty : flat_hash_map K V).capacity_ ≤ 8 ∨
      7 * (empty : flat_hash_map K V).capacity_ ≤ 12 * (empty : flat_hash_map K V).size_ :=
    Or.inl (Nat.zero_le _)
  obtain ⟨h2, h3⟩ :=
    insert_all_distinct_any fuel kvs empty m2 (inv_empty hash_func_) hj0
      (by show 12 * (0 + _) ≤ _; omega) hnodup (fun kv _ => fresh_empty kv.1) hins
  have h3' : m2.size_ = 0 + kvs.length := h3
  have hld3 : 8 * m2.size_ ≤ 7 * m2.capacity_ := h2.load
  refine ⟨hld, ?_, ?_, hld3, ?_⟩
  · show (m.size_ : ℚ) ≤ (m.capacity_ : ℚ) * 7 / 8
    rw [le_div_iff₀ (by norm_num : (0 : ℚ) < 8)]
    have : ((8 * m.size_ : ℕ) : ℚ) ≤ ((7 * m.capacity_ : ℕ) : ℚ) := by exact_mod_cast hld
    push_cast at this
    linarith
  · show m2.size_ = _
    omega
  · show _ ≤ m2.capacity_
    omega

/-- C6 at a concrete input: the map filled up to its growth threshold (size 7, capacity 8). -/
theorem C6_witness :
    Reachable example_hash example_full_map ∧ (example_pairs.map Prod.fst).Nodup ∧
      12 * example_pairs.length ≤ 2 ^ 32 ∧
      insert_all example_hash 16 empty example_pairs = some example_map ∧
      8 * size example_full_map ≤ 7 * capacity example_full_map ∧
      (size example_full_map : ℚ) ≤ (capacity example_full_map : ℚ) * 7 / 8 ∧
      size example_map = example_pairs.length ∧
      8 * size example_map ≤ 7 * capacity example_map ∧
      example_pairs.length ≤ capacity example_map :=
  ⟨example_full_map_reachable, by decide, by decide, example_map_eq,
    C6_load_factor example_hash example_full_map example_full_map_reachable example_pairs 16
      example_map (by decide) (by decide) example_map_eq⟩

end flat_hash_map

end ineffa


namespace ineffa

namespace flat_hash_map

variable {K V : Type} [DecidableEq K] [kv_slot_layout K V]

/-- C7: in every reachable state `size()` equals the number of control slots whose
displacement is not the empty sentinel, and this number equals the number of distinct keys
`k` for which `contains(k)` is true. -/
theorem C7_size_counts [Inhabited V] (hash_func_ : K → Nat) (m : flat_hash_map K V)
    (fuel : Nat) (hm : Reachable hash_func_ m) (hfuel : capacity m ≤ fuel) :
    size m = occupied_count m ∧
      occupied_count m = Set.ncard {k | contains hash_func_ fuel m k = some true} := by
  have hinv := inv_of_reachable hm
  have hfuel1 : m.capacity_ ≤ fuel := hfuel
  refine ⟨hinv.size_eq, ?_⟩
  have hset : {k | contains hash_func_ fuel m k = some true} = ↑(keys m).toFinset := by
    ext k
    simp only [Set.mem_setOf_eq, Finset.mem_coe, List.mem_toFinset, mem_keys_iff]
    constructor
    · exact holds_of_contains hinv hfuel1
    · rintro ⟨v, hv⟩
      exact contains_of_holds hinv hfuel1 hv
  rw [hset, Set.ncard_coe_Finset, List.toFinset_card_of_nodup (keys_nodup hinv),
    keys_length hinv]

/-- C7 at a concrete input. -/
theorem C7_witness :
    Reachable example_hash example_map ∧ capacity example_map ≤ 16 ∧
      size example_map = occupied_count example_map ∧
      occupied_count example_map =
        Set.ncard {k | contains example_hash 16 example_map k = some true} :=
  ⟨example_map_reachable, by decide,
    C7_size_counts example_hash example_map 16 example_map_reachable (by decide)⟩

/-- C8: in every reachable state no two occupied slots hold equal keys, so the keys of the
occupied slots form a list without repetition; the state that `try_emplace` returns for a
key that is already present has the same property and the same number of occupied
slots. -/
theorem C8_keys_unique [Inhabited V] (hash_func_ : K → Nat) (m : flat_hash_map K V)
    (hm : Reachable hash_func_ m) :
    (∀ i j k v w, i < capacity m → j < capacity m →
        (m.ctrl_slots i).is_empty = false → (m.ctrl_slots j).is_empty = false →
        m.kv_slots i = some (k, v) → m.kv_slots j = some (k, w) → i = j) ∧
      (keys m).Nodup ∧
      (∀ fuel key value r, capacity m * 7 < 2 ^ 32 → key ∈ keys m →
        try_emplace hash_func_ fuel m key value = some r →
        r.2.2 = false ∧ (keys r.1).Nodup ∧ occupied_count r.1 = occupied_count m ∧
          ∀ i j k v w, i < capacity r.1 → j < capacity r.1 →
            (r.1.ctrl_slots i).is_empty = false → (r.1.ctrl_slots j).is_empty = false →
            r.1.kv_slots i = some (k, v) → r.1.kv_slots j = some (k, w) → i = j) := by
  have hinv := inv_of_reachable hm
  have huniq : ∀ (m0 : flat_hash_map K V), Inv hash_func_ m0 →
      ∀ i j k v w, i < capacity m0 → j < capacity m0 →
        (m0.ctrl_slots i).is_empty = false → (m0.ctrl_slots j).is_empty = false →
        m0.kv_slots i = some (k, v) → m0.kv_slots j = some (k, w) → i = j := by
    intro m0 h0 i j k v w hi hj hie hje hki hkj
    have hoi : occ m0 i := by
      by_contra hno
      rw [(is_empty_iff m0 i).2 hno] at hie
      exact absurd hie (by simp)
    have hoj : occ m0 j := by
      by_contra hno
      rw [(is_empty_iff m0 j).2 hno] at hje
      exact absurd hje (by simp)
    exact h0.wf.uniq i j k v w ⟨hi, hoi, hki⟩ ⟨hj, hoj, hkj⟩
  refine ⟨huniq m hinv, keys_nodup hinv, ?_⟩
  intro fuel key value r hg hkey hte
  obtain ⟨h1, _, h3⟩ := try_emplace_any hinv hg hte
  obtain ⟨v0, hv0⟩ := (mem_keys_iff m key).1 hkey
  rcases h3 with ⟨_, _, h5, h6, _⟩ | ⟨hf, _⟩
  · refine ⟨h5, keys_nodup h1, ?_, huniq r.1 h1⟩
    rw [← h1.size_eq, ← hinv.size_eq]
    exact h6
  · obtain ⟨i, hi⟩ := hv0
    exact absurd hi (hf i v0)

/-- C8 at a concrete input: the keys 1, 9 and 17 of `example_map` share an ideal bucket, and
key 9 is inserted a second time. -/
theorem C8_witness :
    Reachable example_hash example_map ∧ capacity example_map * 7 < 2 ^ 32 ∧
      9 ∈ keys example_map ∧
      try_emplace example_hash 16 example_map 9 0 = some (example_map, 2, false) ∧
      (keys example_map).Nodup ∧ occupied_count example_map = occupied_count example_map ∧
      ∀ i j k v w, i < capacity example_map → j < capacity example_map →
        (example_map.ctrl_slots i).is_empty = false →
        (example_map.ctrl_slots j).is_empty = false →
        example_map.kv_slots i = some (k, v) → example_map.kv_slots j = some (k, w) → i = j :=
  ⟨example_map_reachable, by decide, by decide, rfl,
    ((C8_keys_unique example_hash example_map example_map_reachable).2.2 16 9 0
      (example_map, 2, false) (by decide) (by decide) rfl).2⟩

/-- C9, as stated, fails: `example_full_map` is reachable, has size 7 and capacity 8, so
its size has reached the growth threshold `8 * 7 / 8 = 7`; it holds key 9; and
`try_emplace(9, 0)` reports `inserted = false` but returns a map of capacity 12. -/
theorem C9_counterexample :
    Reachable example_hash example_full_map ∧ size example_full_map = 7 ∧
      capacity example_full_map = 8 ∧
      contains example_hash 16 example_full_map 9 = some true ∧
      (try_emplace example_hash 16 example_full_map 9 0).map
        (fun r => (capacity r.1, size r.1, r.2.2)) = some (12, 7, false) :=
  ⟨example_full_map_reachable, by decide, by decide, by decide, by decide⟩

/-- C9, amended: in a reachable map with `capacity * 7 < 2 ^ 32` (the growth check does not
wrap), and in which the growth step is not due or the 32-bit byte size of the grown buffer
holds its slots, a `try_emplace`/`insert` call whose key is already present (fuel for the
loops) returns `inserted = false` and leaves `size()` and the result of every lookup
unchanged; when `size()` is below the growth threshold the map is left exactly as it was;
when `size()` has reached the threshold the table has been rehashed to the grown
capacity. -/
theorem C9_duplicate_insert_frame [Inhabited V] (hash_func_ : K → Nat)
    (m : flat_hash_map K V) (k : K) (v : V) (fuel : Nat) (hm : Reachable hash_func_ m)
    (hg : capacity m * 7 < 2 ^ 32) (hfit : grow_fits m = true)
    (hfuel : 8 + 2 * capacity m ≤ fuel)
    (hk : contains hash_func_ fuel m k = some true) :
    ∃ m1 it, try_emplace hash_func_ fuel m k v = some (m1, it, false) ∧
      insert hash_func_ fuel m (k, v) = some (m1, it, false) ∧ size m1 = size m ∧
      (∀ k1, find_value hash_func_ fuel m1 k1 = find_value hash_func_ fuel m k1) ∧
      (size m < u32 (capacity m * 7) / 8 → m1 = m) ∧
      (u32 (capacity m * 7) / 8 ≤ size m →
        capacity m1 = if capacity m = 0 then 8 else u32 (capacity m * 3) / 2) := by
  have hinv := inv_of_reachable hm
  have hg1 : m.capacity_ * 7 < 2 ^ 32 := hg
  have hfuel1 : 8 + 2 * m.capacity_ ≤ fuel := hfuel
  have hgc := capacity_le_grown hg1
  obtain ⟨v0, hh⟩ := holds_of_contains hinv (by omega) hk
  obtain ⟨m1, it, h1, h2, h3, h4, h5, _, h7⟩ :=
    try_emplace_present hinv hg1 (show grown_capacity m ≤ fuel by omega) hfit hh v
  have hf1 : m1.capacity_ ≤ fuel := by omega
  refine ⟨m1, it, h1, h1, h4, ?_, ?_, ?_⟩
  · intro k1
    exact find_value_congr hinv h2 (by omega) hf1 (fun w => h5 k1 w)
  · intro hlt
    have hlt1 : m.size_ < u32 (m.capacity_ * 7) / 8 := hlt
    exact h7 (by omega)
  · intro hge
    have hge1 : u32 (m.capacity_ * 7) / 8 ≤ m.size_ := hge
    show m1.capacity_ = _
    rw [h3]
    unfold grown_capacity
    rw [if_pos hge1]
    rfl

/-- C9 (amended) at a concrete input below the threshold: `example_map` (size 4, capacity 8)
is left exactly as it was. -/
theorem C9_witness :
    Reachable example_hash example_map ∧ capacity example_map * 7 < 2 ^ 32 ∧
      grow_fits example_map = true ∧ 8 + 2 * capacity example_map ≤ 24 ∧
      contains example_hash 24 example_map 9 = some true ∧
      size example_map < u32 (capacity example_map * 7) / 8 ∧
      ∃ m1 it, try_emplace example_hash 24 example_map 9 0 = some (m1, it, false) ∧
        insert example_hash 24 example_map (9, 0) = some (m1, it, false) ∧
        size m1 = size example_map ∧
        (∀ k1, find_value example_hash 24 m1 k1 = find_value example_hash 24 example_map k1) ∧
        (size example_map < u32 (capacity example_map * 7) / 8 → m1 = example_map) ∧
        (u32 (capacity example_map * 7) / 8 ≤ size example_map →
          capacity m1 = if capacity example_map = 0 then 8
            else u32 (capacity example_map * 3) / 2) :=
  ⟨example_map_reachable, by decide, by decide, by decide, by decide, by decide,
    C9_duplicate_insert_frame example_hash example_map 9 0 24 example_map_reachable (by decide)
      (by decide) (by decide) (by decide)⟩

end flat_hash_map

namespace constexpr_hash_map

/-- C10, as stated, fails: for `N = 4` the capacity is 4, while `ceil(4 * 8 / 7)` is 5, and
`4 ≤ 4 * 7 / 8` is false: the table of the repository's own example has no empty slot. -/
theorem C10_counterexample :
    capacity 4 = 4 ∧ ⌈(4 : ℚ) * 8 / 7⌉₊ = 5 ∧ ¬ ((4 : ℚ) ≤ (capacity 4 : ℚ) * 7 / 8) := by
  refine ⟨by decide, ?_, ?_⟩
  · rw [Nat.ceil_eq_iff (by norm_num)]
    norm_num
  · have h : capacity 4 = 4 := by decide
    rw [h]
    norm_num

/-- C10, amended: for every `N ≥ 1` whose capacity fits in 32 bits, the capacity equals
`floor(N * 8 / 7)`; it is at least `N`, it equals `N` when `N < 7` (no slot stays empty),
and it exceeds `N` when `N ≥ 7`. -/
theorem C10_capacity_floor (N : Nat) (h1 : 1 ≤ N) (hN : N * 8 / 7 < 2 ^ 32) :
    capacity N = N * 8 / 7 ∧ capacity N = ⌊(N : ℚ) * 8 / 7⌋₊ ∧ N ≤ capacity N ∧
      (N < 7 → capacity N = N) ∧ (7 ≤ N → N < capacity N) := by
  have h8 : N * 8 < 2 ^ 64 := by omega
  have hc : capacity N = N * 8 / 7 := by
    unfold capacity u32
    rw [Nat.mod_eq_of_lt h8, Nat.mod_eq_of_lt hN]
  refine ⟨hc, ?_, by omega, fun _ => by omega, fun _ => by omega⟩
  rw [hc]
  have : (N : ℚ) * 8 / 7 = ((N * 8 : ℕ) : ℚ) / ((7 : ℕ) : ℚ) := by push_cast; ring
  rw [this, Nat.floor_div_eq_div]

/-- C10 (amended) at a concrete input: the four entries of the repository's example. -/
theorem C10_witness :
    1 ≤ 4 ∧ 4 * 8 / 7 < 2 ^ 32 ∧ capacity 4 = 4 * 8 / 7 ∧ capacity 4 = ⌊((4 : ℕ) : ℚ) * 8 / 7⌋₊ ∧
      4 ≤ capacity 4 ∧ (4 < 7 → capacity 4 = 4) ∧ (7 ≤ 4 → 4 < capacity 4) :=
  ⟨by decide, by decide, C10_capacity_floor 4 (by decide) (by decide)⟩

end constexpr_hash_map

end ineffa


/-! ## Lookup in a well-formed table with an empty slot -/

namespace ineffa

namespace flat_hash_map

variable {K V : Type} [DecidableEq K] [kv_slot_layout K V]

theorem contains_of_no_occ (hash_func_ : K → Nat) (m : flat_hash_map K V)
    (hno : ∀ i, i < m.capacity_ → ¬ occ m i) {fuel : Nat} (hfuel : 1 ≤ fuel) (k : K) :
    contains hash_func_ fuel m k = some false := by
  obtain ⟨f, rfl⟩ : ∃ f, fuel = f + 1 := ⟨fuel - 1, by omega⟩
  unfold contains find
  by_cases h0 : m.capacity_ = 0
  · simp [h0]
  · have hb := bucket_lt (hash32_lt hash_func_ k) (Nat.pos_of_ne_zero h0)
    have he := (is_empty_iff m _).2 (hno _ hb)
    simp [h0, find_loop, he]

/-! ## The claims on clear, move and rehash -/

/-- C14, as stated, fails for a move assignment of an object to itself: the test
`this != &other` fails, nothing is executed, and the reachable map `example_map`, the
source of the assignment, keeps its size 4, its capacity 8 and its key 9. -/
theorem C14_counterexample :
    Reachable example_hash example_map ∧
      size (move_assign true example_map example_map).2 = 4 ∧
      capacity (move_assign true example_map example_map).2 = 8 ∧
      contains example_hash 8 (move_assign true example_map example_map).2 9 = some true :=
  ⟨example_map_reachable, by decide, by decide, by decide⟩

/-- C14, amended: moving a reachable map `src`, by move construction or by move assignment
into another object `dst`, leaves `src` with size 0 and capacity 0 (no key is found in
it), and the destination has the former size and capacity of `src` and finds exactly what
`src` found: every pair `src` held is found with its value, every key `src` did not hold is
not found.  A move assignment of `src` to itself leaves it as it was. -/
theorem C14_move [Inhabited V] (hash_func_ : K → Nat) (src dst : flat_hash_map K V)
    (fuel : Nat) (hs : Reachable hash_func_ src) (hfuel : capacity src ≤ fuel) :
    (∀ r, r = move_construct src ∨ r = move_assign false dst src →
      size r.2 = 0 ∧ capacity r.2 = 0 ∧ (∀ k, contains hash_func_ fuel r.2 k = some false) ∧
        size r.1 = size src ∧ capacity r.1 = capacity src ∧
        (∀ k v, holds src k v → find_value hash_func_ fuel r.1 k = some (some v)) ∧
        (∀ k, fresh src k → find_value hash_func_ fuel r.1 k = some none) ∧
        (∀ k, find_value hash_func_ fuel r.1 k = find_value hash_func_ fuel src k) ∧
        (∀ i, r.1.ctrl_slots i = src.ctrl_slots i ∧ r.1.kv_slots i = src.kv_slots i)) ∧
      move_assign true src src = (src, src) := by
  have hinv := inv_of_reachable hs
  have h1 : (move_construct src).1 = src := rfl
  have h2 : (move_assign false dst src).1 = src := rfl
  have h3 : (move_assign false dst src).2 = (move_construct src).2 := rfl
  have hmain : ∀ r : flat_hash_map K V × flat_hash_map K V,
      r.1 = src → r.2 = (move_construct src).2 →
      size r.2 = 0 ∧ capacity r.2 = 0 ∧ (∀ k, contains hash_func_ fuel r.2 k = some false) ∧
        size r.1 = size src ∧ capacity r.1 = capacity src ∧
        (∀ k v, holds src k v → find_value hash_func_ fuel r.1 k = some (some v)) ∧
        (∀ k, fresh src k → find_value hash_func_ fuel r.1 k = some none) ∧
        (∀ k, find_value hash_func_ fuel r.1 k = find_value hash_func_ fuel src k) ∧
        (∀ i, r.1.ctrl_slots i = src.ctrl_slots i ∧ r.1.kv_slots i = src.kv_slots i) := by
    intro r hr1 hr2
    rw [hr1, hr2]
    refine ⟨rfl, rfl, fun k => ?_, rfl, rfl, fun k v h => find_value_of_holds hinv hfuel h,
      fun k h => find_value_of_fresh hinv hfuel h, fun k => rfl, fun i => ⟨rfl, rfl⟩⟩
    unfold contains find
    simp [move_construct]
  refine ⟨?_, rfl⟩
  intro r hr
  rcases hr with rfl | rfl
  · exact hmain _ h1 rfl
  · exact hmain _ h2 h3

/-- C14 (amended) at a concrete input: the four-pair map is moved into the seven-pair
map. -/
theorem C14_witness :
    Reachable example_hash example_map ∧ capacity example_map ≤ 8 ∧
      (∀ r, r = move_construct example_map ∨
          r = move_assign false example_full_map example_map →
        size r.2 = 0 ∧ capacity r.2 = 0 ∧ (∀ k, contains example_hash 8 r.2 k = some false) ∧
          size r.1 = size example_map ∧ capacity r.1 = capacity example_map ∧
          (∀ k v, holds example_map k v → find_value example_hash 8 r.1 k = some (some v)) ∧
          (∀ k, fresh example_map k → find_value example_hash 8 r.1 k = some none) ∧
          (∀ k, find_value example_hash 8 r.1 k = find_value example_hash 8 example_map k) ∧
          (∀ i, r.1.ctrl_slots i = example_map.ctrl_slots i ∧
            r.1.kv_slots i = example_map.kv_slots i)) ∧
      move_assign true example_map example_map = (example_map, example_map) :=
  ⟨example_map_reachable, by decide,
    C14_move example_hash example_map example_full_map 8 example_map_reachable (by decide)⟩

/-- C17: on a reachable map `clear()` sets the size to 0, leaves the capacity unchanged and
makes every control slot empty, so that `contains(k)` is false for every key; on a map of
capacity 0 it changes nothing. -/
theorem C17_clear [Inhabited V] (hash_func_ : K → Nat) (m : flat_hash_map K V) (fuel : Nat)
    (hm : Reachable hash_func_ m) (hfuel : 1 ≤ fuel) :
    size (clear m) = 0 ∧ capacity (clear m) = capacity m ∧
      (∀ i, i < capacity m → ((clear m).ctrl_slots i).is_empty = true) ∧
      occupied_count (clear m) = 0 ∧
      (∀ k, contains hash_func_ fuel (clear m) k = some false) ∧
      (capacity m = 0 → clear m = m) := by
  have hinv := inv_of_reachable hm
  obtain ⟨hinv1, hcap, hsize, hno⟩ := clear_spec hinv
  refine ⟨hsize, hcap, fun i hi => (is_empty_iff _ i).2 (hno i hi), ?_, fun k => ?_, fun h0 => ?_⟩
  · rw [← hinv1.size_eq, hsize]
  · exact contains_of_no_occ hash_func_ _ (fun i hi => hno i (by rw [← hcap]; exact hi)) hfuel k
  · have h1 : m.capacity_ = 0 := h0
    unfold clear
    rw [if_pos h1]

/-- C17 at a concrete input: the four-pair map. -/
theorem C17_witness :
    Reachable example_hash example_map ∧ 1 ≤ 1 ∧
      size (clear example_map) = 0 ∧ capacity (clear example_map) = capacity example_map ∧
      (∀ i, i < capacity example_map → ((clear example_map).ctrl_slots i).is_empty = true) ∧
      occupied_count (clear example_map) = 0 ∧
      (∀ k, contains example_hash 1 (clear example_map) k = some false) ∧
      (capacity example_map = 0 → clear example_map = example_map) :=
  ⟨example_map_reachable, by decide,
    C17_clear example_hash example_map 1 example_map_reachable (by decide)⟩

end flat_hash_map

end ineffa


/-! ## The fixed map: construction -/

namespace ineffa

namespace constexpr_hash_map

open flat_hash_map (occ holds fresh slot_holds WF Pending pred_ok probe ProbeResult
  occupied_count set_slot key_equal_at hash32)

variable {K V : Type} [DecidableEq K]

theorem to_flat_set_entry (m : constexpr_hash_map K V) (idx : Nat) (c : ctrl_slot_t)
    (kv : K × V) : to_flat (set_entry m idx c kv) = set_slot (to_flat m) idx c (some kv) := by
  unfold to_flat set_entry set_slot
  simp only [flat_hash_map.mk.injEq, and_true, true_and]
  funext i
  by_cases h : i = idx
  · subst h
    simp
  · simp [Function.update, h]

theorem key_equal_at_to_flat (m : constexpr_hash_map K V) (i : Nat) (k : K) :
    key_equal_at (to_flat m) i k = decide ((m.kv_slots_ i).1 = k) := rfl

theorem slot_holds_to_flat (m : constexpr_hash_map K V) {i : Nat} (h : i < capacity m.N)
    (hocc : occ (to_flat m) i) :
    slot_holds (to_flat m) i (m.kv_slots_ i).1 (m.kv_slots_ i).2 := ⟨h, hocc, rfl⟩

theorem built_set_entry {hash_func_ : K → Nat} {m : constexpr_hash_map K V}
    (hb : Built hash_func_ m) (idx : Nat) (cs : ctrl_slot_t) (kv : K × V)
    (hwf : WF hash_func_ (set_slot (to_flat m) idx cs (some kv)))
    (hd : cs.dib + 1 ≤ capacity m.N) : Built hash_func_ (set_entry m idx cs kv) := by
  refine ⟨by rw [to_flat_set_entry]; exact hwf, ?_⟩
  intro i hi hocc
  rw [to_flat_set_entry, flat_hash_map.occ_set_slot] at hocc
  show ((set_entry m idx cs kv).ctrl_slots_ i).dib + 1 ≤ capacity m.N
  by_cases h : i = idx
  · subst h
    simp only [set_entry, Function.update_same]
    exact hd
  · rw [if_neg h] at hocc
    simp only [set_entry, Function.update_noteq h]
    exact hb.dib_lt i hi hocc

theorem construct_loop_fresh {hash_func_ : K → Nat} :
    ∀ (fuel n : Nat) (m : constexpr_hash_map K V) (cs : ctrl_slot_t) (kv : K × V) (idx : Nat),
      Built hash_func_ m → idx < capacity m.N → n < fuel →
      ¬ occ (to_flat m) ((next_idx (capacity m.N))^[n] idx) →
      Pending hash_func_ (to_flat m) cs kv.1 idx → fresh (to_flat m) kv.1 →
      ∃ m1, construct_loop fuel m cs kv idx = some (Except.ok m1) ∧ Built hash_func_ m1 ∧
        m1.N = m.N ∧ occupied_count (to_flat m1) = occupied_count (to_flat m) + 1 ∧
        (∀ k v, holds (to_flat m1) k v ↔ (holds (to_flat m) k v ∨ (k, v) = kv)) := by
  intro fuel
  induction fuel with
  | zero => intro n m cs kv idx _ _ hn; omega
  | succ fuel ih =>
    intro n m cs kv idx hb hidx hn hempty hp hf
    have hwf := hb.wf
    have hcap : capacity m.N < 2 ^ 32 := hwf.cap_lt
    have he : (next_idx (capacity m.N))^[n] idx < capacity m.N := iter_next_lt hcap n hidx
    have hdlt : cs.dib + 1 ≤ capacity m.N :=
      flat_hash_map.pending_dib_lt hwf he hempty hp.2.2
    unfold construct_loop
    by_cases hocc : occ (to_flat m) idx
    · have hie : ¬ ((m.ctrl_slots_ idx).is_empty = true) := by
        have := flat_hash_map.is_empty_iff (to_flat m) idx
        exact fun h => (this.1 h) hocc
      have hkey : ¬ ((m.ctrl_slots_ idx).hash = cs.hash ∧ (m.kv_slots_ idx).1 = kv.1) := by
        rintro ⟨_, h2⟩
        have := slot_holds_to_flat m hidx hocc
        rw [h2] at this
        exact hf idx _ this
      rw [if_neg hie, if_neg hkey]
      obtain ⟨n1, rfl⟩ : ∃ n1, n = n1 + 1 := by
        cases n with
        | zero => exact absurd hocc hempty
        | succ n1 => exact ⟨n1, rfl⟩
      have hnext : next_idx (capacity m.N) idx < capacity m.N := next_idx_lt hidx hcap
      have hempty0 := hempty
      rw [Function.iterate_succ_apply] at hempty
      by_cases hlt : (m.ctrl_slots_ idx).dib < cs.dib
      · rw [if_pos hlt]
        obtain ⟨hwf1, hcnt1, hholds1, _, hp1, hf1⟩ :=
          flat_hash_map.swap_spec hwf he hempty0 hidx hocc cs kv (m.kv_slots_ idx) rfl hlt hp hf
        have hb1 := built_set_entry hb idx cs kv hwf1 hdlt
        rw [← to_flat_set_entry] at hcnt1 hholds1 hp1 hf1
        have hempty1 : ¬ occ (to_flat (set_entry m idx cs kv))
            ((next_idx (capacity (set_entry m idx cs kv).N))^[n1]
              (next_idx (capacity m.N) idx)) := by
          rw [to_flat_set_entry, flat_hash_map.occ_set_slot]
          split_ifs with h
          · intro _
            have h2 : (next_idx (capacity m.N))^[n1] (next_idx (capacity m.N) idx) = idx := h
            rw [h2] at hempty
            exact hempty hocc
          · exact hempty
        obtain ⟨m1, hm1, hbm1, hN1, hcn1, hh1⟩ :=
          ih n1 (set_entry m idx cs kv)
            { hash := (m.ctrl_slots_ idx).hash, dib := u32 ((m.ctrl_slots_ idx).dib + 1) }
            (m.kv_slots_ idx) (next_idx (capacity m.N) idx) hb1 hnext (by omega) hempty1 hp1 hf1
        refine ⟨m1, hm1, hbm1, hN1, by omega, ?_⟩
        intro k v
        rw [hh1 k v]
        exact hholds1 k v
      · rw [if_neg hlt]
        have hp1 := flat_hash_map.pending_advance hwf he hempty0 hidx hocc cs kv.1 hlt hp
        obtain ⟨m1, hm1, hbm1, hN1, hcn1, hh1⟩ :=
          ih n1 m { hash := cs.hash, dib := u32 (cs.dib + 1) } kv (next_idx (capacity m.N) idx)
            hb hnext (by omega) hempty hp1 hf
        exact ⟨m1, hm1, hbm1, hN1, hcn1, hh1⟩
    · have hie : (m.ctrl_slots_ idx).is_empty = true :=
        (flat_hash_map.is_empty_iff (to_flat m) idx).2 hocc
      rw [if_pos hie]
      obtain ⟨h1, h2, h3, _⟩ := flat_hash_map.place_spec hwf hidx hocc cs kv hp hf
      have hb1 := built_set_entry hb idx cs kv h1 hdlt
      rw [← to_flat_set_entry] at h2 h3
      exact ⟨_, rfl, hb1, rfl, h2, h3⟩

theorem construct_loop_of_found :
    ∀ (fuel : Nat) (m : constexpr_hash_map K V) (cs : ctrl_slot_t) (kv : K × V) (idx p : Nat),
      probe (to_flat m) kv.1 cs.hash fuel idx cs.dib = some (ProbeResult.found p) →
      construct_loop fuel m cs kv idx = some (Except.error error.duplicate_keys) := by
  intro fuel
  induction fuel with
  | zero => intro m cs kv idx p h; simp [probe] at h
  | succ fuel ih =>
    intro m cs kv idx p h
    unfold probe at h
    unfold construct_loop
    have hctrl : (to_flat m).ctrl_slots idx = m.ctrl_slots_ idx := rfl
    rw [hctrl, key_equal_at_to_flat] at h
    by_cases hie : (m.ctrl_slots_ idx).is_empty = true
    · rw [if_pos hie] at h
      simp at h
    · rw [if_neg hie] at h ⊢
      by_cases hk : (m.ctrl_slots_ idx).hash = cs.hash ∧ (m.kv_slots_ idx).1 = kv.1
      · rw [if_pos hk]
      · have hk2 : ¬ ((m.ctrl_slots_ idx).hash = cs.hash ∧
            decide ((m.kv_slots_ idx).1 = kv.1) = true) := by
          simpa using hk
        rw [if_neg hk2] at h
        rw [if_neg hk]
        by_cases hlt : (m.ctrl_slots_ idx).dib < cs.dib
        · rw [if_pos hlt] at h
          simp at h
        · rw [if_neg hlt] at h ⊢
          exact ih m { hash := cs.hash, dib := u32 (cs.dib + 1) } kv _ p h

end constexpr_hash_map

end ineffa


namespace ineffa

namespace flat_hash_map

variable {K V : Type} [DecidableEq K]

theorem fresh_iff_not_holds (m : flat_hash_map K V) (k : K) :
    fresh m k ↔ ∀ v, ¬ holds m k v := by
  constructor
  · rintro h v ⟨i, hi⟩
    exact h i v hi
  · intro h i v hi
    exact h v ⟨i, hi⟩

theorem fresh_of_holds_iff {m m1 : flat_hash_map K V} {kv : K × V}
    (h : ∀ k v, holds m1 k v ↔ (holds m k v ∨ (k, v) = kv)) (k : K) :
    fresh m1 k ↔ (fresh m k ∧ k ≠ kv.1) := by
  rw [fresh_iff_not_holds, fresh_iff_not_holds]
  constructor
  · intro h1
    refine ⟨fun v hv => h1 v ((h k v).2 (Or.inl hv)), ?_⟩
    rintro rfl
    exact h1 kv.2 ((h kv.1 kv.2).2 (Or.inr rfl))
  · rintro ⟨h1, h2⟩ v hv
    rcases (h k v).1 hv with h3 | h3
    · exact h1 v h3
    · exact h2 (by rw [← h3])

end flat_hash_map

namespace constexpr_hash_map

open flat_hash_map (occ holds fresh slot_holds WF Pending pred_ok probe ProbeResult
  occupied_count set_slot key_equal_at hash32)

variable {K V : Type} [DecidableEq K]

theorem capacity_eq {N : Nat} (hN : N * 8 / 7 < 2 ^ 32) : capacity N = N * 8 / 7 := by
  have h8 : N * 8 < 2 ^ 64 := by omega
  unfold capacity u32
  rw [Nat.mod_eq_of_lt h8, Nat.mod_eq_of_lt hN]

theorem capacity_lt (N : Nat) : capacity N < 2 ^ 32 := u32_lt _

theorem initial_not_occ [Inhabited K] [Inhabited V] (N i : Nat) :
    ¬ occ (to_flat (initial N : constexpr_hash_map K V)) i := by
  simp [occ, to_flat, initial, EMPTY_DIB]

theorem built_initial [Inhabited K] [Inhabited V] (hash_func_ : K → Nat) (N : Nat) :
    Built hash_func_ (initial N : constexpr_hash_map K V) := by
  refine ⟨⟨capacity_lt N, ?_, ?_, ?_⟩, ?_⟩
  · intro i _ h
    exact absurd h (initial_not_occ N i)
  · intro i _ h
    exact absurd h (initial_not_occ N _)
  · intro i j k v w h
    exact absurd h.2.1 (initial_not_occ N i)
  · intro i _ h
    exact absurd h (initial_not_occ N i)

theorem initial_count [Inhabited K] [Inhabited V] (N : Nat) :
    occupied_count (to_flat (initial N : constexpr_hash_map K V)) = 0 := by
  unfold occupied_count
  rw [List.countP_eq_zero]
  intro a _
  simp [ctrl_slot_t.is_empty, EMPTY_DIB, to_flat, initial]

theorem initial_holds [Inhabited K] [Inhabited V] (N : Nat) (k : K) (v : V) :
    ¬ holds (to_flat (initial N : constexpr_hash_map K V)) k v := by
  rintro ⟨i, hi⟩
  exact initial_not_occ N i hi.2.1

theorem construct_entries_cons (hash_func_ : K → Nat) (fuel : Nat) (m : constexpr_hash_map K V)
    (kv : K × V) (rest : List (K × V)) :
    construct_entries hash_func_ fuel m (kv :: rest) =
      match construct_loop fuel m { hash := u32 (hash_func_ kv.1), dib := 0 } kv
          (bucket (u32 (hash_func_ kv.1)) (capacity m.N)) with
      | none => none
      | some (Except.error e) => some (Except.error e)
      | some (Except.ok m1) => construct_entries hash_func_ fuel m1 rest := rfl

theorem construct_entries_spec {hash_func_ : K → Nat} (fuel : Nat) :
    ∀ (l : List (K × V)) (m : constexpr_hash_map K V), Built hash_func_ m →
      occupied_count (to_flat m) + l.length ≤ capacity m.N → capacity m.N ≤ fuel →
      (((l.map Prod.fst).Nodup ∧ ∀ kv, kv ∈ l → fresh (to_flat m) kv.1) →
        ∃ m1, construct_entries hash_func_ fuel m l = some (Except.ok m1) ∧
          Built hash_func_ m1 ∧ m1.N = m.N ∧
          occupied_count (to_flat m1) = occupied_count (to_flat m) + l.length ∧
          (∀ k v, holds (to_flat m1) k v ↔ (holds (to_flat m) k v ∨ (k, v) ∈ l))) ∧
      (¬ ((l.map Prod.fst).Nodup ∧ ∀ kv, kv ∈ l → fresh (to_flat m) kv.1) →
        construct_entries hash_func_ fuel m l = some (Except.error error.duplicate_keys)) := by
  intro l
  induction l with
  | nil =>
    intro m hb _ _
    refine ⟨fun _ => ⟨m, rfl, hb, rfl, rfl, fun k v => by simp⟩, fun h => ?_⟩
    exact absurd ⟨List.nodup_nil, fun kv hkv => absurd hkv (List.not_mem_nil _)⟩ h
  | cons kv rest ih =>
    intro m hb hcnt hfuel
    have hwf := hb.wf
    have hcap : capacity m.N < 2 ^ 32 := capacity_lt _
    have hlen : (kv :: rest).length = rest.length + 1 := rfl
    rw [hlen] at hcnt
    have hc0 : 0 < capacity m.N := by omega
    obtain ⟨e, he, hempty⟩ :=
      flat_hash_map.exists_empty_of_count_lt (to_flat m) (by show _ < capacity m.N; omega)
    have he1 : e < capacity m.N := he
    have hb0 : bucket (u32 (hash_func_ kv.1)) (capacity m.N) < capacity m.N :=
      bucket_lt (u32_lt _) hc0
    rw [construct_entries_cons]
    by_cases hf : fresh (to_flat m) kv.1
    · obtain ⟨t, ht, hte⟩ := reach hb0 he1
      have hit : (next_idx (capacity m.N))^[t] (bucket (u32 (hash_func_ kv.1)) (capacity m.N))
          = e := by
        rw [iter_next_eq hc0 hcap t _ hb0, hte]
      obtain ⟨m1, hm1, hb1, hN1, hcnt1, hh1⟩ :=
        construct_loop_fresh fuel t m { hash := u32 (hash_func_ kv.1), dib := 0 } kv
          (bucket (u32 (hash_func_ kv.1)) (capacity m.N)) hb hb0 (by omega)
          (by rw [hit]; exact hempty)
          ⟨rfl, Nat.mod_eq_of_lt hb0, fun h => absurd h (Nat.lt_irrefl 0)⟩ hf
      rw [hm1]
      simp only
      have hfr := flat_hash_map.fresh_of_holds_iff hh1
      have hP : ((rest.map Prod.fst).Nodup ∧ ∀ x, x ∈ rest → fresh (to_flat m1) x.1) ↔
          (((kv :: rest).map Prod.fst).Nodup ∧
            ∀ x, x ∈ kv :: rest → fresh (to_flat m) x.1) := by
        rw [List.map_cons, List.nodup_cons]
        constructor
        · rintro ⟨h1, h2⟩
          refine ⟨⟨?_, h1⟩, ?_⟩
          · intro hmem
            obtain ⟨x, hx, hxk⟩ := List.mem_map.1 hmem
            exact ((hfr x.1).1 (h2 x hx)).2 hxk
          · intro x hx
            rcases List.mem_cons.1 hx with rfl | hx
            · exact hf
            · exact ((hfr x.1).1 (h2 x hx)).1
        · rintro ⟨⟨h1, h2⟩, h3⟩
          refine ⟨h2, fun x hx => (hfr x.1).2 ⟨h3 x (List.mem_cons_of_mem _ hx), ?_⟩⟩
          intro hxk
          exact h1 (List.mem_map.2 ⟨x, hx, hxk⟩)
      obtain ⟨ihok, iherr⟩ := ih m1 hb1 (by rw [hcnt1, hN1]; omega) (by rw [hN1]; exact hfuel)
      constructor
      · intro hp
        obtain ⟨m2, hm2, hb2, hN2, hcnt2, hh2⟩ := ihok (hP.2 hp)
        refine ⟨m2, hm2, hb2, by rw [hN2, hN1], by rw [hcnt2, hcnt1, hlen]; omega, ?_⟩
        intro k v
        rw [hh2 k v, hh1 k v, List.mem_cons, or_assoc]
      · intro hp
        exact iherr (fun h => hp (hP.1 h))
    · have hex : ∃ v p, slot_holds (to_flat m) p kv.1 v := by
        by_contra hno
        exact hf (fun i v hi => hno ⟨v, i, hi⟩)
      obtain ⟨v, p, hp⟩ := hex
      have hpr := flat_hash_map.probe_found hwf he hempty hp hfuel
      have := construct_loop_of_found fuel m { hash := u32 (hash_func_ kv.1), dib := 0 } kv
        (bucket (u32 (hash_func_ kv.1)) (capacity m.N)) p hpr
      rw [this]
      simp only
      constructor
      · rintro ⟨_, h2⟩
        exact absurd (h2 kv (List.mem_cons_self _ _)) hf
      · intro _
        trivial

theorem construct_spec [Inhabited K] [Inhabited V] (hash_func_ : K → Nat) (l : List (K × V))
    (fuel : Nat) (hN : l.length * 8 / 7 < 2 ^ 32) (hfuel : capacity l.length ≤ fuel) :
    ((l.map Prod.fst).Nodup →
      ∃ m, construct hash_func_ fuel l = some (Except.ok m) ∧ Built hash_func_ m ∧
        m.N = l.length ∧ occupied_count (to_flat m) = l.length ∧
        (∀ k v, holds (to_flat m) k v ↔ (k, v) ∈ l)) ∧
    (¬ (l.map Prod.fst).Nodup →
      construct hash_func_ fuel l = some (Except.error error.duplicate_keys)) := by
  have hc := capacity_eq hN
  obtain ⟨hok, herr⟩ := construct_entries_spec fuel l (initial l.length) (built_initial hash_func_ _)
    (by rw [initial_count]; show 0 + l.length ≤ capacity l.length; omega) hfuel
  have hfr : ∀ kv, kv ∈ l → fresh (to_flat (initial l.length : constexpr_hash_map K V)) kv.1 :=
    fun kv _ i v hi => initial_not_occ _ i hi.2.1
  constructor
  · intro hnd
    obtain ⟨m1, hm1, hb1, hN1, hcnt1, hh1⟩ := hok ⟨hnd, hfr⟩
    refine ⟨m1, hm1, hb1, hN1, by rw [hcnt1, initial_count]; omega, fun k v => ?_⟩
    rw [hh1 k v]
    constructor
    · rintro (h | h)
      · exact absurd h (initial_holds _ k v)
      · exact h
    · exact Or.inr
  · intro hnd
    exact herr (fun h => hnd h.1)

end constexpr_hash_map

end ineffa


/-! ## Probing a table that may be full -/

namespace ineffa

namespace flat_hash_map

variable {K V : Type} [DecidableEq K]

theorem probe_held {hash_func_ : K → Nat} {m : flat_hash_map K V}
    (hwf : WF hash_func_ m) {p : Nat} {k : K} {v : V} (hp : slot_holds m p k v)
    (hbd : (m.ctrl_slots p).dib + 1 ≤ m.capacity_) :
    ∀ s t fuel, t + s = (m.ctrl_slots p).dib →
      (probe m k (hash32 hash_func_ k) fuel
          ((bucket (hash32 hash_func_ k) m.capacity_ + t) % m.capacity_) t = none ∨
        probe m k (hash32 hash_func_ k) fuel
          ((bucket (hash32 hash_func_ k) m.capacity_ + t) % m.capacity_) t =
          some (ProbeResult.found p)) ∧
      (s < fuel →
        probe m k (hash32 hash_func_ k) fuel
          ((bucket (hash32 hash_func_ k) m.capacity_ + t) % m.capacity_) t =
          some (ProbeResult.found p)) := by
  have hcap := hwf.cap_lt
  have h0 : 0 < m.capacity_ := by omega
  obtain ⟨k1, v1, hkv1, hh1, hpos1⟩ := hwf.slot_ok p hp.1 hp.2.1
  have hk1 : k1 = k := by
    have := hkv1.symm.trans hp.2.2
    simp only [Option.some.injEq, Prod.mk.injEq] at this
    exact this.1
  subst hk1
  rw [hh1] at hpos1
  intro s
  induction s with
  | zero =>
    intro t fuel ht
    have ht2 : t = (m.ctrl_slots p).dib := by omega
    subst ht2
    rw [hpos1]
    cases fuel with
    | zero => exact ⟨Or.inl rfl, fun h => absurd h (Nat.lt_irrefl 0)⟩
    | succ f =>
      have hie : ¬ ((m.ctrl_slots p).is_empty = true) := by
        rw [is_empty_iff]; exact not_not.2 hp.2.1
      have : probe m k1 (hash32 hash_func_ k1) (f + 1) p (m.ctrl_slots p).dib =
          some (ProbeResult.found p) := by
        unfold probe
        rw [if_neg hie, if_pos ⟨hh1, (key_equal_at_iff m p k1).2 ⟨v, hp.2.2⟩⟩]
      exact ⟨Or.inr this, fun _ => this⟩
  | succ s ih =>
    intro t fuel ht
    cases fuel with
    | zero => exact ⟨Or.inl rfl, fun h => absurd h (Nat.not_lt_zero _)⟩
    | succ f =>
      have hch := chain_at hwf h0 (bucket (hash32 hash_func_ k1) m.capacity_)
        (m.ctrl_slots p).dib t (by omega) (by rw [hpos1]; exact hp.2.1) (by rw [hpos1])
      have hi : (bucket (hash32 hash_func_ k1) m.capacity_ + t) % m.capacity_ < m.capacity_ :=
        Nat.mod_lt _ h0
      have hie : ¬ ((m.ctrl_slots
          ((bucket (hash32 hash_func_ k1) m.capacity_ + t) % m.capacity_)).is_empty = true) := by
        rw [is_empty_iff]; exact not_not.2 hch.1
      unfold probe
      rw [if_neg hie]
      split_ifs with h1 h2
      · obtain ⟨w, hw⟩ := (key_equal_at_iff m _ k1).1 h1.2
        have := hwf.uniq _ p k1 w v ⟨hi, hch.1, hw⟩ hp
        rw [this]
        exact ⟨Or.inr rfl, fun _ => rfl⟩
      · omega
      · rw [u32_of_lt (by omega), next_idx_mod _ h0 hcap]
        have := ih (t + 1) f (by omega)
        exact ⟨this.1, fun hlt => this.2 (by omega)⟩

theorem probe_found_of_bound {hash_func_ : K → Nat} {m : flat_hash_map K V}
    (hwf : WF hash_func_ m) {p : Nat} {k : K} {v : V} (hp : slot_holds m p k v)
    (hbd : (m.ctrl_slots p).dib + 1 ≤ m.capacity_) {fuel : Nat} (hfuel : m.capacity_ ≤ fuel) :
    probe m k (hash32 hash_func_ k) fuel (bucket (hash32 hash_func_ k) m.capacity_) 0 =
      some (ProbeResult.found p) := by
  have hb : bucket (hash32 hash_func_ k) m.capacity_ < m.capacity_ :=
    bucket_lt (hash32_lt _ _) (by omega)
  have := (probe_held hwf hp hbd (m.ctrl_slots p).dib 0 fuel (by omega)).2 (by omega)
  rwa [Nat.add_zero, Nat.mod_eq_of_lt hb] at this

theorem probe_none_or_found {hash_func_ : K → Nat} {m : flat_hash_map K V}
    (hwf : WF hash_func_ m) {p : Nat} {k : K} {v : V} (hp : slot_holds m p k v)
    (hbd : (m.ctrl_slots p).dib + 1 ≤ m.capacity_) (fuel : Nat) :
    probe m k (hash32 hash_func_ k) fuel (bucket (hash32 hash_func_ k) m.capacity_) 0 = none ∨
      probe m k (hash32 hash_func_ k) fuel (bucket (hash32 hash_func_ k) m.capacity_) 0 =
        some (ProbeResult.found p) := by
  have hb : bucket (hash32 hash_func_ k) m.capacity_ < m.capacity_ :=
    bucket_lt (hash32_lt _ _) (by omega)
  have := (probe_held hwf hp hbd (m.ctrl_slots p).dib 0 fuel (by omega)).1
  rwa [Nat.add_zero, Nat.mod_eq_of_lt hb] at this

theorem probe_absent_bound {m : flat_hash_map K V} (hcap : m.capacity_ < 2 ^ 32)
    (hbd : ∀ i, i < m.capacity_ → occ m i → (m.ctrl_slots i).dib + 1 ≤ m.capacity_)
    {k : K} (hf : fresh m k) (h : Nat) :
    ∀ s t fuel idx, idx < m.capacity_ → t + s = m.capacity_ → s < fuel →
      ∃ i d f, probe m k h fuel idx t = some (ProbeResult.vacant i d f) ∨
        probe m k h fuel idx t = some (ProbeResult.richer i d f) := by
  intro s
  induction s with
  | zero =>
    intro t fuel idx hidx ht hfuel
    obtain ⟨f, rfl⟩ : ∃ f, fuel = f + 1 := ⟨fuel - 1, by omega⟩
    unfold probe
    by_cases hie : (m.ctrl_slots idx).is_empty = true
    · exact ⟨idx, t, f, Or.inl (by rw [if_pos hie])⟩
    · have hocc : occ m idx := not_not.1 (fun hn => hie ((is_empty_iff m idx).2 hn))
      have hkey : ¬ ((m.ctrl_slots idx).hash = h ∧ key_equal_at m idx k = true) := by
        rintro ⟨_, h2⟩
        obtain ⟨w, hw⟩ := (key_equal_at_iff m idx k).1 h2
        exact hf idx w ⟨hidx, hocc, hw⟩
      have hlt : (m.ctrl_slots idx).dib < t := by
        have := hbd idx hidx hocc
        omega
      exact ⟨idx, t, f, Or.inr (by rw [if_neg hie, if_neg hkey, if_pos hlt])⟩
  | succ s ih =>
    intro t fuel idx hidx ht hfuel
    obtain ⟨f, rfl⟩ : ∃ f, fuel = f + 1 := ⟨fuel - 1, by omega⟩
    unfold probe
    by_cases hie : (m.ctrl_slots idx).is_empty = true
    · exact ⟨idx, t, f, Or.inl (by rw [if_pos hie])⟩
    · have hocc : occ m idx := not_not.1 (fun hn => hie ((is_empty_iff m idx).2 hn))
      have hkey : ¬ ((m.ctrl_slots idx).hash = h ∧ key_equal_at m idx k = true) := by
        rintro ⟨_, h2⟩
        obtain ⟨w, hw⟩ := (key_equal_at_iff m idx k).1 h2
        exact hf idx w ⟨hidx, hocc, hw⟩
      by_cases hlt : (m.ctrl_slots idx).dib < t
      · exact ⟨idx, t, f, Or.inr (by rw [if_neg hie, if_neg hkey, if_pos hlt])⟩
      · rw [if_neg hie, if_neg hkey, if_neg hlt, u32_of_lt (by omega)]
        exact ih (t + 1) f (next_idx m.capacity_ idx) (next_idx_lt hidx hcap) (by omega)
          (by omega)

theorem probe_stop_pos {m : flat_hash_map K V} (hcap : m.capacity_ < 2 ^ 32)
    (h0 : 0 < m.capacity_)
    (hbd : ∀ i, i < m.capacity_ → occ m i → (m.ctrl_slots i).dib + 1 ≤ m.capacity_)
    (k : K) (h b : Nat) :
    ∀ fuel t i d f,
      (probe m k h fuel ((b + t) % m.capacity_) t = some (ProbeResult.vacant i d f) ∨
        probe m k h fuel ((b + t) % m.capacity_) t = some (ProbeResult.richer i d f)) →
      i = (b + d) % m.capacity_ ∧
        ((m.ctrl_slots i).is_empty = true ∨ (m.ctrl_slots i).dib < d) := by
  intro fuel
  induction fuel with
  | zero =>
    intro t i d f hr
    rcases hr with hr | hr <;> simp [probe] at hr
  | succ fuel ih =>
    intro t i d f hr
    have hidx : (b + t) % m.capacity_ < m.capacity_ := Nat.mod_lt _ h0
    unfold probe at hr
    by_cases hie : (m.ctrl_slots ((b + t) % m.capacity_)).is_empty = true
    · rw [if_pos hie] at hr
      rcases hr with hr | hr
      · simp only [Option.some.injEq, ProbeResult.vacant.injEq] at hr
        obtain ⟨h1, h2, _⟩ := hr
        subst h1 h2
        exact ⟨rfl, Or.inl hie⟩
      · simp at hr
    · have hocc : occ m ((b + t) % m.capacity_) :=
        not_not.1 (fun hn => hie ((is_empty_iff m _).2 hn))
      rw [if_neg hie] at hr
      by_cases hkey : (m.ctrl_slots ((b + t) % m.capacity_)).hash = h ∧
          key_equal_at m ((b + t) % m.capacity_) k = true
      · rw [if_pos hkey] at hr
        rcases hr with hr | hr <;> simp at hr
      · rw [if_neg hkey] at hr
        by_cases hlt : (m.ctrl_slots ((b + t) % m.capacity_)).dib < t
        · rw [if_pos hlt] at hr
          rcases hr with hr | hr
          · simp at hr
          · simp only [Option.some.injEq, ProbeResult.richer.injEq] at hr
            obtain ⟨h1, h2, _⟩ := hr
            subst h1 h2
            exact ⟨rfl, Or.inr hlt⟩
        · rw [if_neg hlt] at hr
          have := hbd _ hidx hocc
          rw [u32_of_lt (by omega), next_idx_mod _ h0 hcap] at hr
          exact ih (t + 1) i d f hr

end flat_hash_map

/-! ## The fixed map: lookup -/

namespace constexpr_hash_map

open flat_hash_map (occ holds fresh slot_holds WF Pending pred_ok probe ProbeResult
  occupied_count set_slot key_equal_at hash32)

variable {K V : Type} [DecidableEq K]

theorem call_loop_eq_probe (m : constexpr_hash_map K V) (key : K) (hash : Nat) :
    ∀ fuel idx dib, call_loop m key hash fuel idx dib =
      (probe (to_flat m) key hash fuel idx dib).map (call_of_probe m) := by
  intro fuel
  induction fuel with
  | zero => intro idx dib; rfl
  | succ fuel ih =>
    intro idx dib
    unfold call_loop probe
    have hctrl : (to_flat m).ctrl_slots idx = m.ctrl_slots_ idx := rfl
    rw [hctrl, key_equal_at_to_flat]
    by_cases hie : (m.ctrl_slots_ idx).is_empty = true
    · rw [if_pos hie, if_pos hie]
      rfl
    · rw [if_neg hie, if_neg hie]
      by_cases hk : (m.ctrl_slots_ idx).hash = hash ∧ (m.kv_slots_ idx).1 = key
      · have hk2 : (m.ctrl_slots_ idx).hash = hash ∧
            decide ((m.kv_slots_ idx).1 = key) = true := by
          simpa using hk
        rw [if_pos hk, if_pos hk2]
        rfl
      · have hk2 : ¬ ((m.ctrl_slots_ idx).hash = hash ∧
            decide ((m.kv_slots_ idx).1 = key) = true) := by
          simpa using hk
        rw [if_neg hk, if_neg hk2]
        by_cases hlt : (m.ctrl_slots_ idx).dib < dib
        · rw [if_pos hlt, if_pos hlt]
          rfl
        · rw [if_neg hlt, if_neg hlt]
          exact ih _ _

theorem call_eq_probe (hash_func_ : K → Nat) (fuel : Nat) (m : constexpr_hash_map K V) (k : K) :
    call hash_func_ fuel m k =
      (probe (to_flat m) k (hash32 hash_func_ k) fuel
        (bucket (hash32 hash_func_ k) (capacity m.N)) 0).map (call_of_probe m) :=
  call_loop_eq_probe m k _ fuel _ 0

theorem call_of_holds {hash_func_ : K → Nat} {m : constexpr_hash_map K V}
    (hb : Built hash_func_ m) {fuel : Nat} (hfuel : capacity m.N ≤ fuel) {k : K} {v : V}
    (h : holds (to_flat m) k v) : call hash_func_ fuel m k = some (some v) := by
  obtain ⟨p, hp⟩ := h
  rw [call_eq_probe]
  have := flat_hash_map.probe_found_of_bound hb.wf hp (hb.dib_lt p hp.1 hp.2.1) hfuel
  have hc : (to_flat m).capacity_ = capacity m.N := rfl
  rw [hc] at this
  rw [this]
  have hkv : some (m.kv_slots_ p) = some (k, v) := hp.2.2
  simp only [Option.some.injEq] at hkv
  simp only [Option.map_some', call_of_probe, hkv]

theorem call_of_fresh {hash_func_ : K → Nat} {m : constexpr_hash_map K V}
    (hb : Built hash_func_ m) (h0 : 0 < capacity m.N) {fuel : Nat}
    (hfuel : capacity m.N + 1 ≤ fuel) {k : K}
    (h : fresh (to_flat m) k) : call hash_func_ fuel m k = some none := by
  rw [call_eq_probe]
  have hbk : bucket (hash32 hash_func_ k) (capacity m.N) < capacity m.N :=
    bucket_lt (flat_hash_map.hash32_lt _ _) h0
  obtain ⟨i, d, f, hr | hr⟩ :=
    flat_hash_map.probe_absent_bound hb.wf.cap_lt hb.dib_lt h (hash32 hash_func_ k)
      (capacity m.N) 0 fuel (bucket (hash32 hash_func_ k) (capacity m.N)) hbk
      (by show 0 + capacity m.N = capacity m.N; omega) (by omega)
  · rw [hr]
    rfl
  · rw [hr]
    rfl

/-! ### More fuel does not change the result of the constructor -/

theorem construct_loop_mono :
    ∀ (fuel fuel1 : Nat) (m : constexpr_hash_map K V) (cs : ctrl_slot_t) (kv : K × V)
      (idx : Nat) (r : Except error (constexpr_hash_map K V)), fuel ≤ fuel1 →
      construct_loop fuel m cs kv idx = some r → construct_loop fuel1 m cs kv idx = some r := by
  intro fuel
  induction fuel with
  | zero => intro fuel1 m cs kv idx r _ h; exact absurd h (by simp [construct_loop])
  | succ fuel ih =>
    intro fuel1 m cs kv idx r hle h
    obtain ⟨f1, rfl⟩ : ∃ f1, fuel1 = f1 + 1 := ⟨fuel1 - 1, by omega⟩
    unfold construct_loop at h ⊢
    split_ifs at h ⊢ with c1 c2 c3
    · exact h
    · exact h
    · exact ih f1 _ _ _ _ r (by omega) h
    · exact ih f1 _ _ _ _ r (by omega) h

theorem construct_entries_mono (hash_func_ : K → Nat) (fuel fuel1 : Nat) (hle : fuel ≤ fuel1) :
    ∀ (l : List (K × V)) (m : constexpr_hash_map K V)
      (r : Except error (constexpr_hash_map K V)),
      construct_entries hash_func_ fuel m l = some r →
      construct_entries hash_func_ fuel1 m l = some r := by
  intro l
  induction l with
  | nil => intro m r h; exact h
  | cons kv rest ih =>
    intro m r h
    rw [construct_entries_cons] at h ⊢
    cases hc : construct_loop fuel m { hash := u32 (hash_func_ kv.1), dib := 0 } kv
        (bucket (u32 (hash_func_ kv.1)) (capacity m.N)) with
    | none => rw [hc] at h; exact absurd h (by simp)
    | some x =>
      rw [hc] at h
      rw [construct_loop_mono fuel fuel1 m _ kv _ x hle hc]
      cases x with
      | error e => exact h
      | ok m1 => exact ih m1 r h

theorem construct_any [Inhabited K] [Inhabited V] {hash_func_ : K → Nat} {l : List (K × V)}
    {fuel : Nat} {m : constexpr_hash_map K V} (hN : l.length * 8 / 7 < 2 ^ 32)
    (h : construct hash_func_ fuel l = some (Except.ok m)) :
    (l.map Prod.fst).Nodup ∧ Built hash_func_ m ∧ m.N = l.length ∧
      occupied_count (to_flat m) = l.length ∧ (∀ k v, holds (to_flat m) k v ↔ (k, v) ∈ l) := by
  have h1 : construct hash_func_ (max fuel (capacity l.length)) l = some (Except.ok m) :=
    construct_entries_mono hash_func_ fuel _ (Nat.le_max_left _ _) l _ _ h
  obtain ⟨hok, herr⟩ := construct_spec hash_func_ l
    (max fuel (capacity l.length)) hN (Nat.le_max_right _ _)
  by_cases hnd : (l.map Prod.fst).Nodup
  · obtain ⟨m1, hm1, hrest⟩ := hok hnd
    rw [h1] at hm1
    simp only [Option.some.injEq, Except.ok.injEq] at hm1
    subst hm1
    exact ⟨hnd, hrest⟩
  · rw [herr hnd] at h1
    simp at h1

theorem construct_error_any [Inhabited K] [Inhabited V] {hash_func_ : K → Nat}
    {l : List (K × V)} {fuel : Nat} {e : error} (hN : l.length * 8 / 7 < 2 ^ 32)
    (h : construct hash_func_ fuel l = some (Except.error e)) :
    ¬ (l.map Prod.fst).Nodup ∧ e = error.duplicate_keys := by
  have h1 : construct hash_func_ (max fuel (capacity l.length)) l = some (Except.error e) :=
    construct_entries_mono hash_func_ fuel _ (Nat.le_max_left _ _) l _ _ h
  obtain ⟨hok, herr⟩ := construct_spec hash_func_ l
    (max fuel (capacity l.length)) hN (Nat.le_max_right _ _)
  by_cases hnd : (l.map Prod.fst).Nodup
  · obtain ⟨m1, hm1, _⟩ := hok hnd
    rw [h1] at hm1
    simp at hm1
  · rw [herr hnd] at h1
    simp only [Option.some.injEq, Except.error.injEq] at h1
    exact ⟨hnd, h1.symm⟩

end constexpr_hash_map

end ineffa


/-! ## The claims on the fixed map -/

namespace ineffa

namespace constexpr_hash_map

open flat_hash_map (occ holds fresh slot_holds WF Pending pred_ok probe ProbeResult
  occupied_count set_slot key_equal_at hash32 example_hash)

variable {K V : Type} [DecidableEq K]

theorem example_fixed_map_eq :
    construct example_hash 8 example_fixed_pairs = some (Except.ok example_fixed_map) := rfl

/-- C11: for every array of `N ≥ 1` pairs with pairwise distinct keys the constructor
returns a table, and on that table `operator()` returns, for each input key the value
paired with it, and for every other key `std::nullopt`. -/
theorem C11_fixed_lookup [Inhabited K] [Inhabited V] (hash_func_ : K → Nat)
    (l : List (K × V)) (fuel : Nat) (h1 : 1 ≤ l.length) (hN : l.length * 8 / 7 < 2 ^ 32)
    (hnodup : (l.map Prod.fst).Nodup) (hfuel : capacity l.length + 1 ≤ fuel) :
    ∃ m, construct hash_func_ fuel l = some (Except.ok m) ∧ m.N = l.length ∧
      (∀ kv, kv ∈ l → call hash_func_ fuel m kv.1 = some (some kv.2)) ∧
      (∀ k, k ∉ l.map Prod.fst → call hash_func_ fuel m k = some none) := by
  obtain ⟨m, hm, hb, hmN, _, hh⟩ :=
    (construct_spec hash_func_ l fuel hN (by omega)).1 hnodup
  have hc := capacity_eq hN
  refine ⟨m, hm, hmN, fun kv hkv => ?_, fun k hk => ?_⟩
  · exact call_of_holds hb (by rw [hmN]; omega) ((hh kv.1 kv.2).2 hkv)
  · apply call_of_fresh hb (by rw [hmN, hc]; omega) (by rw [hmN]; omega)
    intro i v hi
    exact hk (List.mem_map.2 ⟨(k, v), (hh k v).1 ⟨i, hi⟩, rfl⟩)

/-- C11 at a concrete input: the four entries of the repository's example. -/
theorem C11_witness :
    1 ≤ example_fixed_pairs.length ∧ example_fixed_pairs.length * 8 / 7 < 2 ^ 32 ∧
      (example_fixed_pairs.map Prod.fst).Nodup ∧ capacity example_fixed_pairs.length + 1 ≤ 8 ∧
      ∃ m, construct example_hash 8 example_fixed_pairs = some (Except.ok m) ∧
        m.N = example_fixed_pairs.length ∧
        (∀ kv, kv ∈ example_fixed_pairs → call example_hash 8 m kv.1 = some (some kv.2)) ∧
        (∀ k, k ∉ example_fixed_pairs.map Prod.fst → call example_hash 8 m k = some none) :=
  ⟨by decide, by decide, by decide, by decide,
    C11_fixed_lookup example_hash example_fixed_pairs 8 (by decide) (by decide) (by decide)
      (by decide)⟩

/-- C12: the constructor fails with the duplicate-key error exactly when two entries of the
array have equal keys, and returns a table exactly when the keys are pairwise distinct;
whatever the fuel, it fails with no other error. -/
theorem C12_duplicate_keys [Inhabited K] [Inhabited V] (hash_func_ : K → Nat)
    (l : List (K × V)) (fuel : Nat) (hN : l.length * 8 / 7 < 2 ^ 32)
    (hfuel : capacity l.length ≤ fuel) :
    (construct hash_func_ fuel l = some (Except.error error.duplicate_keys) ↔
        ¬ (l.map Prod.fst).Nodup) ∧
      ((∃ m, construct hash_func_ fuel l = some (Except.ok m)) ↔ (l.map Prod.fst).Nodup) ∧
      (¬ (l.map Prod.fst).Nodup ↔
        ∃ i j, i < j ∧ j < l.length ∧ (l.map Prod.fst)[i]? = (l.map Prod.fst)[j]?) ∧
      (∀ fuel0 e, construct hash_func_ fuel0 l = some (Except.error e) →
        e = error.duplicate_keys ∧ ¬ (l.map Prod.fst).Nodup) := by
  obtain ⟨hok, herr⟩ := construct_spec hash_func_ l fuel hN hfuel
  refine ⟨⟨fun h => (construct_error_any hN h).1, herr⟩, ⟨?_, fun h => ?_⟩, ?_, ?_⟩
  · rintro ⟨m, hm⟩
    exact (construct_any hN hm).1
  · obtain ⟨m, hm, _⟩ := hok h
    exact ⟨m, hm⟩
  · rw [List.nodup_iff_getElem?_ne_getElem?]
    simp only [List.length_map, not_forall, not_not, exists_prop]
  · intro fuel0 e h
    exact ⟨(construct_error_any hN h).2, (construct_error_any hN h).1⟩

/-- C12 at a concrete input: four entries, of which the second and the fourth have the
key 2. -/
theorem C12_witness :
    example_fixed_repeat.length * 8 / 7 < 2 ^ 32 ∧ capacity example_fixed_repeat.length ≤ 8 ∧
      (construct example_hash 8 example_fixed_repeat = some (Except.error error.duplicate_keys) ↔
        ¬ (example_fixed_repeat.map Prod.fst).Nodup) ∧
      ((∃ m, construct example_hash 8 example_fixed_repeat = some (Except.ok m)) ↔
        (example_fixed_repeat.map Prod.fst).Nodup) ∧
      (¬ (example_fixed_repeat.map Prod.fst).Nodup ↔
        ∃ i j, i < j ∧ j < example_fixed_repeat.length ∧
          (example_fixed_repeat.map Prod.fst)[i]? = (example_fixed_repeat.map Prod.fst)[j]?) ∧
      (∀ fuel0 e, construct example_hash fuel0 example_fixed_repeat = some (Except.error e) →
        e = error.duplicate_keys ∧ ¬ (example_fixed_repeat.map Prod.fst).Nodup) :=
  ⟨by decide, by decide,
    C12_duplicate_keys example_hash example_fixed_repeat 8 (by decide) (by decide)⟩

/-- C13: on a constructed table `operator()` returns, and `operator[]` fails with the
key-not-found error exactly when `operator()` returns `std::nullopt`; otherwise it returns
the value `operator()` returns.  It fails with no other error. -/
theorem C13_index [Inhabited K] [Inhabited V] (hash_func_ : K → Nat) (l : List (K × V))
    (fuel0 fuel : Nat) (m : constexpr_hash_map K V) (k : K) (h1 : 1 ≤ l.length)
    (hN : l.length * 8 / 7 < 2 ^ 32)
    (hm : construct hash_func_ fuel0 l = some (Except.ok m))
    (hfuel : capacity m.N + 1 ≤ fuel) :
    (∃ r, call hash_func_ fuel m k = some r) ∧
      (index hash_func_ fuel m k = some (Except.error error.key_not_found) ↔
        call hash_func_ fuel m k = some none) ∧
      (∀ v, index hash_func_ fuel m k = some (Except.ok v) ↔
        call hash_func_ fuel m k = some (some v)) ∧
      (∀ e, index hash_func_ fuel m k = some (Except.error e) → e = error.key_not_found) := by
  obtain ⟨_, hb, hmN, _, _⟩ := construct_any hN hm
  have hc := capacity_eq hN
  have hterm : ∃ r, call hash_func_ fuel m k = some r := by
    rcases flat_hash_map.fresh_or_holds (to_flat m) k with hf | ⟨v, hv⟩
    · exact ⟨_, call_of_fresh hb (by rw [hmN, hc]; omega) hfuel hf⟩
    · exact ⟨_, call_of_holds hb (by omega) hv⟩
  refine ⟨hterm, ?_⟩
  obtain ⟨r, hr⟩ := hterm
  unfold index
  rw [hr]
  cases r with
  | none => simp
  | some v => simp

/-- C13 at a concrete input: the key 7 is looked up in the table of the four entries. -/
theorem C13_witness :
    1 ≤ example_fixed_pairs.length ∧ example_fixed_pairs.length * 8 / 7 < 2 ^ 32 ∧
      construct example_hash 8 example_fixed_pairs = some (Except.ok example_fixed_map) ∧
      capacity example_fixed_map.N + 1 ≤ 5 ∧
      (∃ r, call example_hash 5 example_fixed_map 7 = some r) ∧
      (index example_hash 5 example_fixed_map 7 = some (Except.error error.key_not_found) ↔
        call example_hash 5 example_fixed_map 7 = some none) ∧
      (∀ v, index example_hash 5 example_fixed_map 7 = some (Except.ok v) ↔
        call example_hash 5 example_fixed_map 7 = some (some v)) ∧
      (∀ e, index example_hash 5 example_fixed_map 7 = some (Except.error e) →
        e = error.key_not_found) :=
  ⟨by decide, by decide, example_fixed_map_eq, by decide,
    C13_index example_hash example_fixed_pairs 8 5 example_fixed_map 7 (by decide) (by decide)
      example_fixed_map_eq (by decide)⟩

end constexpr_hash_map

end ineffa


/-! ## Soundness of the early termination of lookup -/

namespace ineffa

namespace flat_hash_map

variable {K V : Type} [DecidableEq K] [kv_slot_layout K V]

theorem early_stop_sound {hash_func_ : K → Nat} {m : flat_hash_map K V}
    (hwf : WF hash_func_ m) (h0 : 0 < m.capacity_)
    (hbd : ∀ i, i < m.capacity_ → occ m i → (m.ctrl_slots i).dib + 1 ≤ m.capacity_)
    (k : K) (fuel i d f : Nat)
    (hr : probe m k (hash32 hash_func_ k) fuel (bucket (hash32 hash_func_ k) m.capacity_) 0 =
        some (ProbeResult.vacant i d f) ∨
      probe m k (hash32 hash_func_ k) fuel (bucket (hash32 hash_func_ k) m.capacity_) 0 =
        some (ProbeResult.richer i d f)) :
    i = (bucket (hash32 hash_func_ k) m.capacity_ + d) % m.capacity_ ∧
      ((m.ctrl_slots i).is_empty = true ∨ (m.ctrl_slots i).dib < d) ∧ fresh m k := by
  have hb : bucket (hash32 hash_func_ k) m.capacity_ < m.capacity_ :=
    bucket_lt (hash32_lt _ _) h0
  have hpos := probe_stop_pos hwf.cap_lt h0 hbd k (hash32 hash_func_ k)
    (bucket (hash32 hash_func_ k) m.capacity_) fuel 0 i d f
    (by rw [Nat.add_zero, Nat.mod_eq_of_lt hb]; exact hr)
  refine ⟨hpos.1, hpos.2, ?_⟩
  intro j v hj
  rcases probe_none_or_found hwf hj (hbd j hj.1 hj.2.1) fuel with h | h
  · rcases hr with hr | hr <;> rw [h] at hr <;> simp at hr
  · rcases hr with hr | hr <;> rw [h] at hr <;> simp at hr

theorem fresh_of_find_end {hash_func_ : K → Nat} {m : flat_hash_map K V}
    (hwf : WF hash_func_ m)
    (hbd : ∀ i, i < m.capacity_ → occ m i → (m.ctrl_slots i).dib + 1 ≤ m.capacity_)
    {k : K} {fuel : Nat} (h : find hash_func_ fuel m k = some (end_ m)) : fresh m k := by
  intro j v hj
  have h0 : m.capacity_ ≠ 0 := by
    have := hj.1
    omega
  unfold find at h
  rw [if_neg h0, find_loop_eq_probe] at h
  rcases probe_none_or_found hwf hj (hbd j hj.1 hj.2.1) fuel with hp | hp
  · rw [hp] at h
    simp at h
  · rw [hp] at h
    simp only [Option.map_some', find_of_probe, iterator_occ m hj.1 hj.2.1, end_eq,
      Option.some.injEq] at h
    have := hj.1
    omega

theorem inv_dib_bound {hash_func_ : K → Nat} {m : flat_hash_map K V} (hinv : Inv hash_func_ m) :
    ∀ i, i < m.capacity_ → occ m i → (m.ctrl_slots i).dib + 1 ≤ m.capacity_ := by
  intro i hi hocc
  obtain ⟨e, he, hempty⟩ := inv_has_empty hinv (by omega)
  have := dib_bound hinv.wf he hempty hi hocc
  omega

end flat_hash_map

namespace constexpr_hash_map

open flat_hash_map (occ holds fresh slot_holds WF probe ProbeResult hash32)

variable {K V : Type} [DecidableEq K]

theorem fresh_of_call_none {hash_func_ : K → Nat} {m : constexpr_hash_map K V}
    (hb : Built hash_func_ m) {k : K} {fuel : Nat}
    (h : call hash_func_ fuel m k = some none) : fresh (to_flat m) k := by
  intro j v hj
  rw [call_eq_probe] at h
  have hc : (to_flat m).capacity_ = capacity m.N := rfl
  rcases flat_hash_map.probe_none_or_found hb.wf hj (hb.dib_lt j hj.1 hj.2.1) fuel with hp | hp
  · rw [hc] at hp
    rw [hp] at h
    simp at h
  · rw [hc] at hp
    rw [hp] at h
    simp [call_of_probe] at h

end constexpr_hash_map

open flat_hash_map (occ holds fresh slot_holds WF probe ProbeResult hash32 example_hash
  example_map example_map_reachable)

/-- C19: in a reachable state of the dynamic map and in a constructed fixed map, when the
probe for `k` from its ideal bucket ends, with displacement counter `d`, at a slot `i` that
is empty or whose resident has a displacement smaller than `d`, then `i` is the slot `d`
steps after the ideal bucket, no slot of the table stores the key `k`, and the lookup
returns `end()` (dynamic map) or `std::nullopt` (fixed map); conversely a lookup that
returns `end()` or `std::nullopt` means that no slot stores `k`. -/
theorem C19_early_termination {K V : Type} [DecidableEq K] [Inhabited K] [Inhabited V]
    [flat_hash_map.kv_slot_layout K V]
    (hash_func_ : K → Nat) (m : flat_hash_map K V) (l : List (K × V)) (fuel0 : Nat)
    (cm : constexpr_hash_map K V) (k : K) (fuel : Nat)
    (hm : flat_hash_map.Reachable hash_func_ m) (h1 : 1 ≤ l.length)
    (hN : l.length * 8 / 7 < 2 ^ 32)
    (hcm : constexpr_hash_map.construct hash_func_ fuel0 l = some (Except.ok cm)) :
    (0 < m.capacity_ → ∀ i d f,
      (probe m k (hash32 hash_func_ k) fuel (bucket (hash32 hash_func_ k) m.capacity_) 0 =
          some (ProbeResult.vacant i d f) ∨
        probe m k (hash32 hash_func_ k) fuel (bucket (hash32 hash_func_ k) m.capacity_) 0 =
          some (ProbeResult.richer i d f)) →
      i = (bucket (hash32 hash_func_ k) m.capacity_ + d) % m.capacity_ ∧
        ((m.ctrl_slots i).is_empty = true ∨ (m.ctrl_slots i).dib < d) ∧ fresh m k ∧
        flat_hash_map.find hash_func_ fuel m k = some (flat_hash_map.end_ m)) ∧
      (flat_hash_map.find hash_func_ fuel m k = some (flat_hash_map.end_ m) → fresh m k) ∧
      (∀ i d f,
        (probe (constexpr_hash_map.to_flat cm) k (hash32 hash_func_ k) fuel
            (bucket (hash32 hash_func_ k) (constexpr_hash_map.capacity cm.N)) 0 =
            some (ProbeResult.vacant i d f) ∨
          probe (constexpr_hash_map.to_flat cm) k (hash32 hash_func_ k) fuel
            (bucket (hash32 hash_func_ k) (constexpr_hash_map.capacity cm.N)) 0 =
            some (ProbeResult.richer i d f)) →
        i = (bucket (hash32 hash_func_ k) (constexpr_hash_map.capacity cm.N) + d) %
            constexpr_hash_map.capacity cm.N ∧
          ((cm.ctrl_slots_ i).is_empty = true ∨ (cm.ctrl_slots_ i).dib < d) ∧
          fresh (constexpr_hash_map.to_flat cm) k ∧
          constexpr_hash_map.call hash_func_ fuel cm k = some none) ∧
      (constexpr_hash_map.call hash_func_ fuel cm k = some none →
        fresh (constexpr_hash_map.to_flat cm) k) := by
  have hinv := flat_hash_map.inv_of_reachable hm
  obtain ⟨_, hb, hmN, _, _⟩ := constexpr_hash_map.construct_any hN hcm
  have hc := constexpr_hash_map.capacity_eq hN
  have hc0 : 0 < constexpr_hash_map.capacity cm.N := by rw [hmN, hc]; omega
  refine ⟨fun h0 i d f hr => ?_, flat_hash_map.fresh_of_find_end hinv.wf
    (flat_hash_map.inv_dib_bound hinv), fun i d f hr => ?_,
    constexpr_hash_map.fresh_of_call_none hb⟩
  · obtain ⟨h2, h3, h4⟩ := flat_hash_map.early_stop_sound hinv.wf h0
      (flat_hash_map.inv_dib_bound hinv) k fuel i d f hr
    refine ⟨h2, h3, h4, ?_⟩
    unfold flat_hash_map.find
    rw [if_neg (by omega), flat_hash_map.find_loop_eq_probe]
    rcases hr with hr | hr <;> rw [hr] <;> rfl
  · obtain ⟨h2, h3, h4⟩ := flat_hash_map.early_stop_sound hb.wf hc0 hb.dib_lt k fuel i d f hr
    refine ⟨h2, h3, h4, ?_⟩
    rw [constexpr_hash_map.call_eq_probe]
    rcases hr with hr | hr <;> rw [hr] <;> rfl

/-- C19 at a concrete input: the key 5 is probed in the four-pair dynamic map and in the
full fixed map of the four entries. -/
theorem C19_witness :
    flat_hash_map.Reachable example_hash example_map ∧
      1 ≤ constexpr_hash_map.example_fixed_pairs.length ∧
      constexpr_hash_map.example_fixed_pairs.length * 8 / 7 < 2 ^ 32 ∧
      constexpr_hash_map.construct example_hash 8 constexpr_hash_map.example_fixed_pairs =
        some (Except.ok constexpr_hash_map.example_fixed_map) ∧
      probe example_map 5 (hash32 example_hash 5) 8
        (bucket (hash32 example_hash 5) example_map.capacity_) 0 =
        some (ProbeResult.vacant 5 0 7) ∧
      probe (constexpr_hash_map.to_flat constexpr_hash_map.example_fixed_map) 5
        (hash32 example_hash 5) 8
        (bucket (hash32 example_hash 5)
          (constexpr_hash_map.capacity constexpr_hash_map.example_fixed_map.N)) 0 =
        some (ProbeResult.richer 0 2 5) ∧
      fresh example_map 5 ∧
      fresh (constexpr_hash_map.to_flat constexpr_hash_map.example_fixed_map) 5 :=
  ⟨example_map_reachable, by decide, by decide, constexpr_hash_map.example_fixed_map_eq,
    rfl, rfl,
    ((C19_early_termination example_hash example_map constexpr_hash_map.example_fixed_pairs 8
      constexpr_hash_map.example_fixed_map 5 8 example_map_reachable (by decide) (by decide)
      constexpr_hash_map.example_fixed_map_eq).1 (by decide) 5 0 7 (Or.inl rfl)).2.2.1,
    ((C19_early_termination example_hash example_map constexpr_hash_map.example_fixed_pairs 8
      constexpr_hash_map.example_fixed_map 5 8 example_map_reachable (by decide) (by decide)
      constexpr_hash_map.example_fixed_map_eq).2.2.1 0 2 5 (Or.inr rfl)).2.2.1⟩

end ineffa


/-! ## Iteration -/

namespace ineffa

namespace flat_hash_map

variable {K V : Type} [DecidableEq K] [kv_slot_layout K V]

/-- The loop of `skip_empty` stops at the first occupied slot at or after `idx`, or at the
capacity when there is none. -/
theorem skip_empty_loop_spec (m : flat_hash_map K V) (hcap : m.capacity_ < 2 ^ 32) :
    ∀ n idx, idx + n = m.capacity_ →
      idx ≤ skip_empty_loop m n idx ∧ skip_empty_loop m n idx ≤ m.capacity_ ∧
        (∀ i, idx ≤ i → i < skip_empty_loop m n idx → ¬ occ m i) ∧
        (skip_empty_loop m n idx < m.capacity_ → occ m (skip_empty_loop m n idx)) := by
  intro n
  induction n with
  | zero =>
    intro idx h
    simp only [skip_empty_loop]
    exact ⟨Nat.le_refl _, by omega, fun i h1 h2 => by omega, fun h1 => by omega⟩
  | succ n ih =>
    intro idx h
    unfold skip_empty_loop
    by_cases hc : idx < m.capacity_ ∧ (m.ctrl_slots idx).is_empty = true
    · rw [if_pos hc, u32_of_lt (by omega)]
      obtain ⟨h1, h2, h3, h4⟩ := ih (idx + 1) (by omega)
      refine ⟨by omega, h2, fun i hi1 hi2 => ?_, h4⟩
      by_cases hi : i = idx
      · rw [hi]
        exact (is_empty_iff m idx).1 hc.2
      · exact h3 i (by omega) hi2
    · rw [if_neg hc]
      refine ⟨Nat.le_refl _, by omega, fun i h1 h2 => by omega, fun h1 => ?_⟩
      by_contra hno
      exact hc ⟨h1, (is_empty_iff m idx).2 hno⟩

theorem skip_empty_spec (m : flat_hash_map K V) (hcap : m.capacity_ < 2 ^ 32) {idx : Nat}
    (hidx : idx ≤ m.capacity_) :
    idx ≤ skip_empty m idx ∧ skip_empty m idx ≤ m.capacity_ ∧
      (∀ i, idx ≤ i → i < skip_empty m idx → ¬ occ m i) ∧
      (skip_empty m idx < m.capacity_ → occ m (skip_empty m idx)) :=
  skip_empty_loop_spec m hcap (m.capacity_ - idx) idx (by omega)

theorem filter_range_skip (m : flat_hash_map K V) :
    ∀ d idx j, idx + d = j → j ≤ m.capacity_ → (∀ i, idx ≤ i → i < j → ¬ occ m i) →
      (List.range' idx (m.capacity_ - idx)).filter (fun i => !(m.ctrl_slots i).is_empty) =
        (List.range' j (m.capacity_ - j)).filter (fun i => !(m.ctrl_slots i).is_empty) := by
  intro d
  induction d with
  | zero =>
    intro idx j h _ _
    rw [← h, Nat.add_zero]
  | succ d ih =>
    intro idx j h hj hno
    obtain ⟨n, hn⟩ : ∃ n, m.capacity_ - idx = n + 1 := ⟨m.capacity_ - idx - 1, by omega⟩
    have hn1 : n = m.capacity_ - (idx + 1) := by omega
    rw [hn, List.range'_succ, List.filter_cons_of_neg, hn1]
    · exact ih (idx + 1) j (by omega) hj (fun i h1 h2 => hno i (by omega) h2)
    · have := (is_empty_iff m idx).2 (hno idx (Nat.le_refl _) (by omega))
      simp [this]

theorem traverse_loop_spec (m : flat_hash_map K V) (hcap : m.capacity_ < 2 ^ 32) :
    ∀ n it fuel, it + n = m.capacity_ → (it < m.capacity_ → occ m it) →
      ((List.range' it (m.capacity_ - it)).filter
        (fun i => !(m.ctrl_slots i).is_empty)).length < fuel →
      traverse_loop m fuel it =
        some ((List.range' it (m.capacity_ - it)).filter
          (fun i => !(m.ctrl_slots i).is_empty)) := by
  intro n
  induction n using Nat.strong_induction_on with
  | _ n ih =>
    intro it fuel h hocc hfuel
    obtain ⟨f, rfl⟩ : ∃ f, fuel = f + 1 := ⟨fuel - 1, by omega⟩
    unfold traverse_loop
    rw [end_eq]
    by_cases hend : it = m.capacity_
    · rw [if_pos hend, hend, Nat.sub_self]
      rfl
    · rw [if_neg hend]
      have hlt : it < m.capacity_ := by omega
      have ho := hocc hlt
      obtain ⟨h1, h2, h3, h4⟩ := skip_empty_spec m hcap (show it + 1 ≤ m.capacity_ by omega)
      have hnext : iterator_next m it = skip_empty m (it + 1) := by
        unfold iterator_next
        rw [u32_of_lt (by omega)]
      obtain ⟨c, hc⟩ : ∃ c, m.capacity_ - it = c + 1 := ⟨m.capacity_ - it - 1, by omega⟩
      have hc1 : c = m.capacity_ - (it + 1) := by omega
      have hie : (!(m.ctrl_slots it).is_empty) = true := by
        have : ¬ ((m.ctrl_slots it).is_empty = true) := fun h => (is_empty_iff m it).1 h ho
        simpa using this
      have hsplit : (List.range' it (m.capacity_ - it)).filter
            (fun i => !(m.ctrl_slots i).is_empty) =
          it :: (List.range' (skip_empty m (it + 1)) (m.capacity_ - skip_empty m (it + 1))).filter
            (fun i => !(m.ctrl_slots i).is_empty) := by
        rw [hc, List.range'_succ, List.filter_cons, if_pos hie, hc1]
        congr 1
        exact filter_range_skip m (skip_empty m (it + 1) - (it + 1)) (it + 1) _ (by omega) h2 h3
      rw [hsplit] at hfuel ⊢
      rw [hnext]
      have := ih (m.capacity_ - skip_empty m (it + 1)) (by omega) (skip_empty m (it + 1)) f
        (by omega) h4 (by simpa using hfuel)
      rw [this]
      rfl

theorem occupied_slots_length (m : flat_hash_map K V) :
    (occupied_slots m).length = occupied_count m := by
  unfold occupied_slots occupied_count
  rw [List.countP_eq_length_filter]

theorem traverse_spec (m : flat_hash_map K V) (hcap : m.capacity_ < 2 ^ 32) {fuel : Nat}
    (hfuel : occupied_count m + 1 ≤ fuel) : traverse fuel m = some (occupied_slots m) := by
  have hb : begin_ m = skip_empty m 0 := by
    unfold begin_ iterator
    by_cases h0 : 0 < m.capacity_
    · rw [if_pos h0]
    · rw [if_neg h0]
      have hc : m.capacity_ = 0 := by omega
      simp [skip_empty, hc, skip_empty_loop]
  obtain ⟨h1, h2, h3, h4⟩ := skip_empty_spec m hcap (Nat.zero_le m.capacity_)
  have hskip := filter_range_skip m (skip_empty m 0) 0 (skip_empty m 0) (by omega) h2
    (fun i hi1 hi2 => h3 i hi1 hi2)
  have hocc : occupied_slots m =
      (List.range' (skip_empty m 0) (m.capacity_ - skip_empty m 0)).filter
        (fun i => !(m.ctrl_slots i).is_empty) := by
    rw [← hskip, Nat.sub_zero, ← List.range_eq_range']
    rfl
  unfold traverse
  rw [hb, hocc]
  apply traverse_loop_spec m hcap (m.capacity_ - skip_empty m 0) _ fuel (by omega) h4
  rw [← hocc, occupied_slots_length]
  omega

theorem mem_occupied_slots (m : flat_hash_map K V) (i : Nat) :
    i ∈ occupied_slots m ↔ i < m.capacity_ ∧ occ m i := by
  unfold occupied_slots
  rw [List.mem_filter, List.mem_range]
  constructor
  · rintro ⟨h1, h2⟩
    refine ⟨h1, ?_⟩
    by_contra hno
    have := (is_empty_iff m i).2 hno
    simp [this] at h2
  · rintro ⟨h1, h2⟩
    refine ⟨h1, ?_⟩
    have : ¬ ((m.ctrl_slots i).is_empty = true) := fun h => (is_empty_iff m i).1 h h2
    simpa using this

theorem occupied_slots_sorted (m : flat_hash_map K V) :
    (occupied_slots m).Pairwise (fun a b => a < b) :=
  List.Pairwise.sublist (List.filter_sublist _) (List.pairwise_lt_range _)

theorem begin_eq_end_of_no_occ (m : flat_hash_map K V) (hcap : m.capacity_ < 2 ^ 32)
    (hno : ∀ i, i < m.capacity_ → ¬ occ m i) : begin_ m = end_ m := by
  rw [end_eq]
  unfold begin_ iterator
  by_cases h0 : 0 < m.capacity_
  · rw [if_pos h0]
    obtain ⟨h1, h2, h3, h4⟩ := skip_empty_spec m hcap (Nat.zero_le m.capacity_)
    by_contra hne
    have hlt : skip_empty m 0 < m.capacity_ := by omega
    exact hno _ hlt (h4 hlt)
  · rw [if_neg h0]
    omega

theorem no_occ_of_count_zero (m : flat_hash_map K V) (h : occupied_count m = 0) :
    ∀ i, i < m.capacity_ → ¬ occ m i := by
  intro i hi hocc
  have hmem := (mem_occupied_slots m i).2 ⟨hi, hocc⟩
  have hlen := occupied_slots_length m
  rw [h] at hlen
  rw [List.length_eq_zero.1 hlen] at hmem
  exact absurd hmem (List.not_mem_nil _)

/-- C15: on a reachable map the loop from `begin()` to `end()` with `operator++` returns;
the positions it visits are exactly the occupied slots, each once, in strictly increasing
slot index; each of them stores an entry; their number is `size()`; and `begin() == end()`
when the map is empty. -/
theorem C15_iteration [Inhabited V] (hash_func_ : K → Nat) (m : flat_hash_map K V)
    (fuel : Nat) (hm : Reachable hash_func_ m) (hfuel : size m + 1 ≤ fuel) :
    ∃ its, traverse fuel m = some its ∧
      (∀ i, i ∈ its ↔ (i < capacity m ∧ (m.ctrl_slots i).is_empty = false)) ∧
      its.Pairwise (fun a b => a < b) ∧ its.Nodup ∧ its.length = size m ∧
      (∀ i, i ∈ its → ∃ k v, deref m i = some (k, v) ∧ holds m k v) ∧
      (∀ k v, holds m k v → ∃ i, i ∈ its ∧ deref m i = some (k, v)) ∧
      (size m = 0 → begin_ m = end_ m) := by
  have hinv := inv_of_reachable hm
  have hcap := hinv.wf.cap_lt
  have hsz : m.size_ = occupied_count m := hinv.size_eq
  refine ⟨occupied_slots m, traverse_spec m hcap (by rw [← hsz]; exact hfuel), fun i => ?_,
    occupied_slots_sorted m, ?_, ?_, fun i hi => ?_, fun k v h => ?_, fun h0 => ?_⟩
  · rw [mem_occupied_slots]
    constructor
    · rintro ⟨h1, h2⟩
      refine ⟨h1, ?_⟩
      cases h : (m.ctrl_slots i).is_empty with
      | false => rfl
      | true => exact absurd h2 ((is_empty_iff m i).1 h)
    · rintro ⟨h1, h2⟩
      refine ⟨h1, ?_⟩
      by_contra hno
      rw [(is_empty_iff m i).2 hno] at h2
      exact absurd h2 (by simp)
  · exact (occupied_slots_sorted m).imp (fun h => Nat.ne_of_lt h)
  · rw [occupied_slots_length]
    exact hsz.symm
  · obtain ⟨h1, h2⟩ := (mem_occupied_slots m i).1 hi
    obtain ⟨k, v, hkv, _, _⟩ := hinv.wf.slot_ok i h1 h2
    exact ⟨k, v, hkv, i, h1, h2, hkv⟩
  · obtain ⟨i, hi⟩ := h
    exact ⟨i, (mem_occupied_slots m i).2 ⟨hi.1, hi.2.1⟩, hi.2.2⟩
  · have h1 : m.size_ = 0 := h0
    exact begin_eq_end_of_no_occ m hcap (no_occ_of_count_zero m (by rw [← hsz]; exact h1))

/-- C15 at a concrete input: the four-pair map, whose occupied slots are 1, 2, 3, 4. -/
theorem C15_witness :
    Reachable example_hash example_map ∧ size example_map + 1 ≤ 5 ∧
      traverse 5 example_map = some [1, 2, 3, 4] ∧
      ∃ its, traverse 5 example_map = some its ∧
        (∀ i, i ∈ its ↔ (i < capacity example_map ∧
          (example_map.ctrl_slots i).is_empty = false)) ∧
        its.Pairwise (fun a b => a < b) ∧ its.Nodup ∧ its.length = size example_map ∧
        (∀ i, i ∈ its → ∃ k v, deref example_map i = some (k, v) ∧ holds example_map k v) ∧
        (∀ k v, holds example_map k v → ∃ i, i ∈ its ∧ deref example_map i = some (k, v)) ∧
        (size example_map = 0 → begin_ example_map = end_ example_map) :=
  ⟨example_map_reachable, by decide, by decide,
    C15_iteration example_hash example_map 5 example_map_reachable (by decide)⟩

end flat_hash_map

end ineffa


/-! ## The initializer-list constructor on lists with repeated keys -/

namespace ineffa

namespace flat_hash_map

variable {K V : Type} [DecidableEq K] [kv_slot_layout K V]

end flat_hash_map

end ineffa


/-! ## The Robin Hood ordering -/

namespace ineffa

namespace flat_hash_map

variable {K V : Type} [DecidableEq K] [kv_slot_layout K V]

theorem example_dip_map_eq :
    insert_all example_hash 16 empty example_dip_pairs = some example_dip_map :=
  rfl

theorem example_dip_map_reachable : Reachable example_hash example_dip_map :=
  reachable_insert_all example_hash 16 example_dip_pairs empty example_dip_map Reachable.empty
    (by decide) example_dip_map_eq

/-- C18, as stated, fails: after the inserts of the keys 1, 9 and 3 the slots 1, 2, 3 hold
displacements 0, 1, 0 and slot 4 is empty, so on the walk from the ideal bucket 1 of slot 2
the displacement drops from 1 to 0 before the first empty slot. -/
theorem C18_counterexample :
    Reachable example_hash example_dip_map ∧
      bucket (example_dip_map.ctrl_slots 2).hash example_dip_map.capacity_ = 1 ∧
      (example_dip_map.ctrl_slots 1).dib = 0 ∧ (example_dip_map.ctrl_slots 2).dib = 1 ∧
      (example_dip_map.ctrl_slots 3).dib = 0 ∧
      (example_dip_map.ctrl_slots 4).is_empty = true ∧ ¬ spec_ordering example_dip_map := by
  refine ⟨example_dip_map_reachable, by decide, by decide, by decide, by decide, by decide, ?_⟩
  intro h
  have h2 : occ example_dip_map 2 := by
    show (example_dip_map.ctrl_slots 2).dib ≠ EMPTY_DIB
    decide
  have := h 2 (by decide) h2 1 (fun s hs => by
    show (example_dip_map.ctrl_slots _).dib ≠ EMPTY_DIB
    interval_cases s <;> decide)
  exact absurd this (by decide)

/-- C18, amended: in a reachable state, an occupied slot `p` lies `dib` steps after the
ideal bucket of its entry, with `dib` below the capacity; every slot on the walk from that
bucket to `p` is occupied, the resident met after `t` steps has a displacement of at least
`t`, and from one slot of the walk to the next the displacement rises by at most one. -/
theorem C18_ordering_walk [Inhabited V] (hash_func_ : K → Nat) (m : flat_hash_map K V)
    (p : Nat) (hm : Reachable hash_func_ m) (hp : p < capacity m) (hocc : occ m p) :
    (m.ctrl_slots p).dib < capacity m ∧
      (bucket (m.ctrl_slots p).hash m.capacity_ + (m.ctrl_slots p).dib) % m.capacity_ = p ∧
      (∀ t, t ≤ (m.ctrl_slots p).dib →
        occ m ((bucket (m.ctrl_slots p).hash m.capacity_ + t) % m.capacity_) ∧
          t ≤ (m.ctrl_slots
            ((bucket (m.ctrl_slots p).hash m.capacity_ + t) % m.capacity_)).dib) ∧
      (∀ t, t < (m.ctrl_slots p).dib →
        (m.ctrl_slots ((bucket (m.ctrl_slots p).hash m.capacity_ + (t + 1)) % m.capacity_)).dib
          ≤ (m.ctrl_slots
            ((bucket (m.ctrl_slots p).hash m.capacity_ + t) % m.capacity_)).dib + 1) := by
  have hinv := inv_of_reachable hm
  have hwf := hinv.wf
  have hp1 : p < m.capacity_ := hp
  have h0 : 0 < m.capacity_ := by omega
  have hbd := inv_dib_bound hinv p hp1 hocc
  obtain ⟨k, v, _, _, hpos⟩ := hwf.slot_ok p hp1 hocc
  have hchain : ∀ t, t ≤ (m.ctrl_slots p).dib →
      occ m ((bucket (m.ctrl_slots p).hash m.capacity_ + t) % m.capacity_) ∧
        t ≤ (m.ctrl_slots
          ((bucket (m.ctrl_slots p).hash m.capacity_ + t) % m.capacity_)).dib :=
    fun t ht => chain_at hwf h0 (bucket (m.ctrl_slots p).hash m.capacity_)
      (m.ctrl_slots p).dib t ht (by rw [hpos]; exact hocc) (by rw [hpos])
  refine ⟨by show _ < m.capacity_; omega, hpos, hchain, fun t ht => ?_⟩
  have h1 := hchain (t + 1) (by omega)
  have hn : next_idx m.capacity_
      ((bucket (m.ctrl_slots p).hash m.capacity_ + t) % m.capacity_) =
      (bucket (m.ctrl_slots p).hash m.capacity_ + (t + 1)) % m.capacity_ := by
    rw [next_idx_mod _ h0 hwf.cap_lt]
    rfl
  have := hwf.order ((bucket (m.ctrl_slots p).hash m.capacity_ + t) % m.capacity_)
    (Nat.mod_lt _ h0) (by rw [hn]; exact h1.1) (by rw [hn]; omega)
  rw [hn] at this
  exact this.2

/-- C18 (amended) at a concrete input: slot 2 of the three-pair map, one step after its
ideal bucket 1. -/
theorem C18_witness :
    Reachable example_hash example_dip_map ∧ 2 < capacity example_dip_map ∧
      occ example_dip_map 2 ∧
      (example_dip_map.ctrl_slots 2).dib < capacity example_dip_map ∧
      (bucket (example_dip_map.ctrl_slots 2).hash example_dip_map.capacity_ +
        (example_dip_map.ctrl_slots 2).dib) % example_dip_map.capacity_ = 2 ∧
      (∀ t, t ≤ (example_dip_map.ctrl_slots 2).dib →
        occ example_dip_map
            ((bucket (example_dip_map.ctrl_slots 2).hash example_dip_map.capacity_ + t) %
              example_dip_map.capacity_) ∧
          t ≤ (example_dip_map.ctrl_slots
            ((bucket (example_dip_map.ctrl_slots 2).hash example_dip_map.capacity_ + t) %
              example_dip_map.capacity_)).dib) ∧
      (∀ t, t < (example_dip_map.ctrl_slots 2).dib →
        (example_dip_map.ctrl_slots
            ((bucket (example_dip_map.ctrl_slots 2).hash example_dip_map.capacity_ + (t + 1)) %
              example_dip_map.capacity_)).dib
          ≤ (example_dip_map.ctrl_slots
            ((bucket (example_dip_map.ctrl_slots 2).hash example_dip_map.capacity_ + t) %
              example_dip_map.capacity_)).dib + 1) :=
  ⟨example_dip_map_reachable, by decide,
    (by show (example_dip_map.ctrl_slots 2).dib ≠ EMPTY_DIB; decide),
    C18_ordering_walk example_hash example_dip_map 2 example_dip_map_reachable (by decide)
      (by show (example_dip_map.ctrl_slots 2).dib ≠ EMPTY_DIB; decide)⟩

end flat_hash_map

end ineffa


/-! ## Growth, the shared probe rule, termination -/

namespace ineffa

namespace flat_hash_map

variable {K V : Type} [DecidableEq K] [kv_slot_layout K V]

theorem try_emplace_total {hash_func_ : K → Nat} {m : flat_hash_map K V}
    (hinv : Inv hash_func_ m) (hg : m.capacity_ * 7 < 2 ^ 32) {fuel : Nat}
    (hfuel : grown_capacity m ≤ fuel) (hfit : grow_fits m = true) (k : K) (v : V) :
    ∃ r, try_emplace hash_func_ fuel m k v = some r ∧ r.1.capacity_ = grown_capacity m := by
  rcases fresh_or_holds m k with hf | ⟨v0, hv0⟩
  · obtain ⟨m1, i, h1, _, h2, _⟩ := try_emplace_absent hinv hg hfuel hfit hf v
    exact ⟨_, h1, h2⟩
  · obtain ⟨m1, i, h1, _, h2, _⟩ := try_emplace_present hinv hg hfuel hfit hv0 v
    exact ⟨_, h1, h2⟩

theorem erase_total {hash_func_ : K → Nat} {m : flat_hash_map K V}
    (hinv : Inv hash_func_ m) {fuel : Nat} (hfuel : m.capacity_ ≤ fuel) (k : K) :
    ∃ r, erase hash_func_ fuel m k = some r := by
  rcases fresh_or_holds m k with hf | ⟨v0, p, hp⟩
  · exact ⟨_, erase_absent hinv hf hfuel⟩
  · obtain ⟨m1, h1, _⟩ := erase_present hinv hp hfuel
    exact ⟨_, h1⟩

theorem find_total {hash_func_ : K → Nat} {m : flat_hash_map K V}
    (hinv : Inv hash_func_ m) {fuel : Nat} (hfuel : m.capacity_ ≤ fuel) (k : K) :
    ∃ it, find hash_func_ fuel m k = some it := by
  rcases find_spec hinv k hfuel with ⟨p, _, _, h⟩ | ⟨_, h⟩
  · exact ⟨_, h⟩
  · exact ⟨_, h⟩

theorem grown_capacity_eq {m : flat_hash_map K V} (hg : m.capacity_ * 7 < 2 ^ 32) :
    grown_capacity m =
      if m.capacity_ * 7 / 8 ≤ m.size_ then (if m.capacity_ = 0 then 8 else m.capacity_ * 3 / 2)
      else m.capacity_ := by
  unfold grown_capacity
  rw [u32_of_lt hg, u32_of_lt (by omega)]

theorem grow_if_needed_eq (fuel : Nat) {m : flat_hash_map K V} (hg : m.capacity_ * 7 < 2 ^ 32) :
    grow_if_needed fuel m =
      if m.capacity_ * 7 / 8 ≤ m.size_ then
        rehash fuel m (if m.capacity_ = 0 then 8 else m.capacity_ * 3 / 2)
      else some m := by
  unfold grow_if_needed
  rw [u32_of_lt hg, u32_of_lt (by omega)]

/-- C22: on a reachable map `find(k)` and `erase(k)` return, `erase(k)` returns 1 exactly
when `find(k)` is not `end()`, and then `erase` destroys the slot `find` returns and runs its
backward shift from there; both are the same probe sequence, which stops at an empty slot or
at a resident whose displacement is smaller than the number of steps taken. -/
theorem C22_same_probe [Inhabited V] (hash_func_ : K → Nat) (m : flat_hash_map K V) (k : K)
    (fuel : Nat) (hm : Reachable hash_func_ m) (hfuel : capacity m ≤ fuel) :
    ∃ it r, find hash_func_ fuel m k = some it ∧ erase hash_func_ fuel m k = some r ∧
      (r.2 = 1 ↔ it ≠ end_ m) ∧ (r.2 = 0 ↔ it = end_ m) ∧
      (it ≠ end_ m → it < capacity m ∧ occ m it ∧ ¬ occ (destroy_kv m it) it ∧
        erase hash_func_ fuel m k = erase_of_probe fuel m (ProbeResult.found it)) ∧
      (it = end_ m → r.1 = m) ∧
      (0 < capacity m →
        ∃ p, probe m k (hash32 hash_func_ k) fuel
            (bucket (hash32 hash_func_ k) m.capacity_) 0 = some p ∧
          it = find_of_probe m p ∧ some r = erase_of_probe fuel m p) ∧
      (∀ h fl fs idx dib,
        find_loop m k h fl idx dib = (probe m k h fl idx dib).map (find_of_probe m) ∧
          erase_loop fs m k h fl idx dib =
            (probe m k h fl idx dib).bind (erase_of_probe fs m)) := by
  have hinv := inv_of_reachable hm
  have hfuel1 : m.capacity_ ≤ fuel := hfuel
  have hloops : ∀ h fl fs idx dib,
      find_loop m k h fl idx dib = (probe m k h fl idx dib).map (find_of_probe m) ∧
        erase_loop fs m k h fl idx dib =
          (probe m k h fl idx dib).bind (erase_of_probe fs m) :=
    fun h fl fs idx dib => ⟨find_loop_eq_probe m k h fl idx dib,
      erase_loop_eq_probe fs m k h fl idx dib⟩
  by_cases h0 : m.capacity_ = 0
  · refine ⟨end_ m, (m, 0), by unfold find; rw [if_pos h0], by unfold erase; rw [if_pos h0],
      by simp, by simp, fun h => absurd rfl h, fun _ => rfl, fun h => ?_, hloops⟩
    have : 0 < m.capacity_ := h
    omega
  · have hwf := hinv.wf
    obtain ⟨e, he, hempty⟩ := inv_has_empty hinv h0
    have hfe : find hash_func_ fuel m k =
        (probe m k (hash32 hash_func_ k) fuel
          (bucket (hash32 hash_func_ k) m.capacity_) 0).map (find_of_probe m) := by
      unfold find
      rw [if_neg h0, find_loop_eq_probe]
    have hee : erase hash_func_ fuel m k =
        (probe m k (hash32 hash_func_ k) fuel
          (bucket (hash32 hash_func_ k) m.capacity_) 0).bind (erase_of_probe fuel m) := by
      unfold erase
      rw [if_neg h0, erase_loop_eq_probe]
    rcases fresh_or_holds m k with hf | ⟨v0, p, hp⟩
    · have hfind := find_absent hwf (Or.inr ⟨e, he, hempty⟩) hf hfuel1
      have herase := erase_absent hinv hf hfuel1
      refine ⟨m.capacity_, (m, 0), hfind, herase, ?_, ?_, ?_, fun _ => rfl, fun _ => ?_, hloops⟩
      · rw [end_eq]
        simp
      · rw [end_eq]
        simp
      · rw [end_eq]
        exact fun h => absurd rfl h
      · rw [hfind] at hfe
        rw [herase] at hee
        cases hpr : probe m k (hash32 hash_func_ k) fuel
            (bucket (hash32 hash_func_ k) m.capacity_) 0 with
        | none => rw [hpr] at hfe; simp at hfe
        | some pr =>
          rw [hpr] at hfe hee
          simp only [Option.map_some', Option.some.injEq] at hfe
          simp only [Option.some_bind] at hee
          exact ⟨pr, rfl, hfe, hee⟩
    · have hfind := find_present hwf he hempty hp hfuel1
      have hpr := probe_found hwf he hempty hp hfuel1
      obtain ⟨m1, herase, _⟩ := erase_present hinv hp hfuel1
      have hpe : p ≠ end_ m := by
        rw [end_eq]
        have := hp.1
        omega
      refine ⟨p, (m1, 1), hfind, herase, ?_, ?_, fun _ => ⟨hp.1, hp.2.1, ?_, ?_⟩,
        fun h => absurd h hpe,
        fun _ => ⟨_, hpr, (iterator_occ m hp.1 hp.2.1).symm, ?_⟩, hloops⟩
      · simp [hpe]
      · simp [hpe]
      · rw [occ_destroy_kv]
        exact fun h => h.1 rfl
      · rw [hee, hpr]
        rfl
      · rw [← herase, hee, hpr]
        rfl

/-- C22 at a concrete input: the key 9, which sits one slot after its ideal bucket. -/
theorem C22_witness :
    Reachable example_hash example_map ∧ capacity example_map ≤ 8 ∧
      find example_hash 8 example_map 9 = some 2 ∧
      ∃ it r, find example_hash 8 example_map 9 = some it ∧
        erase example_hash 8 example_map 9 = some r ∧
        (r.2 = 1 ↔ it ≠ end_ example_map) ∧ (r.2 = 0 ↔ it = end_ example_map) ∧
        (it ≠ end_ example_map → it < capacity example_map ∧ occ example_map it ∧
          ¬ occ (destroy_kv example_map it) it ∧
          erase example_hash 8 example_map 9 =
            erase_of_probe 8 example_map (ProbeResult.found it)) ∧
        (it = end_ example_map → r.1 = example_map) ∧
        (0 < capacity example_map →
          ∃ p, probe example_map 9 (hash32 example_hash 9) 8
              (bucket (hash32 example_hash 9) example_map.capacity_) 0 = some p ∧
            it = find_of_probe example_map p ∧ some r = erase_of_probe 8 example_map p) ∧
        (∀ h fl fs idx dib,
          find_loop example_map 9 h fl idx dib =
              (probe example_map 9 h fl idx dib).map (find_of_probe example_map) ∧
            erase_loop fs example_map 9 h fl idx dib =
              (probe example_map 9 h fl idx dib).bind (erase_of_probe fs example_map)) :=
  ⟨example_map_reachable, by decide, by decide,
    C22_same_probe example_hash example_map 9 8 example_map_reachable (by decide)⟩

/-- C23: in a reachable state with positive capacity the size is below the capacity and
some control slot is empty; with as much fuel as the table has slots, that is with at most
`capacity` loop iterations for each loop, `find` and `erase` (search loop and backward
shift) return, and so does `try_emplace` (search loop and displaced-resident loop) on the
table it probes, whose capacity is the old one unless the call grows the table; when it
grows the table, this is said for a grown buffer whose 32-bit byte size holds its slots. -/
theorem C23_termination [Inhabited V] (hash_func_ : K → Nat) (m : flat_hash_map K V) (k : K)
    (v : V) (hm : Reachable hash_func_ m) (h0 : 0 < capacity m) :
    size m < capacity m ∧ (∃ e, e < capacity m ∧ (m.ctrl_slots e).is_empty = true) ∧
      (∃ it, find hash_func_ (capacity m) m k = some it) ∧
      (∃ it, find_loop m k (hash32 hash_func_ k) (capacity m)
        (bucket (hash32 hash_func_ k) (capacity m)) 0 = some it) ∧
      (∃ r, erase hash_func_ (capacity m) m k = some r) ∧
      (∃ r, erase_loop (capacity m) m k (hash32 hash_func_ k) (capacity m)
        (bucket (hash32 hash_func_ k) (capacity m)) 0 = some r) ∧
      (capacity m * 7 < 2 ^ 32 →
        (grow_fits m = true →
          ∃ r, try_emplace hash_func_ (grown_capacity m) m k v = some r ∧
            capacity r.1 = grown_capacity m) ∧
        (size m < capacity m * 7 / 8 →
          grown_capacity m = capacity m ∧
          ∃ r, try_emplace_loop m k v (capacity m) { hash := hash32 hash_func_ k, dib := 0 }
            (bucket (hash32 hash_func_ k) (capacity m)) = some r)) := by
  have hinv := inv_of_reachable hm
  have h1 : 0 < m.capacity_ := h0
  have hne : m.capacity_ ≠ 0 := by omega
  have hld := hinv.load
  obtain ⟨e, he, hempty⟩ := inv_has_empty hinv hne
  obtain ⟨it, hit⟩ := find_total hinv (Nat.le_refl m.capacity_) k
  obtain ⟨r, hr⟩ := erase_total hinv (Nat.le_refl m.capacity_) k
  refine ⟨by show m.size_ < m.capacity_; omega, ⟨e, he, (is_empty_iff m e).2 hempty⟩,
    ⟨it, hit⟩, ⟨it, ?_⟩, ⟨r, hr⟩, ⟨r, ?_⟩, fun hg => ⟨fun hfit => ?_, fun hlt => ?_⟩⟩
  · unfold find at hit
    rw [if_neg hne] at hit
    exact hit
  · unfold erase at hr
    rw [if_neg hne] at hr
    exact hr
  · exact try_emplace_total hinv hg (Nat.le_refl _) hfit k v
  · have hg1 : m.capacity_ * 7 < 2 ^ 32 := hg
    have hno : ¬ (m.capacity_ * 7 / 8 ≤ m.size_) := by
      have : m.size_ < m.capacity_ * 7 / 8 := hlt
      omega
    have hgc : grown_capacity m = m.capacity_ := by
      rw [grown_capacity_eq hg1, if_neg hno]
    have hno1 : ¬ (u32 (m.capacity_ * 7) / 8 ≤ m.size_) := by
      rw [u32_of_lt hg1]
      exact hno
    obtain ⟨r1, hr1, _⟩ :=
      try_emplace_total hinv hg1 (hgc ▸ Nat.le_refl m.capacity_) (grow_fits_of_lt hno1) k v
    refine ⟨hgc, r1, ?_⟩
    unfold try_emplace at hr1
    rw [grow_if_needed_eq _ hg1, if_neg hno, hgc] at hr1
    simp only [Option.some_bind] at hr1
    exact hr1

/-- C23 at a concrete input: the map of size 7 and capacity 8, on which `try_emplace`
grows the table to capacity 12. -/
theorem C23_witness :
    Reachable example_hash example_full_map ∧ 0 < capacity example_full_map ∧
      size example_full_map < capacity example_full_map ∧
      (∃ e, e < capacity example_full_map ∧ (example_full_map.ctrl_slots e).is_empty = true) ∧
      (∃ it, find example_hash (capacity example_full_map) example_full_map 100 = some it) ∧
      (∃ it, find_loop example_full_map 100 (hash32 example_hash 100)
        (capacity example_full_map)
        (bucket (hash32 example_hash 100) (capacity example_full_map)) 0 = some it) ∧
      (∃ r, erase example_hash (capacity example_full_map) example_full_map 100 = some r) ∧
      (∃ r, erase_loop (capacity example_full_map) example_full_map 100
        (hash32 example_hash 100) (capacity example_full_map)
        (bucket (hash32 example_hash 100) (capacity example_full_map)) 0 = some r) ∧
      (capacity example_full_map * 7 < 2 ^ 32 →
        (grow_fits example_full_map = true →
          ∃ r, try_emplace example_hash (grown_capacity example_full_map) example_full_map
              100 0 = some r ∧
            capacity r.1 = grown_capacity example_full_map) ∧
        (size example_full_map < capacity example_full_map * 7 / 8 →
          grown_capacity example_full_map = capacity example_full_map ∧
          ∃ r, try_emplace_loop example_full_map 100 0 (capacity example_full_map)
            { hash := hash32 example_hash 100, dib := 0 }
            (bucket (hash32 example_hash 100) (capacity example_full_map)) = some r)) :=
  ⟨example_full_map_reachable, by decide,
    C23_termination example_hash example_full_map 100 0 example_full_map_reachable (by decide)⟩

end flat_hash_map

end ineffa


/-! ## The slot invariants are kept by insertion, erase and rehash -/

namespace ineffa

theorem next_idx_eq_mod {c i : Nat} (hi : i < c) (hc : c < 2 ^ 32) :
    next_idx c i = (i + 1) % c := by
  have := next_idx_mod i (by omega : 0 < c) hc
  rwa [Nat.mod_eq_of_lt hi] at this

theorem circular_distance {b d c i : Nat} (hb : b < c) (hd : d < c) (h : (b + d) % c = i) :
    d = (i + c - b) % c := by
  by_cases hlt : b + d < c
  · rw [Nat.mod_eq_of_lt hlt] at h
    have h1 : i + c - b = d + c := by omega
    rw [h1, Nat.add_mod_right, Nat.mod_eq_of_lt hd]
  · have h2 : (b + d) % c = b + d - c := by
      rw [Nat.mod_eq_sub_mod (by omega), Nat.mod_eq_of_lt (by omega)]
    rw [h2] at h
    have h1 : i + c - b = d := by omega
    rw [h1, Nat.mod_eq_of_lt hd]

namespace flat_hash_map

variable {K V : Type} [DecidableEq K] [kv_slot_layout K V]

theorem neighbours_ok_of_WF {hash_func_ : K → Nat} {m : flat_hash_map K V}
    (hwf : WF hash_func_ m) : neighbours_ok m := by
  intro i hi hocc hpos
  rw [← next_idx_eq_mod hi hwf.cap_lt] at hocc hpos ⊢
  exact hwf.order i hi hocc hpos

theorem distance_ok_of_WF {hash_func_ : K → Nat} {m : flat_hash_map K V}
    (hwf : WF hash_func_ m)
    (hbd : ∀ i, i < m.capacity_ → occ m i → (m.ctrl_slots i).dib + 1 ≤ m.capacity_) :
    distance_ok hash_func_ m := by
  intro i hi hocc
  obtain ⟨k, v, hkv, hh, hpos⟩ := hwf.slot_ok i hi hocc
  have hb : bucket (m.ctrl_slots i).hash m.capacity_ < m.capacity_ :=
    bucket_lt (by rw [hh]; exact hash32_lt _ _) (by omega)
  have hd := hbd i hi hocc
  exact ⟨k, v, hkv, hh, hb, circular_distance hb (by omega) hpos⟩

theorem rehash_any {hash_func_ : K → Nat} {m : flat_hash_map K V} (hinv : Inv hash_func_ m)
    {fuel new_capacity : Nat} {m1 : flat_hash_map K V} (hsz : m.size_ < new_capacity)
    (hnc : new_capacity < 2 ^ 32) (h : rehash fuel m new_capacity = some m1) :
    WF hash_func_ m1 ∧ m1.capacity_ = new_capacity ∧
      ∀ i, i < m1.capacity_ → occ m1 i → (m1.ctrl_slots i).dib + 1 ≤ m1.capacity_ := by
  have hcnt : occupied_count m < new_capacity := by
    rw [← hinv.size_eq]
    exact hsz
  obtain ⟨m2, h2, hwf2, hcap2, _, hcnt2, _⟩ :=
    rehash_spec (max fuel new_capacity) m new_capacity hinv.wf hnc hcnt (Nat.le_max_right _ _)
      (fits_of_rehash h)
  have := rehash_mono fuel (max fuel new_capacity) m new_capacity m1 (Nat.le_max_left _ _) h
  rw [h2] at this
  have := Option.some.inj this
  subst this
  obtain ⟨e, he, hempty⟩ := exists_empty_of_count_lt m2 (by rw [hcnt2, hcap2]; exact hcnt)
  refine ⟨hwf2, hcap2, fun i hi hocc => ?_⟩
  have := dib_bound hwf2 he hempty hi hocc
  omega

theorem rehash_total {hash_func_ : K → Nat} {m : flat_hash_map K V} (hinv : Inv hash_func_ m)
    {new_capacity : Nat} (hsz : m.size_ < new_capacity) (hnc : new_capacity < 2 ^ 32)
    (hfit : buffer_fits K V new_capacity = true) :
    ∃ m1, rehash new_capacity m new_capacity = some m1 := by
  have hcnt : occupied_count m < new_capacity := by
    rw [← hinv.size_eq]
    exact hsz
  obtain ⟨m2, h2, _⟩ :=
    rehash_spec new_capacity m new_capacity hinv.wf hnc hcnt (Nat.le_refl _) hfit
  exact ⟨m2, h2⟩

/-- The backward shift moves each entry of the run after the hole one slot back and
decrements its displacement by one; every other slot keeps its content. -/
theorem erase_shift_trace {hash_func_ : K → Nat} :
    ∀ (n fuel : Nat) (m : flat_hash_map K V) (idx dh : Nat),
      Hole hash_func_ m idx dh → n < fuel → n + 1 < m.capacity_ →
      ¬ occ m ((next_idx m.capacity_)^[n + 1] idx) →
      ∃ m1, erase_shift fuel m idx = some m1 ∧
        (∀ i, (∀ s, s ≤ n → i ≠ (next_idx m.capacity_)^[s] idx) →
          m1.ctrl_slots i = m.ctrl_slots i ∧ m1.kv_slots i = m.kv_slots i) ∧
        (∀ i, i < m.capacity_ → occ m1 i → stays_or_moves_back m m1 i) := by
  intro n
  induction n with
  | zero =>
    intro fuel m idx dh h hf _ hempty
    obtain ⟨f, rfl⟩ : ∃ f, fuel = f + 1 := ⟨fuel - 1, by omega⟩
    unfold erase_shift
    rw [Function.iterate_succ_apply, Function.iterate_zero_apply] at hempty
    rw [if_pos (Or.inl ((is_empty_iff m _).2 hempty))]
    exact ⟨m, rfl, fun i _ => ⟨rfl, rfl⟩, fun i _ _ => Or.inl ⟨rfl, rfl⟩⟩
  | succ n ih =>
    intro fuel m idx dh h hf hc hempty
    obtain ⟨f, rfl⟩ : ∃ f, fuel = f + 1 := ⟨fuel - 1, by omega⟩
    unfold erase_shift
    by_cases hs : (m.ctrl_slots (next_idx m.capacity_ idx)).is_empty = true ∨
        (m.ctrl_slots (next_idx m.capacity_ idx)).dib = 0
    · rw [if_pos hs]
      exact ⟨m, rfl, fun i _ => ⟨rfl, rfl⟩, fun i _ _ => Or.inl ⟨rfl, rfl⟩⟩
    · rw [if_neg hs]
      have hocc : occ m (next_idx m.capacity_ idx) := by
        by_contra hno
        exact hs (Or.inl ((is_empty_iff m _).2 hno))
      have hpos : 0 < (m.ctrl_slots (next_idx m.capacity_ idx)).dib := by
        rcases Nat.eq_zero_or_pos (m.ctrl_slots (next_idx m.capacity_ idx)).dib with h1 | h1
        · exact absurd (Or.inr h1) hs
        · exact h1
      have hcap := h.cap_lt
      have hidx := h.idx_lt
      have hnx : next_idx m.capacity_ idx < m.capacity_ := next_idx_lt hidx hcap
      have hne : idx ≠ next_idx m.capacity_ idx := by
        intro e
        rw [← e] at hocc
        exact h.hole_empty hocc
      have hdn := h.dib_lt _ hnx hocc
      have hhole := shift_step_hole h rfl hocc hpos
      have hso := shift_step_occ hne hpos hdn
      have hempty1 : ¬ occ (shift_step m idx (next_idx m.capacity_ idx))
          ((next_idx (shift_step m idx (next_idx m.capacity_ idx)).capacity_)^[n + 1]
            (next_idx m.capacity_ idx)) := by
        rw [shift_step_capacity, ← Function.iterate_succ_apply, hso]
        rintro (h1 | ⟨_, h1⟩)
        · exact iter_next_ne hidx hcap (by omega) hc h1
        · exact hempty h1
      obtain ⟨m1, h1, hfr, htr⟩ :=
        ih f (shift_step m idx (next_idx m.capacity_ idx)) (next_idx m.capacity_ idx) _
          hhole (by omega) (by rw [shift_step_capacity]; omega) hempty1
      have hframe : ∀ i, (∀ s, s ≤ n + 1 → i ≠ (next_idx m.capacity_)^[s] idx) →
          m1.ctrl_slots i = m.ctrl_slots i ∧ m1.kv_slots i = m.kv_slots i := by
        intro i hi
        have hi0 : i ≠ idx := hi 0 (by omega)
        have hi1 : i ≠ next_idx m.capacity_ idx := hi 1 (by omega)
        have := hfr i (fun s hs => by
          have := hi (s + 1) (by omega)
          rwa [Function.iterate_succ_apply] at this)
        rw [shift_step_ctrl m hne, shift_step_kv m hne, if_neg hi0, if_neg hi1, if_neg hi0,
          if_neg hi1] at this
        exact this
      refine ⟨m1, h1, hframe, ?_⟩
      intro i hi hocc1
      by_cases hprev : next_idx m.capacity_ i = idx
      · refine Or.inl (hframe i ?_)
        intro s hs heq
        have hcyc : (next_idx m.capacity_)^[s + 1] idx = idx := by
          rw [Function.iterate_succ_apply', ← heq]
          exact hprev
        exact iter_next_ne hidx hcap (by omega) (by omega) hcyc
      · rcases htr i hi hocc1 with ⟨hc1, hk1⟩ | ⟨ho, hk, hh, hd⟩
        · by_cases hi0 : i = idx
          · right
            rw [shift_step_ctrl m hne, if_pos hi0] at hc1
            rw [shift_step_kv m hne, if_pos hi0] at hk1
            subst hi0
            refine ⟨hocc, hk1, ?_, ?_⟩
            · rw [hc1]
            · rw [hc1]
              show u32 ((m.ctrl_slots (next_idx m.capacity_ i)).dib + (2 ^ 32 - 1)) + 1 = _
              rw [u32_pred hpos hdn]
              omega
          · by_cases hi1 : i = next_idx m.capacity_ idx
            · exfalso
              rw [shift_step_ctrl m hne, if_neg hi0, if_pos hi1] at hc1
              exact hocc1 (by rw [hc1])
            · left
              rw [shift_step_ctrl m hne, if_neg hi0, if_neg hi1] at hc1
              rw [shift_step_kv m hne, if_neg hi0, if_neg hi1] at hk1
              exact ⟨hc1, hk1⟩
        · have ho' : occ (shift_step m idx (next_idx m.capacity_ idx))
              (next_idx m.capacity_ i) := ho
          have hk' : m1.kv_slots i =
              (shift_step m idx (next_idx m.capacity_ idx)).kv_slots (next_idx m.capacity_ i) :=
            hk
          have hh' : (m1.ctrl_slots i).hash =
              ((shift_step m idx (next_idx m.capacity_ idx)).ctrl_slots
                (next_idx m.capacity_ i)).hash := hh
          have hd' : (m1.ctrl_slots i).dib + 1 =
              ((shift_step m idx (next_idx m.capacity_ idx)).ctrl_slots
                (next_idx m.capacity_ i)).dib := hd
          rcases (hso _).1 ho' with h2 | ⟨h2, h3⟩
          · exact absurd h2 hprev
          · right
            rw [shift_step_kv m hne, if_neg hprev, if_neg h2] at hk'
            rw [shift_step_ctrl m hne, if_neg hprev, if_neg h2] at hh' hd'
            exact ⟨h3, hk', hh', hd'⟩

theorem erase_trace {hash_func_ : K → Nat} {m : flat_hash_map K V} (hinv : Inv hash_func_ m)
    {fuel : Nat} {k : K} {r : flat_hash_map K V × Nat}
    (h : erase hash_func_ fuel m k = some r) :
    ∀ i, i < m.capacity_ → occ r.1 i → stays_or_moves_back m r.1 i := by
  have hbig := erase_mono hash_func_ fuel (max fuel m.capacity_) m k r (Nat.le_max_left _ _) h
  have hfuel : m.capacity_ ≤ max fuel m.capacity_ := Nat.le_max_right _ _
  rcases fresh_or_holds m k with hf | ⟨v, p, hp⟩
  · rw [erase_absent hinv hf hfuel] at hbig
    have := Option.some.inj hbig
    subst this
    exact fun i _ _ => Or.inl ⟨rfl, rfl⟩
  · have hwf := hinv.wf
    have hcap := hwf.cap_lt
    have h0 : m.capacity_ ≠ 0 := by
      have := hp.1
      omega
    obtain ⟨e, he, hempty⟩ := inv_has_empty hinv h0
    have hep : e ≠ p := by
      rintro rfl
      exact hempty hp.2.1
    obtain ⟨t, ht, hte⟩ := reach hp.1 he
    have ht0 : t ≠ 0 := by
      rintro rfl
      rw [Nat.add_zero, Nat.mod_eq_of_lt hp.1] at hte
      exact hep hte.symm
    obtain ⟨n, rfl⟩ : ∃ n, t = n + 1 := ⟨t - 1, by omega⟩
    have hit : (next_idx m.capacity_)^[n + 1] p = e := by
      rw [iter_next_eq (by omega) hcap _ _ hp.1, hte]
    obtain ⟨s0, hs0⟩ : ∃ s0, s0 = u32 (m.size_ + (2 ^ 32 - 1)) := ⟨_, rfl⟩
    have hwf0 : WF hash_func_ { m with size_ := s0 } := WF_with_size _ hwf
    have hhole := hole_of_destroy hwf0 he hempty hp.1 hp.2.1
    have hempty0 : ¬ occ (destroy_kv { m with size_ := s0 } p)
        ((next_idx (destroy_kv { m with size_ := s0 } p).capacity_)^[n + 1] p) := by
      show ¬ occ _ ((next_idx m.capacity_)^[n + 1] p)
      rw [hit, occ_destroy_kv]
      exact fun h => hempty h.2
    obtain ⟨m1, h1, _, htr⟩ :=
      erase_shift_trace n (max fuel m.capacity_) _ p _ hhole (by omega) ht hempty0
    have her : erase hash_func_ (max fuel m.capacity_) m k = some (m1, 1) := by
      unfold erase
      rw [if_neg h0, erase_loop_eq_probe, probe_found hwf he hempty hp hfuel]
      simp only [Option.some_bind, erase_of_probe, ← hs0, h1, Option.map_some']
    rw [her] at hbig
    have := Option.some.inj hbig
    subst this
    intro i hi hocc1
    rcases htr i hi hocc1 with ⟨hc1, hk1⟩ | ⟨ho, hk, hh, hd⟩
    · have hoi : occ (destroy_kv { m with size_ := s0 } p) i := by
        unfold occ at hocc1 ⊢
        rw [← hc1]
        exact hocc1
      rw [occ_destroy_kv] at hoi
      rw [destroy_kv_ctrl, if_neg hoi.1] at hc1
      rw [destroy_kv_kv, if_neg hoi.1] at hk1
      exact Or.inl ⟨hc1, hk1⟩
    · have ho' : occ (destroy_kv { m with size_ := s0 } p) (next_idx m.capacity_ i) := ho
      have hk' : m1.kv_slots i =
          (destroy_kv { m with size_ := s0 } p).kv_slots (next_idx m.capacity_ i) := hk
      have hh' : (m1.ctrl_slots i).hash =
          ((destroy_kv { m with size_ := s0 } p).ctrl_slots (next_idx m.capacity_ i)).hash := hh
      have hd' : (m1.ctrl_slots i).dib + 1 =
          ((destroy_kv { m with size_ := s0 } p).ctrl_slots (next_idx m.capacity_ i)).dib := hd
      rw [occ_destroy_kv] at ho'
      rw [destroy_kv_kv, if_neg ho'.1] at hk'
      rw [destroy_kv_ctrl, if_neg ho'.1] at hh' hd'
      exact Or.inr ⟨ho'.2, hk', hh', hd'⟩

end flat_hash_map

end ineffa


namespace ineffa

namespace flat_hash_map

variable {K V : Type} [DecidableEq K] [kv_slot_layout K V]

/-- C24: in a reachable state every occupied slot stores an entry and the 32-bit truncation
of the hash of its key, the ideal bucket `(hash * capacity) >> 32` is below the capacity and
the stored displacement is the circular distance `(i - bucket) mod capacity`; the same holds
after `try_emplace`, after `erase`, whose backward shift moves entries one slot back with
the displacement decremented by one, and after `rehash`; `erase` returns, and `try_emplace`
and `rehash` return when the 32-bit byte size of the buffer they allocate holds its
slots. -/
theorem C24_displacement [Inhabited V] (hash_func_ : K → Nat) (m : flat_hash_map K V)
    (hm : Reachable hash_func_ m) :
    distance_ok hash_func_ m ∧
      (∀ fuel k v r, capacity m * 7 < 2 ^ 32 →
        try_emplace hash_func_ fuel m k v = some r → distance_ok hash_func_ r.1) ∧
      (∀ k v, capacity m * 7 < 2 ^ 32 → grow_fits m = true →
        ∃ r, try_emplace hash_func_ (grown_capacity m) m k v = some r) ∧
      (∀ fuel k r, erase hash_func_ fuel m k = some r →
        distance_ok hash_func_ r.1 ∧
          ∀ i, i < capacity m → occ r.1 i → stays_or_moves_back m r.1 i) ∧
      (∀ k, ∃ r, erase hash_func_ (capacity m) m k = some r) ∧
      (∀ fuel new_capacity m1, size m < new_capacity → new_capacity < 2 ^ 32 →
        rehash fuel m new_capacity = some m1 → distance_ok hash_func_ m1) ∧
      (∀ new_capacity, size m < new_capacity → new_capacity < 2 ^ 32 →
        buffer_fits K V new_capacity = true →
        ∃ m1, rehash new_capacity m new_capacity = some m1) := by
  have hinv := inv_of_reachable hm
  refine ⟨distance_ok_of_WF hinv.wf (inv_dib_bound hinv), fun fuel k v r hg h => ?_,
    fun k v hg hfit => ?_, fun fuel k r h => ⟨?_, erase_trace hinv h⟩,
    fun k => erase_total hinv (Nat.le_refl _) k, fun fuel nc m1 hsz hnc h => ?_,
    fun nc hsz hnc hfit => rehash_total hinv hsz hnc hfit⟩
  · have h1 := (try_emplace_any hinv hg h).1
    exact distance_ok_of_WF h1.wf (inv_dib_bound h1)
  · obtain ⟨r, hr, _⟩ := try_emplace_total hinv hg (Nat.le_refl _) hfit k v
    exact ⟨r, hr⟩
  · have h1 := (erase_any hinv h).1
    exact distance_ok_of_WF h1.wf (inv_dib_bound h1)
  · obtain ⟨hwf, _, hbd⟩ := rehash_any hinv hsz hnc h
    exact distance_ok_of_WF hwf hbd

/-- C24 at a concrete input: the four-pair map, in which three entries sit after their
ideal bucket; erasing the key 1 moves them one slot back. -/
theorem C24_witness :
    Reachable example_hash example_map ∧
      distance_ok example_hash example_map ∧
      (∀ fuel k v r, capacity example_map * 7 < 2 ^ 32 →
        try_emplace example_hash fuel example_map k v = some r →
          distance_ok example_hash r.1) ∧
      (∀ k v, capacity example_map * 7 < 2 ^ 32 → grow_fits example_map = true →
        ∃ r, try_emplace example_hash (grown_capacity example_map) example_map k v = some r) ∧
      (∀ fuel k r, erase example_hash fuel example_map k = some r →
        distance_ok example_hash r.1 ∧
          ∀ i, i < capacity example_map → occ r.1 i → stays_or_moves_back example_map r.1 i) ∧
      (∀ k, ∃ r, erase example_hash (capacity example_map) example_map k = some r) ∧
      (∀ fuel new_capacity m1, size example_map < new_capacity → new_capacity < 2 ^ 32 →
        rehash fuel example_map new_capacity = some m1 → distance_ok example_hash m1) ∧
      (∀ new_capacity, size example_map < new_capacity → new_capacity < 2 ^ 32 →
        buffer_fits Nat Nat new_capacity = true →
        ∃ m1, rehash new_capacity example_map new_capacity = some m1) ∧
      ∃ r, erase example_hash 8 example_map 1 = some r ∧
        r.1.kv_slots 1 = example_map.kv_slots 2 ∧
        (r.1.ctrl_slots 1).dib + 1 = (example_map.ctrl_slots 2).dib ∧
        r.1.kv_slots 3 = example_map.kv_slots 4 ∧
        (r.1.ctrl_slots 3).dib + 1 = (example_map.ctrl_slots 4).dib :=
  ⟨example_map_reachable, (C24_displacement example_hash example_map example_map_reachable).1,
    (C24_displacement example_hash example_map example_map_reachable).2.1,
    (C24_displacement example_hash example_map example_map_reachable).2.2.1,
    (C24_displacement example_hash example_map example_map_reachable).2.2.2.1,
    (C24_displacement example_hash example_map example_map_reachable).2.2.2.2.1,
    (C24_displacement example_hash example_map example_map_reachable).2.2.2.2.2.1,
    (C24_displacement example_hash example_map example_map_reachable).2.2.2.2.2.2,
    (erase example_hash 8 example_map 1).getD (example_map, 0), rfl, by decide, by decide,
    by decide, by decide⟩

/-- C25: in a reachable state, for every slot `i` with circular successor
`j = (i + 1) mod capacity`, when `j` is occupied with a positive displacement then `i` is
occupied and the displacement of `j` is at most one more than that of `i`; the same holds
after `try_emplace`, after `erase` and after `rehash`; `erase` returns, and `try_emplace`
and `rehash` return when the 32-bit byte size of the buffer they allocate holds its
slots. -/
theorem C25_neighbours [Inhabited V] (hash_func_ : K → Nat) (m : flat_hash_map K V)
    (hm : Reachable hash_func_ m) :
    neighbours_ok m ∧
      (∀ i, i < capacity m → next_idx (capacity m) i = (i + 1) % capacity m) ∧
      (∀ fuel k v r, capacity m * 7 < 2 ^ 32 →
        try_emplace hash_func_ fuel m k v = some r → neighbours_ok r.1) ∧
      (∀ k v, capacity m * 7 < 2 ^ 32 → grow_fits m = true →
        ∃ r, try_emplace hash_func_ (grown_capacity m) m k v = some r) ∧
      (∀ fuel k r, erase hash_func_ fuel m k = some r → neighbours_ok r.1) ∧
      (∀ k, ∃ r, erase hash_func_ (capacity m) m k = some r) ∧
      (∀ fuel new_capacity m1, size m < new_capacity → new_capacity < 2 ^ 32 →
        rehash fuel m new_capacity = some m1 → neighbours_ok m1) ∧
      (∀ new_capacity, size m < new_capacity → new_capacity < 2 ^ 32 →
        buffer_fits K V new_capacity = true →
        ∃ m1, rehash new_capacity m new_capacity = some m1) := by
  have hinv := inv_of_reachable hm
  refine ⟨neighbours_ok_of_WF hinv.wf, fun i hi => next_idx_eq_mod hi hinv.wf.cap_lt,
    fun fuel k v r hg h => neighbours_ok_of_WF (try_emplace_any hinv hg h).1.wf,
    fun k v hg hfit => ?_, fun fuel k r h => neighbours_ok_of_WF (erase_any hinv h).1.wf,
    fun k => erase_total hinv (Nat.le_refl _) k,
    fun fuel nc m1 hsz hnc h => neighbours_ok_of_WF (rehash_any hinv hsz hnc h).1,
    fun nc hsz hnc hfit => rehash_total hinv hsz hnc hfit⟩
  obtain ⟨r, hr, _⟩ := try_emplace_total hinv hg (Nat.le_refl _) hfit k v
  exact ⟨r, hr⟩

/-- C25 at a concrete input: the three-pair map, where slot 2 has displacement 1 after
slot 1 with displacement 0, and slot 3 has displacement 0. -/
theorem C25_witness :
    Reachable example_hash example_dip_map ∧
      neighbours_ok example_dip_map ∧
      (∀ i, i < capacity example_dip_map →
        next_idx (capacity example_dip_map) i = (i + 1) % capacity example_dip_map) ∧
      (∀ fuel k v r, capacity example_dip_map * 7 < 2 ^ 32 →
        try_emplace example_hash fuel example_dip_map k v = some r → neighbours_ok r.1) ∧
      (∀ k v, capacity example_dip_map * 7 < 2 ^ 32 → grow_fits example_dip_map = true →
        ∃ r, try_emplace example_hash (grown_capacity example_dip_map) example_dip_map k v =
          some r) ∧
      (∀ fuel k r, erase example_hash fuel example_dip_map k = some r → neighbours_ok r.1) ∧
      (∀ k, ∃ r, erase example_hash (capacity example_dip_map) example_dip_map k = some r) ∧
      (∀ fuel new_capacity m1, size example_dip_map < new_capacity → new_capacity < 2 ^ 32 →
        rehash fuel example_dip_map new_capacity = some m1 → neighbours_ok m1) ∧
      (∀ new_capacity, size example_dip_map < new_capacity → new_capacity < 2 ^ 32 →
        buffer_fits Nat Nat new_capacity = true →
        ∃ m1, rehash new_capacity example_dip_map new_capacity = some m1) :=
  ⟨example_dip_map_reachable,
    C25_neighbours example_hash example_dip_map example_dip_map_reachable⟩

end flat_hash_map

end ineffa


/-! ## The byte size of the buffer of `rehash` -/

namespace ineffa

/-- Clearing the `a` low bits of a 64-bit number rounds it down to a multiple of `2 ^ a`. -/
theorem and_not_low_bits (x a : Nat) (hx : x < 2 ^ 64) (ha : a ≤ 64) :
    x &&& (2 ^ 64 - 2 ^ a) = x / 2 ^ a * 2 ^ a := by
  apply Nat.eq_of_testBit_eq
  intro i
  have h1 : 2 ^ 64 - 2 ^ a = 2 ^ a * (2 ^ (64 - a) - 1) := by
    rw [Nat.mul_sub, ← Nat.pow_add, Nat.mul_one]
    congr 2
    omega
  rw [Nat.testBit_and, h1, Nat.testBit_mul_pow_two, Nat.testBit_two_pow_sub_one,
    ← Nat.shiftRight_eq_div_pow, ← Nat.shiftLeft_eq, Nat.testBit_shiftLeft,
    Nat.testBit_shiftRight]
  by_cases hia : a ≤ i
  · have hai : a + (i - a) = i := by omega
    rw [hai]
    by_cases hi : i < 64
    · have : i - a < 64 - a := by omega
      simp [hia, this]
    · have hxi : x.testBit i = false :=
        Nat.testBit_lt_two_pow (lt_of_lt_of_le hx (Nat.pow_le_pow_right (by norm_num) (by omega)))
      simp [hxi]
  · simp [hia]

namespace flat_hash_map

variable {K V : Type} [DecidableEq K] [kv_slot_layout K V]

/-- When `alignof(kv_slot_t)` is a power of two, the offset of the value slots is the size
of the control array rounded up to a multiple of it. -/
theorem kv_slots_offset_bounds (a c : Nat) (ha : alignof_kv_slot_t K V = 2 ^ a)
    (h : sizeof_ctrl_slot_t * c + alignof_kv_slot_t K V ≤ 2 ^ 64) :
    sizeof_ctrl_slot_t * c ≤ kv_slots_offset K V c ∧
      kv_slots_offset K V c < sizeof_ctrl_slot_t * c + alignof_kv_slot_t K V := by
  have hpos : 0 < 2 ^ a := Nat.pow_pos (by norm_num)
  have ha64 : a ≤ 64 := by
    by_contra hlt
    have : 2 ^ 65 ≤ 2 ^ a := Nat.pow_le_pow_right (by norm_num) (by omega)
    omega
  unfold kv_slots_offset u64
  rw [ha] at h ⊢
  rw [Nat.mod_eq_of_lt (show sizeof_ctrl_slot_t * c + 2 ^ a - 1 < 2 ^ 64 by omega),
    Nat.mod_eq_of_lt (show 2 ^ a - 1 < 2 ^ 64 by omega),
    show 2 ^ 64 - 1 - (2 ^ a - 1) = 2 ^ 64 - 2 ^ a by omega,
    and_not_low_bits _ a (by omega) ha64]
  have hdm := Nat.div_add_mod (sizeof_ctrl_slot_t * c + 2 ^ a - 1) (2 ^ a)
  have hml := Nat.mod_lt (sizeof_ctrl_slot_t * c + 2 ^ a - 1) hpos
  rw [Nat.mul_comm] at hdm
  constructor <;> omega

/-- A buffer fits when its byte size, computed without truncation, is below `2 ^ 32`: with
`alignof(kv_slot_t)` a power of two it is enough that
`(sizeof(ctrl_slot_t) + sizeof(kv_slot_t)) * capacity + alignof(kv_slot_t) ≤ 2 ^ 32`. -/
theorem buffer_fits_of_le (a c : Nat) (ha : alignof_kv_slot_t K V = 2 ^ a)
    (h : sizeof_ctrl_slot_t * c + sizeof_kv_slot_t K V * c + alignof_kv_slot_t K V ≤ 2 ^ 32) :
    buffer_fits K V c = true := by
  obtain ⟨h1, h2⟩ := kv_slots_offset_bounds a c ha (by omega)
  have hsz : new_data_size K V c = kv_slots_offset K V c + sizeof_kv_slot_t K V * c := by
    unfold new_data_size u32 u64
    rw [Nat.mod_eq_of_lt (by omega), Nat.mod_eq_of_lt (by omega)]
  unfold buffer_fits
  rw [hsz]
  simp only [Bool.and_eq_true, decide_eq_true_eq]
  exact ⟨by omega, Nat.le_refl _⟩

/-- Where the buffer of the growth step does not fit, `try_emplace` has no result. -/
theorem try_emplace_of_not_fits (hash_func_ : K → Nat) (fuel : Nat) (m : flat_hash_map K V)
    (k : K) (v : V) (h : grow_fits m = false) : try_emplace hash_func_ fuel m k v = none := by
  unfold try_emplace grow_if_needed
  unfold grow_fits at h
  by_cases hthr : u32 (m.capacity_ * 7) / 8 ≤ m.size_
  · simp only [if_pos hthr] at h ⊢
    rw [rehash_of_not_fits fuel m h]
    rfl
  · rw [if_neg hthr] at h
    exact absurd h (by simp)

/-- The byte sizes of the example layout (8 bytes per control entry, 16 per value slot):
a table of 8 slots takes 192 bytes with the value slots at offset 64; the largest capacity
whose byte size fits in 32 bits is 178956970, and for 178956971 the size wraps to 8. -/
theorem new_data_size_example :
    new_data_size Nat Nat 8 = 192 ∧ kv_slots_offset Nat Nat 8 = 64 ∧
      new_data_size Nat Nat 178956970 = 4294967280 ∧
      buffer_fits Nat Nat 178956970 = true ∧
      new_data_size Nat Nat 178956971 = 8 ∧ buffer_fits Nat Nat 178956971 = false := by
  decide

/-- In the example layout every capacity up to 178956970 has a buffer that fits. -/
theorem buffer_fits_example (c : Nat) (h : c ≤ 178956970) : buffer_fits Nat Nat c = true :=
  buffer_fits_of_le 3 c rfl (by
    show 8 * c + 16 * c + 8 ≤ 2 ^ 32
    omega)

/-- The growth steps from capacity 8 reach capacity 130435233, whose growth threshold is
114130828 and whose successor 195652849 has a byte size that wraps in the example layout:
there `rehash` has no result, and neither has a `try_emplace` that has to grow the table. -/
theorem try_emplace_wraps_example (fuel k v : Nat) (m : flat_hash_map Nat Nat)
    (hc : m.capacity_ = 130435233) (hs : m.size_ = 114130828) :
    (fun c => u32 (c * 3) / 2)^[41] 8 = 130435233 ∧ 130435233 * 7 < 2 ^ 32 ∧
      u32 (130435233 * 7) / 8 = 114130828 ∧ u32 (130435233 * 3) / 2 = 195652849 ∧
      new_data_size Nat Nat 195652849 = 400701080 ∧
      rehash fuel m 195652849 = none ∧ try_emplace example_hash fuel m k v = none := by
  have hfit : grow_fits m = false := by
    unfold grow_fits
    rw [hc, hs]
    decide
  exact ⟨by decide, by decide, by decide, by decide, by decide,
    rehash_of_not_fits fuel m (by decide), try_emplace_of_not_fits example_hash fuel m k v hfit⟩

end flat_hash_map

end ineffa
